import Mathlib

/-!
BackupManager (src/BackupManager.cpp)

A shallow embedding of the `BackupManager` class and of the part of the C++
standard library it calls (`std::filesystem`, `std::string::find`, `ctime_s`,
`std::ofstream` in append mode).

Modelling conventions.

* A `std::string` and a `std::filesystem::path` are the list of their
  characters (`Str`); paths use the generic format with separator `/`, and a
  path is absolute when it starts with `/`.
* The file system is a table of nodes (regular files with their content, and
  directories) keyed by their location, the list of names leading from the root
  directory to the node.  There are no symbolic links, no permissions and no
  resource limits, so the only failures are the structural ones (missing
  entries, a file where a directory is needed, and so on).
* `recursive_directory_iterator` lists what is below the directory at the moment
  the iterator is created, in the order of the node table; in a well-formed table
  a directory is listed before its contents.  What the iterator does when the
  tree under it changes during the walk is unspecified in C++, so the theorems
  about a whole run assume that the sources and the destination lie apart.
* `fs::absolute` and `operator/` follow the POSIX rules of the standard
  (`absolute(p)` is `current_path() / p`); `ctime_s` produces the 25 characters
  of `asctime`, which end in a newline.
* An operation that throws returns the state reached so far together with
  `some message`.
-/

namespace SPZ

/-- A `std::string`: its characters. -/
abbrev Str := List Char

/-! ## Path strings -/

/-- Puts a character in front of the first segment. -/
def consHead (c : Char) : List Str → List Str
  | [] => [[c]]
  | s :: ss => (c :: s) :: ss

/-- The segments of a path string between its separators `/`. -/
def splitSlash : Str → List Str
  | [] => [[]]
  | c :: cs => if c = '/' then [] :: splitSlash cs else consHead c (splitSlash cs)

/-- `path::is_absolute`: the path starts with the root directory. -/
def is_absolute (p : Str) : Bool := p.head? = some '/'

/-- `path::filename`: what follows the last separator. -/
def filename (p : Str) : Str := ((splitSlash p).getLast?).getD []

/-- `path::has_filename`. -/
def has_filename (p : Str) : Bool := !(filename p).isEmpty

/-- `operator/` on paths: an absolute right operand replaces the left one;
otherwise a separator is added when the left operand ends in a filename, and the
right operand is appended. -/
def pathAppend (p q : Str) : Str :=
  if is_absolute q then q
  else if has_filename p then p ++ '/' :: q
  else p ++ q

/-- The elements a path iterator yields: the root directory, the filenames, and
an empty element for a trailing separator. -/
def elements (p : Str) : List Str :=
  (if is_absolute p then [['/']] else [])
    ++ (splitSlash p).filter (fun s => !s.isEmpty)
    ++ (if ((splitSlash p).filter (fun s => !s.isEmpty)).isEmpty then []
        else if p.getLast? = some '/' then [[]] else [])

/-- `std::mismatch` on two element sequences: the remainders after the longest
common prefix. -/
def mismatch : List Str → List Str → List Str × List Str
  | a :: as, b :: bs => if a = b then mismatch as bs else (a :: as, b :: bs)
  | as, bs => (as, bs)

/-- `path::lexically_relative`, as laid down in [fs.path.gen]. -/
def lexically_relative (p base : Str) : Str :=
  if is_absolute p != is_absolute base then []
  else
    let ab := mismatch (elements p) (elements base)
    if ab.1.isEmpty && ab.2.isEmpty then ['.']
    else
      let ups := ab.2.countP (fun e => e = ['.', '.'])
      let downs := ab.2.countP (fun e => !e.isEmpty && e != ['.'] && e != ['.', '.'] && e != ['/'])
      if downs < ups then []
      else if downs = ups && (ab.1.isEmpty || ab.1.head? = some []) then ['.']
      else (List.replicate (downs - ups) ['.', '.'] ++ ab.1).foldl pathAppend []

/-- Equality of two paths (`operator==`): the same elements. -/
def path_eq (p q : Str) : Bool := elements p = elements q

/-- `std::string::find(t)` from position 0: the first position at which `t`
occurs in `s`, `none` for `npos`. -/
def find : Str → Str → Option Nat
  | [], t => if t.isEmpty then some 0 else none
  | c :: cs, t => if t.isPrefixOf (c :: cs) then some 0 else (find cs t).map (· + 1)

/-! ## The file system -/

/-- A node of the file system. -/
inductive Node where
  | file (content : Str)
  | dir
  deriving DecidableEq, Repr

/-- The location of a node: the names from the root directory down to it. -/
abbrev Loc := List Str

/-- The local time in broken-down form (`struct tm`). -/
structure Tm where
  tm_sec : Nat
  tm_min : Nat
  tm_hour : Nat
  tm_mday : Nat
  tm_mon : Nat
  tm_year : Nat
  tm_wday : Nat
  deriving DecidableEq, Repr

/-- What the program runs in: the file system, the working directory of the
process, the reading of the clock and what was written to `std::cout`. -/
structure World where
  nodes : List (Loc × Node)
  cwd : Loc
  now : Tm
  console : List Str
  deriving DecidableEq, Repr

/-- The node at a location; the root directory always exists. -/
def World.node (w : World) (l : Loc) : Option Node :=
  if l = [] then some Node.dir else w.nodes.lookup l

/-- Stores a node: an existing entry is replaced in place, a new one is added at
the end of the table. -/
def World.put (w : World) (l : Loc) (n : Node) : World :=
  { w with nodes :=
      if (w.nodes.lookup l).isSome then w.nodes.map (fun e => if e.1 = l then (l, n) else e)
      else w.nodes ++ [(l, n)] }

/-- One step of path resolution: from a directory, an empty segment or `.` stays,
`..` goes to the parent, a name goes to the child of that name (present or not).
Stepping from anything but a directory fails. -/
def walkStep (w : World) (cur : Option Loc) (c : Str) : Option Loc :=
  match cur with
  | none => none
  | some l =>
    if w.node l = some Node.dir then
      if c = [] ∨ c = ['.'] then some l
      else if c = ['.', '.'] then some l.dropLast
      else some (l ++ [c])
    else none

/-- The location a path string designates, when all but its last name lead
through existing directories. -/
def resolve (w : World) (p : Str) : Option Loc :=
  if p = [] then none
  else (splitSlash p).foldl (walkStep w) (some (if is_absolute p then [] else w.cwd))

/-- `fs::status`: the node a path string designates, `none` for not found. -/
def status (w : World) (p : Str) : Option Node := (resolve w p).bind w.node

/-- `fs::exists`. -/
def fs_exists (w : World) (p : Str) : Bool := (status w p).isSome

/-- `fs::is_directory`. -/
def is_directory (w : World) (p : Str) : Bool := status w p = some Node.dir

/-- `fs::current_path()` as a string. -/
def current_path (w : World) : Str :=
  if w.cwd = [] then ['/'] else (w.cwd.map (fun n => '/' :: n)).flatten

/-- `fs::absolute` (POSIX): `current_path() / p`. -/
def absolute (w : World) (p : Str) : Str :=
  if p = [] then [] else pathAppend (current_path w) p

/-- One step of `create_directories`: like `walkStep`, but a missing child is
created and a regular file in the way is an error. -/
def mkdirStep (st : World × Option Loc) (c : Str) : World × Option Loc :=
  match st.2 with
  | none => st
  | some l =>
    if st.1.node l = some Node.dir then
      if c = [] ∨ c = ['.'] then st
      else if c = ['.', '.'] then (st.1, some l.dropLast)
      else
        match st.1.node (l ++ [c]) with
        | none => (st.1.put (l ++ [c]) Node.dir, some (l ++ [c]))
        | some Node.dir => (st.1, some (l ++ [c]))
        | some (Node.file _) => (st.1, none)
    else (st.1, none)

/-- `fs::create_directories`: creates every element of the path that does not
exist; throws when the path is empty or an element is not a directory. -/
def create_directories (w : World) (p : Str) : World × Option Str :=
  if p = [] then (w, some "filesystem error: cannot create directories: Invalid argument".toList)
  else
    let r := (splitSlash p).foldl mkdirStep (w, some (if is_absolute p then [] else w.cwd))
    match r.2 with
    | some _ => (r.1, none)
    | none => (r.1, some "filesystem error: cannot create directories: Not a directory".toList)

/-- `fs::copy_file(from, to, copy_options::overwrite_existing)`. -/
def copy_file (w : World) (src dst : Str) : World × Option Str :=
  match status w src with
  | some (Node.file c) =>
    match resolve w dst with
    | none => (w, some "filesystem error: cannot copy file: No such file or directory".toList)
    | some t =>
      match w.node t with
      | some Node.dir => (w, some "filesystem error: cannot copy file: Is a directory".toList)
      | some (Node.file _) =>
        if resolve w src = some t then
          (w, some "filesystem error: cannot copy file: File exists".toList)
        else (w.put t (Node.file c), none)
      | none =>
        if w.node t.dropLast = some Node.dir then (w.put t (Node.file c), none)
        else (w, some "filesystem error: cannot copy file: No such file or directory".toList)
  | _ => (w, some "filesystem error: cannot copy file: Invalid argument".toList)

/-- `fs::copy(from, to, copy_options::overwrite_existing)`: a regular file is
copied with `copy_file`, into the directory `to` when `to` is one; a directory is
not copied, the options being neither `none` nor `recursive`. -/
def copy (w : World) (src dst : Str) : World × Option Str :=
  match status w src with
  | none => (w, some "filesystem error: cannot copy: No such file or directory".toList)
  | some f =>
    if (status w dst).isSome ∧ resolve w src = resolve w dst then
      (w, some "filesystem error: cannot copy: File exists".toList)
    else
      match f with
      | Node.dir =>
        match status w dst with
        | some (Node.file _) => (w, some "filesystem error: cannot copy: Is a directory".toList)
        | _ => (w, none)
      | Node.file _ =>
        if is_directory w dst then copy_file w src (pathAppend dst (filename src))
        else copy_file w src dst

/-- The path a directory iterator reports for an entry: the path the iterator
was opened with, extended by the names leading to the entry. -/
def entryPath (source : Str) (rel : List Str) : Str := rel.foldl pathAppend source

/-- `fs::recursive_directory_iterator(source)`: the paths of all entries below
the directory; `none` when it cannot be opened. -/
def recursive_directory_iterator (w : World) (source : Str) : Option (List Str) :=
  match resolve w source with
  | none => none
  | some s =>
    if w.node s = some Node.dir then
      some (w.nodes.filterMap (fun e =>
        if s.isPrefixOf e.1 && e.1 != s then some (entryPath source (e.1.drop s.length))
        else none))
    else none

/-! ## The clock and the log -/

/-- The decimal digits of a number. -/
def digits (n : Nat) : Str := Nat.toDigits 10 n

/-- `%.2d`: at least two digits. -/
def pad2 (n : Nat) : Str := if n < 10 then '0' :: digits n else digits n

/-- `%3d`: right-aligned in three columns. -/
def pad3 (n : Nat) : Str :=
  if n < 10 then ' ' :: ' ' :: digits n else if n < 100 then ' ' :: digits n else digits n

/-- The names of the days of the week used by `asctime`. -/
def wday_name (d : Nat) : Str :=
  (["Sun", "Mon", "Tue", "Wed", "Thu", "Fri", "Sat"].map String.toList).getD d "???".toList

/-- The names of the months used by `asctime`. -/
def mon_name (m : Nat) : Str :=
  (["Jan", "Feb", "Mar", "Apr", "May", "Jun", "Jul", "Aug", "Sep", "Oct", "Nov",
    "Dec"].map String.toList).getD m "???".toList

/-- `asctime`: the format `"%.3s %.3s%3d %.2d:%.2d:%.2d %d\n"`. -/
def asctime (t : Tm) : Str :=
  wday_name t.tm_wday ++ ' ' :: mon_name t.tm_mon ++ pad3 t.tm_mday ++ ' ' :: pad2 t.tm_hour
    ++ ':' :: pad2 t.tm_min ++ ':' :: pad2 t.tm_sec ++ ' ' :: digits (1900 + t.tm_year) ++ ['\n']

/-- `ctime_s(buffer, 26, &now)`: the `asctime` text of the local time when it
fits the buffer with its terminator, the empty string otherwise. -/
def ctime_s (t : Tm) : Str := if (asctime t).length + 1 ≤ 26 then asctime t else []

/-- The name of the log file, relative to the working directory. -/
def logName : Str := "backup_log.txt".toList

/-- `BackupManager::logError`: opens `backup_log.txt` for appending and writes
the time buffer, `": "`, the message and a line end.  When the file cannot be
opened (a directory has that name) the stream fails silently. -/
def logError (w : World) (message : Str) : World :=
  match w.node (w.cwd ++ [logName]) with
  | some Node.dir => w
  | some (Node.file c) =>
    w.put (w.cwd ++ [logName]) (Node.file (c ++ (ctime_s w.now ++ ':' :: ' ' :: message ++ ['\n'])))
  | none =>
    w.put (w.cwd ++ [logName]) (Node.file (ctime_s w.now ++ ':' :: ' ' :: message ++ ['\n']))

/-! ## The class -/

/-- The data members of `BackupManager`. -/
structure BackupManager where
  directories : List Str
  exclusions : List Str
  backupDirectory : Str
  deriving DecidableEq, Repr

/-- The constructor `BackupManager::BackupManager`: `none` when
`create_directories` throws. -/
def BackupManager.construct (w : World) (backupDirectory : Str) : World × Option BackupManager :=
  if fs_exists w backupDirectory then (w, some ⟨[], [], backupDirectory⟩)
  else
    match create_directories w backupDirectory with
    | (w1, none) => (w1, some ⟨[], [], backupDirectory⟩)
    | (w1, some _) => (w1, none)

/-- `BackupManager::addDirectory`. -/
def BackupManager.addDirectory (m : BackupManager) (w : World) (directory : Str) :
    BackupManager × World :=
  if fs_exists w directory && is_directory w directory then
    ({ m with directories := m.directories ++ [directory] }, w)
  else (m, logError w ("Directory does not exist: ".toList ++ directory))

/-- `std::unordered_set<fs::path>::insert`: nothing happens when an equal path
is already a member. -/
def setInsert (s : List Str) (p : Str) : List Str :=
  if s.any (fun q => path_eq q p) then s else s ++ [p]

/-- `BackupManager::addExclusion`. -/
def BackupManager.addExclusion (m : BackupManager) (w : World) (path : Str) :
    BackupManager × World :=
  if fs_exists w path then
    ({ m with exclusions := setInsert m.exclusions (absolute w path) }, w)
  else (m, logError w ("Exclusion path does not exist: ".toList ++ path))

/-- `BackupManager::isExcluded`. -/
def BackupManager.isExcluded (m : BackupManager) (path : Str) : Bool :=
  m.exclusions.any (fun exclusion => find path exclusion = some 0)

/-- The body of the loop of `copyDirectory` for one entry. -/
def BackupManager.copyEntry (m : BackupManager) (w : World) (source destination path : Str) :
    World × Option Str :=
  let relativePathStr := lexically_relative path source
  let destPath := pathAppend destination relativePathStr
  if m.isExcluded path then (w, none)
  else if is_directory w path then create_directories w destPath
  else copy w path destPath

/-- The loop of `copyDirectory` over the entries the iterator yields; it stops
at the first exception. -/
def BackupManager.copyEntries (m : BackupManager) (source destination : Str) :
    World → List Str → World × Option Str
  | w, [] => (w, none)
  | w, path :: rest =>
    match m.copyEntry w source destination path with
    | (w1, none) => BackupManager.copyEntries m source destination w1 rest
    | (w1, some e) => (w1, some e)

/-- `BackupManager::copyDirectory`. -/
def BackupManager.copyDirectory (m : BackupManager) (w : World) (source destination : Str) :
    World × Option Str :=
  match recursive_directory_iterator w source with
  | none => (w, some "filesystem error: recursive directory iterator cannot open directory".toList)
  | some entries => m.copyEntries source destination w entries

/-- The body of the loop of `performBackup`: the `try` block and its handler. -/
def BackupManager.backupOne (m : BackupManager) (w : World) (directory : Str) : World :=
  match m.copyDirectory w directory m.backupDirectory with
  | (w1, none) => w1
  | (w1, some e) => logError w1 e

/-- The loop of `performBackup` over a list of directories. -/
def BackupManager.backupAll (m : BackupManager) (w : World) (dirs : List Str) : World :=
  dirs.foldl m.backupOne w

/-- `BackupManager::performBackup`. -/
def BackupManager.performBackup (m : BackupManager) (w : World) : World :=
  let w1 := m.backupAll w m.directories
  { w1 with console := w1.console ++ ["Backup completed.\n".toList] }

/-! ## Well-formed worlds -/

/-- A name a directory entry can have: not empty, not `.` or `..`, without a
separator. -/
def validName (n : Str) : Bool := !n.isEmpty && n != ['.'] && n != ['.', '.'] && !n.contains '/'

/-- Checks the node table entry by entry against the entries before it: the
location is not the root, is made of valid names, was not listed before, and its
parent is the root or a directory listed before. -/
def wfFrom (seen : List (Loc × Node)) : List (Loc × Node) → Bool
  | [] => true
  | e :: rest =>
    (e.1 != [] && e.1.all validName && (seen.lookup e.1).isNone
      && (e.1.dropLast == [] || seen.lookup e.1.dropLast == some Node.dir))
    && wfFrom (seen ++ [e]) rest

/-- A well-formed world: the node table is a tree in which a directory is listed
before its contents, and the working directory is a directory of it. -/
def World.WF (w : World) : Prop :=
  wfFrom [] w.nodes = true ∧ w.node w.cwd = some Node.dir ∧ w.cwd.all validName = true

instance (w : World) : Decidable w.WF := by unfold World.WF; infer_instance

/-- The names in the node table and in the working directory are valid. -/
def World.NamesOK (w : World) : Prop :=
  (∀ e ∈ w.nodes, ∀ n ∈ e.1, validName n = true) ∧ ∀ n ∈ w.cwd, validName n = true

/-- From `w` to `w1` nothing is deleted and nothing changes its kind: a directory
stays a directory and a regular file stays a regular file; the working directory
is the same. -/
def Keeps (w w1 : World) : Prop :=
  w1.cwd = w.cwd ∧
  ∀ l, (w.node l = some Node.dir → w1.node l = some Node.dir)
    ∧ ∀ c, w.node l = some (Node.file c) → ∃ c1, w1.node l = some (Node.file c1)

/-- `Keeps`, and every regular file at a location satisfying `P` has the content
it had. -/
def FrameOn (P : Loc → Prop) (w w1 : World) : Prop :=
  Keeps w w1 ∧ ∀ l c, P l → w.node l = some (Node.file c) → w1.node l = some (Node.file c)

/-- The location of the log file. -/
def World.logLoc (w : World) : Loc := w.cwd ++ [logName]

/-- The walk `create_directories` makes along a path string. -/
def mkdirWalk (w : World) (p : Str) : World × Option Loc :=
  (splitSlash p).foldl mkdirStep (w, some (if is_absolute p then [] else w.cwd))

/-- The paths a directory iterator opened at `source` reports: the source path
extended by one or more valid names. -/
def IsEntry (source p : Str) : Prop :=
  ∃ rel : List Str, rel ≠ [] ∧ (∀ x ∈ rel, validName x = true) ∧ p = entryPath source rel

/-- A write the operations make: a node is stored at a location made of valid
names whose parent is a directory; a directory only where nothing is, a regular
file only where no directory is. -/
def GoodPut (w : World) (l : Loc) (n : Node) : Prop :=
  l ≠ [] ∧ (∀ x ∈ l, validName x = true) ∧ w.node l.dropLast = some Node.dir
    ∧ (n = Node.dir → w.node l = none) ∧ w.node l ≠ some Node.dir

/-- The world `w1` is reached from `w` by writes at locations satisfying `Q`. -/
inductive Reach (Q : Loc → Prop) : World → World → Prop
  | refl (w : World) : Reach Q w w
  | put (w w1 : World) (l : Loc) (n : Node) :
      Reach Q w w1 → Q l → GoodPut w1 l n → Reach Q w (w1.put l n)

/-- Where the copy of a regular file mirrored at `t0` goes: into `t0` when that
is a directory, onto `t0` otherwise. -/
def copyTarget (w : World) (t0 : Loc) (n : Str) : Loc :=
  if w.node t0 = some Node.dir then t0 ++ [n] else t0

/-- Two nodes of the same kind: both absent, both directories or both regular
files. -/
def sameKind : Option Node → Option Node → Prop
  | none, none => True
  | some Node.dir, some Node.dir => True
  | some (Node.file _), some (Node.file _) => True
  | _, _ => False

/-- The relation between a first backup run at the world `a`, a second run at the
world `b` at the same point of the loop, and the world `f` the first run ends in:
below the destination `D` the second run sees the kinds of `f` and, at every
location, the node of `a` or that of `f`; elsewhere, the log file apart, the two
worlds agree. -/
structure Lock (D : Loc) (f a b : World) : Prop where
  keeps : Keeps a f
  ab : Keeps a b
  kind : ∀ l, D <+: l → sameKind (b.node l) (f.node l)
  node : ∀ l, D <+: l → b.node l = a.node l ∨ b.node l = f.node l
  off : ∀ l, ¬ D <+: l → l ≠ a.logLoc → b.node l = a.node l
  offd : ∀ l, ¬ D <+: l → b.node l = some Node.dir → a.node l = some Node.dir

/-- The paths the iterator opened at `source`, which designates `S`, reports for
the entries of a node table. -/
def entriesOf (source : Str) (S : Loc) (ns : List (Loc × Node)) : List Str :=
  ns.filterMap (fun e =>
    if S.isPrefixOf e.1 && e.1 != S then some (entryPath source (e.1.drop S.length)) else none)

/-- The situation the backup of one source is in: the world is well formed, the
source and destination strings designate the locations `S` and `D`, the
destination is a directory, and neither lies inside the other. -/
structure Setup (w : World) (source dest : Str) (S D : Loc) : Prop where
  wf : w.WF
  hS : resolve w source = some S
  hD : resolve w dest = some D
  hDd : w.node D = some Node.dir
  hSD : ¬ S <+: D
  hDS : ¬ D <+: S

/-- No copy of a source directory throws during the backup loop over `dirs`
started in the world `w`. -/
def BackupManager.noCopyError (m : BackupManager) : World → List Str → Bool
  | _, [] => true
  | w, d :: ds =>
    (m.copyDirectory w d m.backupDirectory).2.isNone
      && BackupManager.noCopyError m (m.copyDirectory w d m.backupDirectory).1 ds

/-- The spec's words for a canonicalized path: absolute, with no `.` or `..`
component left unresolved. -/
def Canonicalized (p : Str) : Prop :=
  is_absolute p = true ∧ ['.'] ∉ elements p ∧ ['.', '.'] ∉ elements p

instance (p : Str) : Decidable (Canonicalized p) := by unfold Canonicalized; infer_instance

/-- The number of line ends in a text. -/
def lineCount (s : Str) : Nat := s.count '\n'

/-! ## Example worlds -/

/-- A home directory with `src/a.txt` and `src/sub/b.txt`, an empty backup
directory `/bk`, and the process running in `/home/u`. -/
def exWorld : World :=
  World.mk
    [(["home".toList], Node.dir),
     (["home".toList, "u".toList], Node.dir),
     (["home".toList, "u".toList, "src".toList], Node.dir),
     (["home".toList, "u".toList, "src".toList, "a.txt".toList], Node.file "A".toList),
     (["home".toList, "u".toList, "src".toList, "sub".toList], Node.dir),
     (["home".toList, "u".toList, "src".toList, "sub".toList, "b.txt".toList],
        Node.file "B".toList),
     (["bk".toList], Node.dir)]
    ["home".toList, "u".toList] ⟨55, 3, 2, 2, 0, 80, 3⟩ []

/-- The world `exWorld` in which the backup directory already holds a regular
file named `sub`. -/
def exWorldBlocked : World :=
  { exWorld with nodes := exWorld.nodes ++ [(["bk".toList, "sub".toList], Node.file "X".toList)] }

/-- The world `exWorldBlocked` with the process running in the backup directory
`/bk`, so that the log file lies in the destination tree. -/
def exWorldLogInDest : World := { exWorldBlocked with cwd := ["bk".toList] }

/-- A world in which the process runs in `/home/u/logs`, which is itself a source
directory, and the source `/home/u/src` holds a directory `sub` where the backup
directory holds a regular file. -/
def exWorldLogInSource : World :=
  World.mk
    [(["home".toList], Node.dir),
     (["home".toList, "u".toList], Node.dir),
     (["home".toList, "u".toList, "src".toList], Node.dir),
     (["home".toList, "u".toList, "src".toList, "sub".toList], Node.dir),
     (["home".toList, "u".toList, "logs".toList], Node.dir),
     (["bk".toList], Node.dir),
     (["bk".toList, "sub".toList], Node.file "X".toList)]
    ["home".toList, "u".toList, "logs".toList] ⟨55, 3, 2, 2, 0, 80, 3⟩ []

/-- An engine for `/bk` with the source `/home/u/src`. -/
def exManagerOne : BackupManager := ⟨["/home/u/src".toList], [], "/bk".toList⟩

/-- An engine for `/bk` with the sources `/home/u/src` and `/home/u/logs`. -/
def exManagerLogs : BackupManager :=
  ⟨["/home/u/src".toList, "/home/u/logs".toList], [], "/bk".toList⟩

/-- Two source directories `/home/u/s1` and `/home/u/s2` that both hold a file
`x.txt`, with different contents, and an empty backup directory `/bk`. -/
def exWorldTwins : World :=
  World.mk
    [(["home".toList], Node.dir),
     (["home".toList, "u".toList], Node.dir),
     (["home".toList, "u".toList, "s1".toList], Node.dir),
     (["home".toList, "u".toList, "s1".toList, "x.txt".toList], Node.file "ONE".toList),
     (["home".toList, "u".toList, "s2".toList], Node.dir),
     (["home".toList, "u".toList, "s2".toList, "x.txt".toList], Node.file "TWO".toList),
     (["bk".toList], Node.dir)]
    ["home".toList, "u".toList] ⟨55, 3, 2, 2, 0, 80, 3⟩ []

/-- An engine for `/bk` with the sources `/home/u/s1` and `/home/u/s2`. -/
def exManagerTwins : BackupManager :=
  ⟨["/home/u/s1".toList, "/home/u/s2".toList], [], "/bk".toList⟩

/-- The world `exWorld` in which the backup directory already holds a directory
named `a.txt`. -/
def exWorldDirAtTarget : World :=
  { exWorld with nodes := exWorld.nodes ++ [(["bk".toList, "a.txt".toList], Node.dir)] }

/-- The world `exWorld` in which the backup directory already holds a file
`a.txt` with another content. -/
def exWorldStale : World :=
  { exWorld with
    nodes := exWorld.nodes ++ [(["bk".toList, "a.txt".toList], Node.file "OLD".toList)] }

/-- An engine for `/bk` without sources and exclusions. -/
def exManager : BackupManager := ⟨[], [], "/bk".toList⟩

/-- The engine for `/bk` after `addDirectory("src")` and `addExclusion("src/sub")`,
both given relative to the working directory `/home/u`, with the world they leave. -/
def exRelative : BackupManager × World :=
  ((exManager.addDirectory exWorld "src".toList).1.addExclusion
    (exManager.addDirectory exWorld "src".toList).2 "src/sub".toList)

/-- An engine for `/bk` with the sources `/home/u/src` and `/home/u/src/sub`. -/
def exManagerTwo : BackupManager :=
  ⟨["/home/u/src".toList, "/home/u/src/sub".toList], [], "/bk".toList⟩

end SPZ

namespace SPZ

/-! ## `isExcluded` -/

theorem find_eq_zero_iff (s t : Str) : find s t = some 0 ↔ t <+: s := by
  cases s with
  | nil =>
    cases t with
    | nil => simp [find]
    | cons a t => simp [find]
  | cons c cs =>
    by_cases h : t.isPrefixOf (c :: cs) = true
    · simp [find, h, List.isPrefixOf_iff_prefix.mp h]
    · have h2 : ¬ t <+: c :: cs := fun hp => h (List.isPrefixOf_iff_prefix.mpr hp)
      simp only [find, h, Bool.false_eq_true, if_false, h2, iff_false]
      cases find cs t <;> simp

theorem isExcluded_iff (m : BackupManager) (path : Str) :
    m.isExcluded path = true ↔ ∃ e ∈ m.exclusions, e <+: path := by
  simp [BackupManager.isExcluded, List.any_eq_true, find_eq_zero_iff]

/-- C3: `isExcluded(path)` is true exactly when some member of the exclusion set
is a character-wise prefix of the path string; with the exclusion set
`{"/data/foo"}` the path `/data/foobar` is excluded, and with an empty exclusion
set no path is. -/
theorem C3_isExcluded_iff_string_prefix (m : BackupManager) (path : Str) :
    (m.isExcluded path = true ↔ ∃ e ∈ m.exclusions, e <+: path)
    ∧ (BackupManager.mk m.directories ["/data/foo".toList] m.backupDirectory).isExcluded
        "/data/foobar".toList = true
    ∧ (BackupManager.mk m.directories [] m.backupDirectory).isExcluded path = false := by
  refine ⟨isExcluded_iff m path, ?_, ?_⟩
  · exact (isExcluded_iff _ _).mpr
      ⟨"/data/foo".toList, by simp, List.isPrefixOf_iff_prefix.mp (by decide)⟩
  · simp [BackupManager.isExcluded]

end SPZ

namespace SPZ

/-! ## The configuration operations -/

theorem is_directory_exists (w : World) (p : Str) (h : is_directory w p = true) :
    fs_exists w p = true := by
  simp only [is_directory, decide_eq_true_eq] at h
  simp [fs_exists, h]

theorem copyEntry_congr (m m1 : BackupManager) (he : m1.exclusions = m.exclusions)
    (w : World) (s d p : Str) : m1.copyEntry w s d p = m.copyEntry w s d p := by
  simp only [BackupManager.copyEntry, BackupManager.isExcluded, he]

theorem copyEntries_congr (m m1 : BackupManager) (he : m1.exclusions = m.exclusions)
    (s d : Str) (es : List Str) (w : World) :
    m1.copyEntries s d w es = m.copyEntries s d w es := by
  induction es generalizing w with
  | nil => rfl
  | cons p rest ih =>
    simp only [BackupManager.copyEntries, copyEntry_congr m m1 he]
    cases h : m.copyEntry w s d p with
    | mk w1 r =>
      cases r with
      | none => exact ih w1
      | some e => rfl

theorem backupOne_congr (m m1 : BackupManager) (he : m1.exclusions = m.exclusions)
    (hb : m1.backupDirectory = m.backupDirectory) : m1.backupOne = m.backupOne := by
  funext w d
  simp only [BackupManager.backupOne, BackupManager.copyDirectory, hb,
    copyEntries_congr m m1 he]

theorem backupAll_congr (m m1 : BackupManager) (he : m1.exclusions = m.exclusions)
    (hb : m1.backupDirectory = m.backupDirectory) (w : World) (dirs : List Str) :
    m1.backupAll w dirs = m.backupAll w dirs := by
  simp only [BackupManager.backupAll, backupOne_congr m m1 he hb]

theorem backupAll_append (m : BackupManager) (w : World) (xs ys : List Str) :
    m.backupAll w (xs ++ ys) = m.backupAll (m.backupAll w xs) ys := by
  simp [BackupManager.backupAll, List.foldl_append]

theorem backupAll_cons (m : BackupManager) (w : World) (d : Str) (ds : List Str) :
    m.backupAll w (d :: ds) = m.backupAll (m.backupOne w d) ds := rfl

/-- C9: `addDirectory(path)` turns the source list `L` into `L ++ [path]` when
the path is a directory (also when it is already in the list) and leaves it alone
otherwise; the exclusions and the destination are untouched; and the backup loop
of the new engine runs the sources accepted earlier in their order and the new one
last. -/
theorem C9_addDirectory_appends_in_order (m : BackupManager) (w w2 : World) (directory : Str) :
    (m.addDirectory w directory).1.directories
        = (if is_directory w directory = true then m.directories ++ [directory]
           else m.directories)
    ∧ (m.addDirectory w directory).1.exclusions = m.exclusions
    ∧ (m.addDirectory w directory).1.backupDirectory = m.backupDirectory
    ∧ (m.addDirectory w directory).1.backupAll w2 (m.addDirectory w directory).1.directories
        = (if is_directory w directory = true
           then m.backupOne (m.backupAll w2 m.directories) directory
           else m.backupAll w2 m.directories) := by
  by_cases h : is_directory w directory = true
  · have he := is_directory_exists w directory h
    simp only [BackupManager.addDirectory, h, he, Bool.and_self, if_true]
    refine ⟨trivial, trivial, trivial, ?_⟩
    simp only [backupAll_congr m
      ⟨m.directories ++ [directory], m.exclusions, m.backupDirectory⟩ rfl rfl, backupAll_append]
    rfl
  · simp only [BackupManager.addDirectory, h, Bool.and_false, Bool.false_eq_true, if_false]
    exact ⟨trivial, trivial, trivial, trivial⟩

/-- C5: when the copy of one source directory throws, `performBackup` logs the
message, goes on with every later source directory in list order and returns
normally. -/
theorem C5_failure_does_not_abort_later_sources (m : BackupManager) (w w1 : World)
    (pre post : List Str) (d e : Str) (hd : m.directories = pre ++ d :: post)
    (hfail : m.copyDirectory (m.backupAll w pre) d m.backupDirectory = (w1, some e)) :
    m.performBackup w
      = { m.backupAll (logError w1 e) post with
          console := (m.backupAll (logError w1 e) post).console ++ ["Backup completed.\n".toList] } := by
  have h1 : m.backupOne (m.backupAll w pre) d = logError w1 e := by
    simp only [BackupManager.backupOne, hfail]
  simp only [BackupManager.performBackup, hd, backupAll_append, backupAll_cons, h1]

set_option maxRecDepth 100000 in
theorem C5_failure_does_not_abort_later_sources_witness :
    exManagerTwo.directories = [] ++ "/home/u/src".toList :: ["/home/u/src/sub".toList]
    ∧ exManagerTwo.copyDirectory (exManagerTwo.backupAll exWorldBlocked [])
          "/home/u/src".toList exManagerTwo.backupDirectory
        = ((exManagerTwo.copyDirectory exWorldBlocked "/home/u/src".toList "/bk".toList).1,
           some "filesystem error: cannot create directories: Not a directory".toList)
    ∧ exManagerTwo.performBackup exWorldBlocked
        = { exManagerTwo.backupAll
              (logError (exManagerTwo.copyDirectory exWorldBlocked "/home/u/src".toList "/bk".toList).1
                "filesystem error: cannot create directories: Not a directory".toList)
              ["/home/u/src/sub".toList] with
            console := (exManagerTwo.backupAll
              (logError (exManagerTwo.copyDirectory exWorldBlocked "/home/u/src".toList "/bk".toList).1
                "filesystem error: cannot create directories: Not a directory".toList)
              ["/home/u/src/sub".toList]).console ++ ["Backup completed.\n".toList] } :=
  ⟨rfl, by decide,
    C5_failure_does_not_abort_later_sources exManagerTwo exWorldBlocked _ [] _ _ _ rfl (by decide)⟩

end SPZ

namespace SPZ

/-! ## `addExclusion` and `absolute` -/

theorem resolve_nil (w : World) : resolve w [] = none := by simp [resolve]

theorem fs_exists_ne_nil (w : World) (p : Str) (h : fs_exists w p = true) : p ≠ [] := by
  rintro rfl
  simp [fs_exists, status, resolve_nil] at h

theorem is_absolute_current_path (w : World) : is_absolute (current_path w) = true := by
  unfold current_path
  cases h : w.cwd with
  | nil => simp [is_absolute]
  | cons a l => simp [is_absolute, List.flatten]

theorem is_absolute_append_left (p q : Str) (h : is_absolute p = true) :
    is_absolute (p ++ q) = true := by
  cases p with
  | nil => simp [is_absolute] at h
  | cons a l => simpa [is_absolute] using h

theorem is_absolute_absolute (w : World) (p : Str) (h : p ≠ []) :
    is_absolute (absolute w p) = true := by
  simp only [absolute, h, if_false, pathAppend]
  by_cases hp : is_absolute p = true
  · simp [hp]
  · simp only [hp, Bool.false_eq_true, if_false]
    split <;> exact is_absolute_append_left _ _ (is_absolute_current_path w)

theorem suffix_absolute (w : World) (p : Str) : p <:+ absolute w p := by
  unfold absolute
  by_cases h : p = []
  · simp [h]
  · simp only [h, if_false, pathAppend]
    split
    · exact List.suffix_refl p
    · split
      · exact ⟨current_path w ++ ['/'], by simp⟩
      · exact List.suffix_append _ _

theorem mem_setInsert (s : List Str) (p e : Str) (h : e ∈ setInsert s p) : e ∈ s ∨ e = p := by
  unfold setInsert at h
  split at h
  · exact Or.inl h
  · simpa using h

/-- C8 (counterexample): `addExclusion("./src/sub")` in the working directory
`/home/u` stores `/home/u/./src/sub`, which still has a `.` component. -/
theorem C8_counterexample_dot_component_kept :
    fs_exists exWorld "./src/sub".toList = true
    ∧ (exManager.addExclusion exWorld "./src/sub".toList).1.exclusions
        = ["/home/u/./src/sub".toList]
    ∧ ¬ ∀ e ∈ (exManager.addExclusion exWorld "./src/sub".toList).1.exclusions,
        Canonicalized e := by
  decide

/-! ## Evaluations at concrete inputs -/

set_option maxRecDepth 100000 in
/-- C7: constructing the engine on the path of an existing regular file completes
without an error and leaves a destination that is not a directory. -/
theorem C7_regular_file_accepted_as_destination :
    BackupManager.construct exWorld "/home/u/src/a.txt".toList
        = (exWorld, some ⟨[], [], "/home/u/src/a.txt".toList⟩)
    ∧ fs_exists exWorld "/home/u/src/a.txt".toList = true
    ∧ is_directory exWorld "/home/u/src/a.txt".toList = false := by
  decide

set_option maxRecDepth 100000 in
/-- C4: `addDirectory("nosuch")` on a path that does not exist leaves the engine
as it is and creates the log with the text the handler writes, which has two line
ends: the one `ctime_s` puts after the time and the one after the message. -/
theorem C4_rejected_directory_logs_two_lines :
    fs_exists exWorld "nosuch".toList = false
    ∧ (exManager.addDirectory exWorld "nosuch".toList).1 = exManager
    ∧ exWorld.node ["home".toList, "u".toList, "backup_log.txt".toList] = none
    ∧ (exManager.addDirectory exWorld "nosuch".toList).2.node
          ["home".toList, "u".toList, "backup_log.txt".toList]
        = some (Node.file
            "Wed Jan  2 02:03:55 1980\n: Directory does not exist: nosuch\n".toList)
    ∧ lineCount "Wed Jan  2 02:03:55 1980\n: Directory does not exist: nosuch\n".toList = 2 := by
  decide

set_option maxRecDepth 100000 in
/-- C2: with the source registered as `src` and the exclusion as `src/sub`
(stored as `/home/u/src/sub`), the entries are tested under their relative
spelling `src/sub/...`, so `sub/b.txt` reaches the destination although the
absolute path of the entry starts with the exclusion. -/
theorem C2_relative_source_is_never_excluded :
    exRelative.1 = ⟨["src".toList], ["/home/u/src/sub".toList], "/bk".toList⟩
    ∧ exRelative.2 = exWorld
    ∧ absolute exWorld "src/sub/b.txt".toList = "/home/u/src/sub/b.txt".toList
    ∧ List.isPrefixOf "/home/u/src/sub".toList "/home/u/src/sub/b.txt".toList = true
    ∧ exWorld.node ["bk".toList, "sub".toList, "b.txt".toList] = none
    ∧ (exRelative.1.performBackup exRelative.2).node ["bk".toList, "sub".toList, "b.txt".toList]
        = some (Node.file "B".toList) := by
  decide

end SPZ

namespace SPZ

/-! ## Path strings: segments, names and resolution -/


theorem splitSlash_ne_nil (s : Str) : splitSlash s ≠ [] := by
  cases s with
  | nil => simp [splitSlash]
  | cons c cs =>
    simp only [splitSlash]
    split
    · simp
    · cases splitSlash cs <;> simp [consHead]

theorem consHead_append (c : Char) (xs ys : List Str) (h : xs ≠ []) :
    consHead c (xs ++ ys) = consHead c xs ++ ys := by
  cases xs with
  | nil => exact absurd rfl h
  | cons x xs => rfl

theorem splitSlash_append_slash (a b : Str) :
    splitSlash (a ++ '/' :: b) = splitSlash a ++ splitSlash b := by
  induction a with
  | nil => simp [splitSlash]
  | cons c a ih =>
    rw [List.cons_append]
    by_cases hc : c = '/'
    · simp [splitSlash, hc, ih]
    · simp only [splitSlash, hc, if_false, ih]
      exact consHead_append c _ _ (splitSlash_ne_nil a)

theorem splitSlash_noslash (n : Str) (h : '/' ∉ n) : splitSlash n = [n] := by
  induction n with
  | nil => rfl
  | cons c n ih =>
    have hc : c ≠ '/' := fun e => h (by simp [e])
    have hn : '/' ∉ n := fun e => h (by simp [e])
    simp [splitSlash, hc, ih hn, consHead]

theorem splitSlash_append_noslash (a b : Str) (h : '/' ∉ b) :
    splitSlash (a ++ b) = (splitSlash a).dropLast ++ [filename a ++ b] := by
  induction a with
  | nil => simp [splitSlash, filename, splitSlash_noslash b h]
  | cons c a ih =>
    have hne := splitSlash_ne_nil a
    rw [List.cons_append]
    by_cases hc : c = '/'
    · simp only [splitSlash, hc, if_true, ih]
      cases hX : splitSlash a with
      | nil => exact absurd hX hne
      | cons x xs => simp [filename, hX, splitSlash, List.dropLast]
    · simp only [splitSlash, hc, if_false, ih]
      cases hX : splitSlash a with
      | nil => exact absurd hX hne
      | cons x xs =>
        cases xs with
        | nil => simp [filename, hX, splitSlash, hc, consHead]
        | cons y ys => simp [filename, hX, splitSlash, hc, consHead, List.dropLast]

/-- The segments of a path end with its filename. -/
theorem splitSlash_eq_dropLast_filename (p : Str) :
    splitSlash p = (splitSlash p).dropLast ++ [filename p] := by
  have hne := splitSlash_ne_nil p
  unfold filename
  rw [List.getLast?_eq_getLast _ hne]
  simp [List.dropLast_append_getLast hne]

theorem validName_iff (n : Str) :
    validName n = true ↔ n ≠ [] ∧ n ≠ ['.'] ∧ n ≠ ['.', '.'] ∧ '/' ∉ n := by
  simp [validName, and_assoc]

theorem is_absolute_name (n : Str) (h : validName n = true) : is_absolute n = false := by
  obtain ⟨h1, -, -, h4⟩ := (validName_iff n).mp h
  cases n with
  | nil => exact absurd rfl h1
  | cons c n =>
    have hc : c ≠ '/' := fun e => h4 (by simp [e])
    simp [is_absolute, hc]

theorem pathAppend_name (p n : Str) (h : validName n = true) :
    pathAppend p n = if has_filename p = true then p ++ '/' :: n else p ++ n := by
  simp [pathAppend, is_absolute_name n h]

theorem has_filename_false (p : Str) (h : ¬ has_filename p = true) : filename p = [] := by
  simpa [has_filename] using h

theorem splitSlash_pathAppend (p n : Str) (h : validName n = true) :
    splitSlash (pathAppend p n)
      = (if has_filename p = true then splitSlash p else (splitSlash p).dropLast) ++ [n] := by
  have h4 : '/' ∉ n := ((validName_iff n).mp h).2.2.2
  rw [pathAppend_name p n h]
  by_cases hf : has_filename p = true
  · simp only [hf, if_true, splitSlash_append_slash, splitSlash_noslash n h4]
  · simp only [hf, if_false, Bool.false_eq_true, splitSlash_append_noslash p n h4,
      has_filename_false p hf, List.nil_append]

theorem pathAppend_ne_nil (p n : Str) (h : validName n = true) : pathAppend p n ≠ [] := by
  have h1 : n ≠ [] := ((validName_iff n).mp h).1
  rw [pathAppend_name p n h]
  split <;> simp [h1]

theorem is_absolute_pathAppend (p n : Str) (h : validName n = true) (hp : p ≠ []) :
    is_absolute (pathAppend p n) = is_absolute p := by
  rw [pathAppend_name p n h]
  cases p with
  | nil => exact absurd rfl hp
  | cons c p => split <;> simp [is_absolute]

theorem filename_pathAppend (p n : Str) (h : validName n = true) :
    filename (pathAppend p n) = n := by
  unfold filename
  rw [splitSlash_pathAppend p n h]
  simp

theorem has_filename_pathAppend (p n : Str) (h : validName n = true) :
    has_filename (pathAppend p n) = true := by
  have h1 : n ≠ [] := ((validName_iff n).mp h).1
  simp [has_filename, filename_pathAppend p n h, h1]

theorem entryPath_snoc (p : Str) (rel : List Str) (n : Str) :
    entryPath p (rel ++ [n]) = pathAppend (entryPath p rel) n := by
  simp [entryPath, List.foldl_append]

theorem entryPath_cons (p : Str) (rel : List Str) (n : Str) :
    entryPath p (n :: rel) = entryPath (pathAppend p n) rel := rfl

theorem entryPath_ne_nil (p : Str) (rel : List Str) (hp : p ≠ [])
    (hv : ∀ n ∈ rel, validName n = true) : entryPath p rel ≠ [] := by
  induction rel generalizing p with
  | nil => exact hp
  | cons n rel ih =>
    rw [entryPath_cons]
    exact ih _ (pathAppend_ne_nil p n (hv n (by simp))) (fun x hx => hv x (by simp [hx]))

theorem filename_entryPath (p : Str) (rel : List Str) (n : Str)
    (hn : validName n = true) : filename (entryPath p (rel ++ [n])) = n := by
  rw [entryPath_snoc, filename_pathAppend _ _ hn]

/-! ### Resolution of extended paths -/

theorem walkStep_nil_absorb (w : World) (x : Option Loc) (c : Str) :
    walkStep w (walkStep w x []) c = walkStep w x c := by
  cases x with
  | none => rfl
  | some l =>
    by_cases hd : w.node l = some Node.dir
    · simp [walkStep, hd]
    · simp [walkStep, hd]

theorem resolve_pathAppend (w : World) (p n : Str) (h : validName n = true) (hp : p ≠ []) :
    resolve w (pathAppend p n) = walkStep w (resolve w p) n := by
  simp only [resolve, pathAppend_ne_nil p n h, hp, if_false, is_absolute_pathAppend p n h hp,
    splitSlash_pathAppend p n h]
  by_cases hf : has_filename p = true
  · simp [hf, List.foldl_append]
  · simp only [hf, Bool.false_eq_true, if_false, List.foldl_append, List.foldl_cons,
      List.foldl_nil]
    conv_rhs => rw [splitSlash_eq_dropLast_filename p, has_filename_false p hf]
    simp only [List.foldl_append, List.foldl_cons, List.foldl_nil]
    rw [walkStep_nil_absorb]

theorem resolve_entryPath (w : World) (p : Str) (rel : List Str) (hp : p ≠ [])
    (hv : ∀ n ∈ rel, validName n = true) :
    resolve w (entryPath p rel) = rel.foldl (walkStep w) (resolve w p) := by
  induction rel generalizing p with
  | nil => rfl
  | cons n rel ih =>
    rw [entryPath_cons, ih _ (pathAppend_ne_nil p n (hv n (by simp)))
      (fun x hx => hv x (by simp [hx])), resolve_pathAppend w p n (hv n (by simp)) hp]
    rfl

end SPZ

namespace SPZ


/-! ### The relative path of an entry -/

theorem exists_snoc {α : Type} (l : List α) (h : l ≠ []) : ∃ r n, l = r ++ [n] :=
  ⟨l.dropLast, l.getLast h, (List.dropLast_append_getLast h).symm⟩

/-- The non-empty segments of a path. -/
theorem names_pathAppend (p n : Str) (h : validName n = true) :
    (splitSlash (pathAppend p n)).filter (fun s => !s.isEmpty)
      = (splitSlash p).filter (fun s => !s.isEmpty) ++ [n] := by
  have h1 : n ≠ [] := ((validName_iff n).mp h).1
  rw [splitSlash_pathAppend p n h]
  by_cases hf : has_filename p = true
  · simp [hf, h1]
  · simp only [hf, Bool.false_eq_true, if_false, List.filter_append]
    conv_rhs => rw [splitSlash_eq_dropLast_filename p, has_filename_false p hf]
    simp [h1]

theorem names_entryPath (p : Str) (rel : List Str) (hv : ∀ n ∈ rel, validName n = true) :
    (splitSlash (entryPath p rel)).filter (fun s => !s.isEmpty)
      = (splitSlash p).filter (fun s => !s.isEmpty) ++ rel := by
  induction rel generalizing p with
  | nil => simp [entryPath]
  | cons n rel ih =>
    rw [entryPath_cons, ih _ (fun x hx => hv x (by simp [hx])),
      names_pathAppend p n (hv n (by simp))]
    simp

theorem is_absolute_entryPath (p : Str) (rel : List Str) (hp : p ≠ [])
    (hv : ∀ n ∈ rel, validName n = true) :
    is_absolute (entryPath p rel) = is_absolute p := by
  induction rel generalizing p with
  | nil => rfl
  | cons n rel ih =>
    rw [entryPath_cons, ih _ (pathAppend_ne_nil p n (hv n (by simp)))
      (fun x hx => hv x (by simp [hx])), is_absolute_pathAppend p n (hv n (by simp)) hp]

theorem getLast_pathAppend (p n : Str) (h : validName n = true) :
    (pathAppend p n).getLast? ≠ some '/' := by
  obtain ⟨h1, -, -, h4⟩ := (validName_iff n).mp h
  rw [pathAppend_name p n h]
  have key : ∀ q : Str, (q ++ n).getLast? = n.getLast? := by
    intro q
    rw [List.getLast?_append_of_ne_nil _ h1]
  have hn : n.getLast? ≠ some '/' := by
    intro e
    exact h4 (List.mem_of_getLast?_eq_some e)
  split
  · have : p ++ '/' :: n = (p ++ ['/']) ++ n := by simp
    rw [this, key]; exact hn
  · rw [key]; exact hn

theorem elements_entryPath (p : Str) (rel : List Str) (n : Str)
    (hv : ∀ x ∈ rel ++ [n], validName x = true) :
    elements (entryPath p (rel ++ [n]))
      = (if is_absolute (entryPath p (rel ++ [n])) = true then [['/']] else [])
        ++ ((splitSlash p).filter (fun s => !s.isEmpty) ++ (rel ++ [n])) := by
  have hn : validName n = true := hv n (by simp)
  unfold elements
  rw [names_entryPath p (rel ++ [n]) hv]
  have h1 : (entryPath p (rel ++ [n])).getLast? ≠ some '/' := by
    rw [entryPath_snoc]; exact getLast_pathAppend _ _ hn
  simp [h1]

theorem mismatch_append (x a b : List Str) : mismatch (x ++ a) (x ++ b) = mismatch a b := by
  induction x with
  | nil => rfl
  | cons e x ih => simp [mismatch, ih]

theorem mismatch_rel (rel t : List Str) (hne : rel ≠ [])
    (hv : ∀ x ∈ rel, validName x = true) (ht : t = [] ∨ t = [[]]) :
    mismatch rel t = (rel, t) := by
  cases rel with
  | nil => exact absurd rfl hne
  | cons n rel =>
    have h1 : n ≠ [] := ((validName_iff n).mp (hv n (by simp))).1
    rcases ht with rfl | rfl
    · simp [mismatch]
    · simp [mismatch, h1]

theorem lexically_relative_entryPath (source : Str) (rel : List Str) (hs : source ≠ [])
    (hne : rel ≠ []) (hv : ∀ x ∈ rel, validName x = true) :
    lexically_relative (entryPath source rel) source = entryPath [] rel := by
  obtain ⟨r, n, hrel⟩ := exists_snoc rel hne
  have habs := is_absolute_entryPath source rel hs hv
  have hel : elements (entryPath source rel)
      = (if is_absolute source = true then [['/']] else [])
        ++ ((splitSlash source).filter (fun s => !s.isEmpty) ++ rel) := by
    have := elements_entryPath source r n (hrel ▸ hv)
    rw [← hrel, habs] at this
    exact this
  have hbase : ∃ t, (t = [] ∨ t = [[]]) ∧ elements source
      = (if is_absolute source = true then [['/']] else [])
        ++ ((splitSlash source).filter (fun s => !s.isEmpty) ++ t) := by
    unfold elements
    by_cases h1 : ((splitSlash source).filter (fun s => !s.isEmpty)).isEmpty = true
    · exact ⟨[], Or.inl rfl, by simp [h1]⟩
    · by_cases h2 : source.getLast? = some '/'
      · exact ⟨[[]], Or.inr rfl, by simp [h1, h2]⟩
      · exact ⟨[], Or.inl rfl, by simp [h1, h2]⟩
  obtain ⟨t, ht, hb⟩ := hbase
  have hmis : mismatch (elements (entryPath source rel)) (elements source) = (rel, t) := by
    rw [hel, hb, mismatch_append, mismatch_append]
    exact mismatch_rel _ _ hne hv ht
  have hhead : rel.head? ≠ some [] := by
    intro e
    have hm : ([] : Str) ∈ rel := List.mem_of_mem_head? e
    have := hv [] hm
    simp [validName] at this
  have hemp : rel.isEmpty = false := by
    cases rel with
    | nil => exact absurd rfl hne
    | cons a l => rfl
  unfold lexically_relative
  rw [habs, hmis]
  have hcnt1 : List.countP (fun e => decide (e = ['.', '.'])) t = 0 := by
    rcases ht with rfl | rfl <;> simp
  have hcnt2 : List.countP
      (fun e => !e.isEmpty && e != ['.'] && e != ['.', '.'] && e != ['/']) t = 0 := by
    rcases ht with rfl | rfl <;> simp
  simp only [hcnt1, hcnt2, hemp]
  simp [hhead, entryPath]

/-- A relative path made of names, appended to a path, spells the same as the
names appended one by one. -/
theorem pathAppend_entryPath (d : Str) (rel : List Str) (hne : rel ≠ [])
    (hv : ∀ x ∈ rel, validName x = true) :
    pathAppend d (entryPath [] rel) = entryPath d rel := by
  induction rel using List.reverseRecOn with
  | nil => exact absurd rfl hne
  | append_singleton r n ih =>
    have hn : validName n = true := hv n (by simp)
    have hr : ∀ x ∈ r, validName x = true := fun x hx => hv x (by simp [hx])
    rw [entryPath_snoc, entryPath_snoc]
    by_cases hrn : r = []
    · subst hrn
      simp only [entryPath, List.foldl_nil]
      have : pathAppend [] n = n := by simp [pathAppend_name [] n hn, has_filename, filename, splitSlash]
      rw [this]
    · rw [← ih hrn hr]
      obtain ⟨r0, n0, rfl⟩ := exists_snoc r hrn
      have hn0 : validName n0 = true := hr n0 (by simp)
      set q := entryPath [] (r0 ++ [n0]) with hq
      have hqf : has_filename q = true := by
        rw [hq, entryPath_snoc]; exact has_filename_pathAppend _ _ hn0
      have hqne : q ≠ [] := by
        rw [hq, entryPath_snoc]; exact pathAppend_ne_nil _ _ hn0
      have hqabs : is_absolute q = false := by
        rw [hq]
        clear hq hqf hqne ih
        -- the first name is not a separator
        cases r0 with
        | nil =>
          simp only [List.nil_append, entryPath, List.foldl_cons, List.foldl_nil]
          have : pathAppend [] n0 = n0 := by
            simp [pathAppend_name [] n0 hn0, has_filename, filename, splitSlash]
          rw [this]; exact is_absolute_name n0 hn0
        | cons a r1 =>
          have ha : validName a = true := hr a (by simp)
          have e1 : entryPath [] (a :: r1 ++ [n0]) = entryPath a (r1 ++ [n0]) := by
            have : pathAppend [] a = a := by
              simp [pathAppend_name [] a ha, has_filename, filename, splitSlash]
            simp only [List.cons_append, entryPath_cons, this]
          rw [e1, is_absolute_entryPath a _ ((validName_iff a).mp ha).1
            (fun x hx => hr x (by simp at hx ⊢; tauto))]
          exact is_absolute_name a ha
      have e2 : pathAppend q n = q ++ '/' :: n := by
        rw [pathAppend_name q n hn, hqf]; simp
      rw [e2]
      have hqn_abs : is_absolute (q ++ '/' :: n) = false := by
        cases hqc : q with
        | nil => exact absurd hqc hqne
        | cons c q1 => rw [hqc] at hqabs; simpa [is_absolute] using hqabs
      have hdq : has_filename (pathAppend d q) = true := by
        unfold pathAppend
        rw [hqabs]
        simp only [Bool.false_eq_true, if_false]
        have key : ∀ x : Str, has_filename (x ++ q) = true := by
          intro x
          have hl : q.getLast? ≠ some '/' := by
            rw [hq, entryPath_snoc]; exact getLast_pathAppend _ _ hn0
          obtain ⟨qi, c, hqc⟩ := exists_snoc q hqne
          have hc : c ≠ '/' := by
            intro e; apply hl; rw [hqc, e]; simp
          have hcn : '/' ∉ [c] := by simp [Ne.symm hc]
          rw [hqc, ← List.append_assoc]
          unfold has_filename filename
          rw [splitSlash_append_noslash _ _ hcn]
          simp
        split
        · have : d ++ '/' :: q = (d ++ ['/']) ++ q := by simp
          rw [this]; exact key _
        · exact key _
      rw [pathAppend_name (pathAppend d q) n hn, hdq]
      simp only [if_true]
      unfold pathAppend
      rw [hqn_abs, hqabs]
      simp only [Bool.false_eq_true, if_false]
      split <;> simp

end SPZ

namespace SPZ


/-! ### The loop body on an entry of the source -/

theorem copyEntry_entryPath (m : BackupManager) (w : World) (source dest : Str)
    (rel : List Str) (hs : source ≠ []) (hne : rel ≠ [])
    (hv : ∀ x ∈ rel, validName x = true) :
    m.copyEntry w source dest (entryPath source rel)
      = if m.isExcluded (entryPath source rel) = true then (w, none)
        else if is_directory w (entryPath source rel) = true
          then create_directories w (entryPath dest rel)
        else copy w (entryPath source rel) (entryPath dest rel) := by
  simp only [BackupManager.copyEntry, lexically_relative_entryPath source rel hs hne hv,
    pathAppend_entryPath dest rel hne hv]

/-! ### The node table -/

theorem lookup_append (a b : List (Loc × Node)) (k : Loc) :
    (a ++ b).lookup k = match a.lookup k with
      | some n => some n
      | none => b.lookup k := by
  induction a with
  | nil => rfl
  | cons e a ih =>
    obtain ⟨k1, n1⟩ := e
    by_cases h : k = k1
    · subst h; simp [List.lookup]
    · have : (k == k1) = false := by simpa using h
      simp [List.lookup, this, ih]

theorem lookup_replace (ns : List (Loc × Node)) (l k : Loc) (n : Node) :
    (ns.map (fun e => if e.1 = l then (l, n) else e)).lookup k
      = if k = l then (ns.lookup l).map (fun _ => n) else ns.lookup k := by
  induction ns with
  | nil => simp [List.lookup]
  | cons e ns ih =>
    obtain ⟨k1, n1⟩ := e
    rw [List.map_cons]
    show List.lookup k ((if k1 = l then (l, n) else (k1, n1)) :: _) = _
    by_cases h1 : k1 = l
    · rw [if_pos h1]
      subst h1
      by_cases h2 : k = k1
      · subst h2; simp [List.lookup]
      · have : (k == k1) = false := by simpa using h2
        simp only [List.lookup, this, h2, if_false, ih]
    · rw [if_neg h1]
      by_cases h2 : k = k1
      · subst h2
        simp [List.lookup, h1]
      · have : (k == k1) = false := by simpa using h2
        have h3 : (l == k1) = false := by simpa using Ne.symm h1
        simp only [List.lookup, this, h3, ih]

theorem node_put (w : World) (l k : Loc) (n : Node) (hl : l ≠ []) :
    (w.put l n).node k = if k = l then some n else w.node k := by
  unfold World.put World.node
  by_cases hk : k = []
  · have : k ≠ l := fun e => hl (e ▸ hk)
    simp [hk, this, Ne.symm hl]
  · simp only [hk, if_false]
    cases hlk : w.nodes.lookup l with
    | some n0 =>
      simp only [Option.isSome_some, if_true, lookup_replace, hlk, Option.map_some']
    | none =>
      simp only [Option.isSome_none, Bool.false_eq_true, if_false, lookup_append]
      by_cases hkl : k = l
      · subst hkl; simp [hlk, List.lookup]
      · have : (k == l) = false := by simpa using hkl
        simp only [hkl, if_false]
        cases w.nodes.lookup k <;> simp [List.lookup, this]

@[simp] theorem put_cwd (w : World) (l : Loc) (n : Node) : (w.put l n).cwd = w.cwd := rfl
@[simp] theorem put_now (w : World) (l : Loc) (n : Node) : (w.put l n).now = w.now := rfl
@[simp] theorem put_console (w : World) (l : Loc) (n : Node) :
    (w.put l n).console = w.console := rfl

theorem node_root (w : World) : w.node [] = some Node.dir := by simp [World.node]

/-! ### Walking through names -/

theorem walk_none (w : World) (rel : List Str) : rel.foldl (walkStep w) none = none := by
  induction rel with
  | nil => rfl
  | cons n rel ih => simpa [walkStep] using ih

theorem walkStep_name (w : World) (l : Loc) (n : Str) (h : validName n = true) :
    walkStep w (some l) n = if w.node l = some Node.dir then some (l ++ [n]) else none := by
  obtain ⟨h1, h2, h3, -⟩ := (validName_iff n).mp h
  simp [walkStep, h1, h2, h3]

theorem walk_names (w : World) (rel : List Str) (l t : Loc)
    (hv : ∀ x ∈ rel, validName x = true)
    (h : rel.foldl (walkStep w) (some l) = some t) : t = l ++ rel := by
  induction rel generalizing l with
  | nil => simpa using h.symm
  | cons n rel ih =>
    rw [List.foldl_cons, walkStep_name w l n (hv n (by simp))] at h
    by_cases hd : w.node l = some Node.dir
    · rw [if_pos hd] at h
      have := ih (l ++ [n]) (fun x hx => hv x (by simp [hx])) h
      simpa using this
    · rw [if_neg hd, walk_none] at h
      exact absurd h (by simp)

/-- Every directory on the way from `l` down to (but excluding) `l ++ rel`. -/
theorem walk_names_eq (w : World) (rel : List Str) (l : Loc)
    (hv : ∀ x ∈ rel, validName x = true) :
    rel.foldl (walkStep w) (some l)
      = if ∀ k < rel.length, w.node (l ++ rel.take k) = some Node.dir then some (l ++ rel)
        else none := by
  induction rel generalizing l with
  | nil => simp
  | cons n rel ih =>
    rw [List.foldl_cons, walkStep_name w l n (hv n (by simp))]
    by_cases hd : w.node l = some Node.dir
    · rw [if_pos hd, ih (l ++ [n]) (fun x hx => hv x (by simp [hx]))]
      have e : (∀ k < rel.length, w.node (l ++ n :: rel.take k) = some Node.dir)
          ↔ (∀ k < (n :: rel).length, w.node (l ++ (n :: rel).take k) = some Node.dir) := by
        constructor
        · intro h k hk
          cases k with
          | zero => simpa using hd
          | succ k =>
            have := h k (by simpa using hk)
            simpa using this
        · intro h k hk
          have := h (k + 1) (by simpa using hk)
          simpa using this
      simp only [List.append_assoc, List.singleton_append]
      simp only [e]
    · rw [if_neg hd, walk_none]
      have : ¬ ∀ k < (n :: rel).length, w.node (l ++ (n :: rel).take k) = some Node.dir := by
        intro h
        have := h 0 (by simp)
        simp at this
        exact hd this
      rw [if_neg this]

end SPZ

namespace SPZ


/-! ### Frames -/

theorem keeps_refl (w : World) : Keeps w w :=
  ⟨rfl, fun _ => ⟨id, fun c h => ⟨c, h⟩⟩⟩

theorem keeps_trans {w w1 w2 : World} (h1 : Keeps w w1) (h2 : Keeps w1 w2) : Keeps w w2 := by
  refine ⟨h2.1.trans h1.1, fun l => ⟨fun hd => (h2.2 l).1 ((h1.2 l).1 hd), fun c hc => ?_⟩⟩
  obtain ⟨c1, hc1⟩ := (h1.2 l).2 c hc
  exact (h2.2 l).2 c1 hc1

theorem frame_refl (P : Loc → Prop) (w : World) : FrameOn P w w :=
  ⟨keeps_refl w, fun _ _ _ h => h⟩

theorem frame_trans {P : Loc → Prop} {w w1 w2 : World} (h1 : FrameOn P w w1)
    (h2 : FrameOn P w1 w2) : FrameOn P w w2 :=
  ⟨keeps_trans h1.1 h2.1, fun l c hp hc => h2.2 l c hp (h1.2 l c hp hc)⟩

theorem frame_put_dir (P : Loc → Prop) (w : World) (l : Loc) (hl : l ≠ [])
    (hn : w.node l = none) : FrameOn P w (w.put l Node.dir) := by
  have key : ∀ k x, w.node k = some x → (w.put l Node.dir).node k = some x := by
    intro k x hk
    rw [node_put w l k _ hl]
    have : k ≠ l := by rintro rfl; rw [hn] at hk; exact absurd hk (by simp)
    simp [this, hk]
  exact ⟨⟨rfl, fun k => ⟨key k _, fun c hc => ⟨c, key k _ hc⟩⟩⟩, fun k c _ hc => key k _ hc⟩

theorem frame_put_file (P : Loc → Prop) (w : World) (l : Loc) (c : Str) (hl : l ≠ [])
    (hn : w.node l ≠ some Node.dir) (hp : ¬ P l) : FrameOn P w (w.put l (Node.file c)) := by
  refine ⟨⟨rfl, fun k => ⟨fun hd => ?_, fun c0 hc => ?_⟩⟩, fun k c0 hk hc => ?_⟩
  · rw [node_put w l k _ hl]
    have : k ≠ l := by rintro rfl; exact hn hd
    simp [this, hd]
  · rw [node_put w l k _ hl]
    by_cases hkl : k = l
    · exact ⟨c, by simp [hkl]⟩
    · exact ⟨c0, by simp [hkl, hc]⟩
  · rw [node_put w l k _ hl]
    have : k ≠ l := by rintro rfl; exact hp hk
    simp [this, hc]

theorem namesOK_put (w : World) (l : Loc) (n : Node) (h : w.NamesOK)
    (hl : ∀ x ∈ l, validName x = true) : (w.put l n).NamesOK := by
  refine ⟨fun e he => ?_, h.2⟩
  unfold World.put at he
  simp only at he
  split at he
  · rw [List.mem_map] at he
    obtain ⟨e0, he0, rfl⟩ := he
    split
    · exact hl
    · exact h.1 e0 he0
  · rw [List.mem_append] at he
    rcases he with he | he
    · exact h.1 e he
    · simp only [List.mem_singleton] at he
      subst he; exact hl

/-! ### Segments carry no separator -/

theorem noslash_of_mem_splitSlash (p s : Str) (h : s ∈ splitSlash p) : '/' ∉ s := by
  induction p generalizing s with
  | nil => simp [splitSlash] at h; simp [h]
  | cons c p ih =>
    simp only [splitSlash] at h
    by_cases hc : c = '/'
    · simp only [hc, if_true, List.mem_cons] at h
      rcases h with h | h
      · simp [h]
      · exact ih s h
    · simp only [hc, if_false] at h
      cases hX : splitSlash p with
      | nil => exact absurd hX (splitSlash_ne_nil p)
      | cons x xs =>
        rw [hX] at h ih
        simp only [consHead, List.mem_cons] at h
        rcases h with h | h
        · have hx := ih x (by simp)
          subst h
          simp only [List.mem_cons, not_or]
          exact ⟨Ne.symm hc, hx⟩
        · exact ih s (by simp [h])

theorem validName_of_segment (c : Str) (h1 : ¬ (c = [] ∨ c = ['.'])) (h2 : c ≠ ['.', '.'])
    (h3 : '/' ∉ c) : validName c = true := by
  rw [validName_iff]
  exact ⟨fun e => h1 (Or.inl e), fun e => h1 (Or.inr e), h2, h3⟩

theorem mem_dropLast_valid {l : Loc} (hl : ∀ n ∈ l, validName n = true) :
    ∀ n ∈ l.dropLast, validName n = true :=
  fun n hn => hl n (List.dropLast_subset l hn)

theorem walkStep_valid (w : World) (x : Option Loc) (c : Str) (hc : '/' ∉ c)
    (hx : ∀ l, x = some l → ∀ n ∈ l, validName n = true) :
    ∀ l, walkStep w x c = some l → ∀ n ∈ l, validName n = true := by
  intro l hl
  cases x with
  | none => simp [walkStep] at hl
  | some l0 =>
    have h0 := hx l0 rfl
    simp only [walkStep] at hl
    split at hl
    · split at hl
      · simp only [Option.some.injEq] at hl; subst hl; exact h0
      · rename_i h1
        split at hl
        · simp only [Option.some.injEq] at hl; subst hl; exact mem_dropLast_valid h0
        · rename_i h2
          simp only [Option.some.injEq] at hl; subst hl
          intro n hn
          rw [List.mem_append] at hn
          rcases hn with hn | hn
          · exact h0 n hn
          · simp only [List.mem_singleton] at hn
            subst hn; exact validName_of_segment _ h1 h2 hc
    · exact absurd hl (by simp)

theorem walk_valid (w : World) (segs : List Str) (x : Option Loc)
    (hs : ∀ s ∈ segs, '/' ∉ s) (hx : ∀ l, x = some l → ∀ n ∈ l, validName n = true) :
    ∀ l, segs.foldl (walkStep w) x = some l → ∀ n ∈ l, validName n = true := by
  induction segs generalizing x with
  | nil => simpa using hx
  | cons c segs ih =>
    rw [List.foldl_cons]
    exact ih _ (fun s h => hs s (by simp [h]))
      (walkStep_valid w x c (hs c (by simp)) hx)

theorem resolve_valid (w : World) (p : Str) (l : Loc) (hw : ∀ n ∈ w.cwd, validName n = true)
    (h : resolve w p = some l) : ∀ n ∈ l, validName n = true := by
  unfold resolve at h
  split at h
  · exact absurd h (by simp)
  · refine walk_valid w _ _ (fun s hs => noslash_of_mem_splitSlash p s hs) ?_ l h
    intro l0 hl0
    simp only [Option.some.injEq] at hl0
    subst hl0
    split
    · simp
    · exact hw

theorem resolve_ne_nil (w : World) (p : Str) (l : Loc) (h : resolve w p = some l) : p ≠ [] := by
  rintro rfl
  simp [resolve_nil] at h

/-! ### Resolution in a world that keeps everything -/

theorem walkStep_mono {w w1 : World} (hk : Keeps w w1) (x : Option Loc) (c : Str) (l : Loc)
    (h : walkStep w x c = some l) : walkStep w1 x c = some l := by
  cases x with
  | none => simp [walkStep] at h
  | some l0 =>
    simp only [walkStep] at h ⊢
    by_cases hd : w.node l0 = some Node.dir
    · rw [if_pos hd] at h
      rw [if_pos ((hk.2 l0).1 hd)]
      exact h
    · rw [if_neg hd] at h
      exact absurd h (by simp)

theorem walk_mono {w w1 : World} (hk : Keeps w w1) (segs : List Str) (x : Option Loc) (l : Loc)
    (h : segs.foldl (walkStep w) x = some l) : segs.foldl (walkStep w1) x = some l := by
  induction segs using List.reverseRecOn generalizing l with
  | nil => simpa using h
  | append_singleton segs c ih =>
    rw [List.foldl_append, List.foldl_cons, List.foldl_nil] at h ⊢
    cases hx : segs.foldl (walkStep w) x with
    | none => rw [hx] at h; simp [walkStep] at h
    | some l0 =>
      rw [hx] at h
      rw [ih l0 hx]
      exact walkStep_mono hk _ c l h

theorem resolve_mono {w w1 : World} (hk : Keeps w w1) (p : Str) (l : Loc)
    (h : resolve w p = some l) : resolve w1 p = some l := by
  unfold resolve at h ⊢
  split at h
  · exact absurd h (by simp)
  · rename_i hp
    rw [if_neg hp, hk.1]
    exact walk_mono hk _ _ l h

end SPZ

namespace SPZ


/-! ### What the file system operations keep -/

theorem mkdirStep_frame (P : Loc → Prop) (st : World × Option Loc) (c : Str) :
    FrameOn P st.1 (mkdirStep st c).1 := by
  unfold mkdirStep
  split
  · exact frame_refl P _
  · rename_i l hl
    split
    · split
      · exact frame_refl P _
      · split
        · exact frame_refl P _
        · split
          · rename_i hn
            exact frame_put_dir P _ _ (by simp) hn
          · exact frame_refl P _
          · exact frame_refl P _
    · exact frame_refl P _

theorem mkdirStep_names (st : World × Option Loc) (c : Str) (hc : '/' ∉ c)
    (hn : st.1.NamesOK) (hl : ∀ l, st.2 = some l → ∀ n ∈ l, validName n = true) :
    (mkdirStep st c).1.NamesOK
      ∧ ∀ l, (mkdirStep st c).2 = some l → ∀ n ∈ l, validName n = true := by
  unfold mkdirStep
  split
  · exact ⟨hn, hl⟩
  · rename_i l hl0
    have h0 := hl l hl0
    split
    · split
      · exact ⟨hn, hl⟩
      · rename_i h1
        split
        · refine ⟨hn, fun l1 hl1 => ?_⟩
          simp only [Option.some.injEq] at hl1; subst hl1
          exact mem_dropLast_valid h0
        · rename_i h2
          have hv : ∀ n ∈ l ++ [c], validName n = true := by
            intro n hn
            rw [List.mem_append] at hn
            rcases hn with hn | hn
            · exact h0 n hn
            · simp only [List.mem_singleton] at hn
              subst hn; exact validName_of_segment _ h1 h2 hc
          split
          · refine ⟨namesOK_put _ _ _ hn hv, fun l1 hl1 => ?_⟩
            simp only [Option.some.injEq] at hl1; subst hl1; exact hv
          · refine ⟨hn, fun l1 hl1 => ?_⟩
            simp only [Option.some.injEq] at hl1; subst hl1; exact hv
          · exact ⟨hn, fun l1 hl1 => absurd hl1 (by simp)⟩
    · exact ⟨hn, fun l1 hl1 => absurd hl1 (by simp)⟩

theorem mkdirFold_frame (P : Loc → Prop) (segs : List Str) (st : World × Option Loc) :
    FrameOn P st.1 (segs.foldl mkdirStep st).1 := by
  induction segs generalizing st with
  | nil => exact frame_refl P _
  | cons c segs ih => exact frame_trans (mkdirStep_frame P st c) (ih _)

theorem mkdirFold_names (segs : List Str) (st : World × Option Loc)
    (hs : ∀ s ∈ segs, '/' ∉ s) (hn : st.1.NamesOK)
    (hl : ∀ l, st.2 = some l → ∀ n ∈ l, validName n = true) :
    (segs.foldl mkdirStep st).1.NamesOK
      ∧ ∀ l, (segs.foldl mkdirStep st).2 = some l → ∀ n ∈ l, validName n = true := by
  induction segs generalizing st with
  | nil => exact ⟨hn, hl⟩
  | cons c segs ih =>
    have h1 := mkdirStep_names st c (hs c (by simp)) hn hl
    exact ih _ (fun s h => hs s (by simp [h])) h1.1 h1.2

theorem create_directories_eq (w : World) (p : Str) (hp : p ≠ []) :
    create_directories w p
      = match (mkdirWalk w p).2 with
        | some _ => ((mkdirWalk w p).1, none)
        | none => ((mkdirWalk w p).1,
            some "filesystem error: cannot create directories: Not a directory".toList) := by
  unfold create_directories mkdirWalk
  rw [if_neg hp]

theorem create_directories_fst (w : World) (p : Str) (hp : p ≠ []) :
    (create_directories w p).1 = (mkdirWalk w p).1 := by
  rw [create_directories_eq w p hp]
  split <;> rfl

theorem create_directories_frame (P : Loc → Prop) (w : World) (p : Str) :
    FrameOn P w (create_directories w p).1 := by
  by_cases hp : p = []
  · simp only [create_directories, hp, if_true]; exact frame_refl P w
  · rw [create_directories_fst w p hp]
    exact mkdirFold_frame P _ _

theorem create_directories_names (w : World) (p : Str) (hn : w.NamesOK) :
    (create_directories w p).1.NamesOK := by
  by_cases hp : p = []
  · simp only [create_directories, hp, if_true]; exact hn
  · rw [create_directories_fst w p hp]
    refine (mkdirFold_names _ _ (fun s hs => noslash_of_mem_splitSlash p s hs) hn ?_).1
    intro l hl
    simp only [Option.some.injEq] at hl
    subst hl
    split
    · simp
    · exact hn.2

theorem ne_nil_of_node_ne_dir (w : World) (t : Loc) (h : w.node t ≠ some Node.dir) : t ≠ [] := by
  rintro rfl
  exact h (node_root w)

theorem copy_file_frame (P : Loc → Prop) (w : World) (src dst : Str)
    (h : ∀ t, resolve w dst = some t → ¬ P t) : FrameOn P w (copy_file w src dst).1 := by
  unfold copy_file
  split
  · split
    · exact frame_refl P w
    · rename_i t ht
      split
      · exact frame_refl P w
      · rename_i c0 hc0
        have hnd : w.node t ≠ some Node.dir := by rw [hc0]; simp
        split
        · exact frame_refl P w
        · exact frame_put_file P w t _ (ne_nil_of_node_ne_dir w t hnd) hnd (h t ht)
      · rename_i hnone
        have hnd : w.node t ≠ some Node.dir := by rw [hnone]; simp
        split
        · exact frame_put_file P w t _ (ne_nil_of_node_ne_dir w t hnd) hnd (h t ht)
        · exact frame_refl P w
  · exact frame_refl P w

theorem copy_file_names (w : World) (src dst : Str) (hn : w.NamesOK) :
    (copy_file w src dst).1.NamesOK := by
  unfold copy_file
  split
  · split
    · exact hn
    · rename_i t ht
      have hv := resolve_valid w dst t hn.2 ht
      split
      · exact hn
      · split
        · exact hn
        · exact namesOK_put _ _ _ hn hv
      · split
        · exact namesOK_put _ _ _ hn hv
        · exact hn
  · exact hn

theorem copy_frame (P : Loc → Prop) (w : World) (src dst : Str)
    (h1 : ∀ t, resolve w dst = some t → ¬ P t)
    (h2 : ∀ t, resolve w (pathAppend dst (filename src)) = some t → ¬ P t) :
    FrameOn P w (copy w src dst).1 := by
  unfold copy
  split
  · exact frame_refl P w
  · split
    · exact frame_refl P w
    · split
      · split <;> exact frame_refl P w
      · split
        · exact copy_file_frame P w _ _ h2
        · exact copy_file_frame P w _ _ h1

theorem copy_names (w : World) (src dst : Str) (hn : w.NamesOK) :
    (copy w src dst).1.NamesOK := by
  unfold copy
  split
  · exact hn
  · split
    · exact hn
    · split
      · split <;> exact hn
      · split <;> exact copy_file_names w _ _ hn

theorem validName_logName : validName logName = true := by decide

theorem logError_frame (P : Loc → Prop) (w : World) (msg : Str) (h : ¬ P w.logLoc) :
    FrameOn P w (logError w msg) := by
  unfold logError
  have hne : w.cwd ++ [logName] ≠ [] := by simp
  split
  · exact frame_refl P w
  · rename_i c hc
    exact frame_put_file P w _ _ hne (by rw [hc]; simp) h
  · rename_i hc
    exact frame_put_file P w _ _ hne (by rw [hc]; simp) h

theorem logError_names (w : World) (msg : Str) (hn : w.NamesOK) : (logError w msg).NamesOK := by
  have hv : ∀ n ∈ w.cwd ++ [logName], validName n = true := by
    intro n h
    rw [List.mem_append] at h
    rcases h with h | h
    · exact hn.2 n h
    · simp only [List.mem_singleton] at h
      subst h; exact validName_logName
  unfold logError
  split
  · exact hn
  · exact namesOK_put _ _ _ hn hv
  · exact namesOK_put _ _ _ hn hv

theorem logError_cwd (w : World) (msg : Str) : (logError w msg).cwd = w.cwd := by
  unfold logError
  split <;> rfl

end SPZ

namespace SPZ


/-! ### Well-formed node tables -/

theorem wfFrom_names (seen ns : List (Loc × Node)) (h : wfFrom seen ns = true) :
    ∀ e ∈ ns, ∀ n ∈ e.1, validName n = true := by
  induction ns generalizing seen with
  | nil => simp
  | cons e ns ih =>
    simp only [wfFrom, Bool.and_eq_true] at h
    intro e1 he1
    rw [List.mem_cons] at he1
    rcases he1 with rfl | he1
    · intro n hn
      exact List.all_eq_true.mp h.1.1.1.2 n hn
    · exact ih _ h.2 e1 he1

theorem WF.namesOK {w : World} (h : w.WF) : w.NamesOK :=
  ⟨wfFrom_names [] w.nodes h.1, fun n hn => List.all_eq_true.mp h.2.2 n hn⟩

/-! ### The entries of a source directory -/

theorem iterator_entries (w : World) (source : Str) (es : List Str) (hn : w.NamesOK)
    (h : recursive_directory_iterator w source = some es) :
    source ≠ [] ∧ ∀ p ∈ es, IsEntry source p := by
  unfold recursive_directory_iterator at h
  split at h
  · exact absurd h (by simp)
  · rename_i s hs
    refine ⟨resolve_ne_nil w source s hs, ?_⟩
    split at h
    · simp only [Option.some.injEq] at h
      subst h
      intro p hp
      rw [List.mem_filterMap] at hp
      obtain ⟨e, he, hep⟩ := hp
      split at hep
      · rename_i hc
        simp only [Option.some.injEq] at hep
        simp only [Bool.and_eq_true, bne_iff_ne, ne_eq] at hc
        obtain ⟨r, hr⟩ := List.isPrefixOf_iff_prefix.mp hc.1
        refine ⟨e.1.drop s.length, ?_, ?_, hep.symm⟩
        · rw [← hr]
          simp only [List.drop_left]
          rintro rfl
          apply hc.2
          rw [← hr]; simp
        · intro x hx
          exact hn.1 e he x (List.mem_of_mem_drop hx)
      · exact absurd hep (by simp)
    · exact absurd h (by simp)

/-! ### The backup keeps everything outside the destination and the log -/

theorem resolve_entryPath_under (w : World) (dest : Str) (D : Loc) (rel : List Str)
    (hv : ∀ x ∈ rel, validName x = true) (hD : resolve w dest = some D) (t : Loc)
    (h : resolve w (entryPath dest rel) = some t) : t = D ++ rel := by
  rw [resolve_entryPath w dest rel (resolve_ne_nil w dest D hD) hv, hD] at h
  exact walk_names w rel D t hv h

theorem copyEntry_frame (P : Loc → Prop) (m : BackupManager) (w : World) (source dest p : Str)
    (D : Loc) (hs : source ≠ []) (hp : IsEntry source p) (hD : resolve w dest = some D)
    (hP : ∀ l, P l → ¬ D <+: l) : FrameOn P w (m.copyEntry w source dest p).1 := by
  obtain ⟨rel, hne, hv, rfl⟩ := hp
  rw [copyEntry_entryPath m w source dest rel hs hne hv]
  split
  · exact frame_refl P w
  · split
    · exact create_directories_frame P w _
    · obtain ⟨r, n, hrel⟩ := exists_snoc rel hne
      have hn : validName n = true := hv n (by simp [hrel])
      refine copy_frame P w _ _ (fun t ht hPt => ?_) (fun t ht hPt => ?_)
      · have := resolve_entryPath_under w dest D rel hv hD t ht
        exact hP t hPt ⟨rel, this.symm⟩
      · have e1 : filename (entryPath source rel) = n := by
          rw [hrel]; exact filename_entryPath source r n hn
        rw [e1, ← entryPath_snoc] at ht
        have hv2 : ∀ x ∈ rel ++ [n], validName x = true := by
          intro x hx
          rw [List.mem_append] at hx
          rcases hx with hx | hx
          · exact hv x hx
          · simp only [List.mem_singleton] at hx; subst hx; exact hn
        have := resolve_entryPath_under w dest D (rel ++ [n]) hv2 hD t ht
        exact hP t hPt ⟨rel ++ [n], this.symm⟩

theorem copyEntry_names (m : BackupManager) (w : World) (source dest p : Str)
    (hn : w.NamesOK) : (m.copyEntry w source dest p).1.NamesOK := by
  unfold BackupManager.copyEntry
  simp only
  split
  · exact hn
  · split
    · exact create_directories_names w _ hn
    · exact copy_names w _ _ hn

theorem copyEntries_frame (P : Loc → Prop) (m : BackupManager) (source dest : Str) (D : Loc)
    (hs : source ≠ []) (hP : ∀ l, P l → ¬ D <+: l) (es : List Str) (w : World)
    (hes : ∀ p ∈ es, IsEntry source p) (hD : resolve w dest = some D) (hn : w.NamesOK) :
    FrameOn P w (m.copyEntries source dest w es).1
      ∧ (m.copyEntries source dest w es).1.NamesOK := by
  induction es generalizing w with
  | nil => exact ⟨frame_refl P w, hn⟩
  | cons p es ih =>
    have h1 := copyEntry_frame P m w source dest p D hs (hes p (by simp)) hD hP
    have h2 := copyEntry_names m w source dest p hn
    simp only [BackupManager.copyEntries]
    cases hc : m.copyEntry w source dest p with
    | mk w1 r =>
      rw [hc] at h1 h2
      cases r with
      | some e => exact ⟨h1, h2⟩
      | none =>
        have h3 := ih w1 (fun q hq => hes q (by simp [hq])) (resolve_mono h1.1 dest D hD) h2
        exact ⟨frame_trans h1 h3.1, h3.2⟩

theorem copyDirectory_frame (P : Loc → Prop) (m : BackupManager) (w : World) (source dest : Str)
    (D : Loc) (hP : ∀ l, P l → ¬ D <+: l) (hD : resolve w dest = some D) (hn : w.NamesOK) :
    FrameOn P w (m.copyDirectory w source dest).1
      ∧ (m.copyDirectory w source dest).1.NamesOK := by
  unfold BackupManager.copyDirectory
  cases hit : recursive_directory_iterator w source with
  | none => exact ⟨frame_refl P w, hn⟩
  | some es =>
    obtain ⟨hs, hes⟩ := iterator_entries w source es hn hit
    exact copyEntries_frame P m source dest D hs hP es w hes hD hn

theorem backupOne_frame (m : BackupManager) (w0 w : World) (directory : Str) (D : Loc)
    (hD : resolve w m.backupDirectory = some D) (hn : w.NamesOK) (hc : w.cwd = w0.cwd) :
    FrameOn (fun l => ¬ D <+: l ∧ l ≠ w0.logLoc) w (m.backupOne w directory)
      ∧ (m.backupOne w directory).NamesOK := by
  have h1 := copyDirectory_frame (fun l => ¬ D <+: l ∧ l ≠ w0.logLoc) m w directory
    m.backupDirectory D (fun l hl => hl.1) hD hn
  unfold BackupManager.backupOne
  cases hcd : m.copyDirectory w directory m.backupDirectory with
  | mk w1 r =>
    rw [hcd] at h1
    cases r with
    | none => exact h1
    | some e =>
      refine ⟨frame_trans h1.1 (logError_frame _ w1 e ?_), logError_names w1 e h1.2⟩
      have : w1.logLoc = w0.logLoc := by
        unfold World.logLoc
        rw [h1.1.1.1, hc]
      simp [this]

theorem backupAll_frame (m : BackupManager) (w0 : World) (D : Loc) (dirs : List Str) (w : World)
    (hD : resolve w m.backupDirectory = some D) (hn : w.NamesOK) (hc : w.cwd = w0.cwd) :
    FrameOn (fun l => ¬ D <+: l ∧ l ≠ w0.logLoc) w (m.backupAll w dirs) := by
  induction dirs generalizing w with
  | nil => exact frame_refl _ w
  | cons d dirs ih =>
    have h1 := backupOne_frame m w0 w d D hD hn hc
    rw [backupAll_cons]
    exact frame_trans h1.1
      (ih _ (resolve_mono h1.1.1 _ D hD) h1.2 (h1.1.1.1.trans hc))

theorem frame_console (P : Loc → Prop) (w w1 : World) (c : List Str) (h : FrameOn P w w1) :
    FrameOn P w { w1 with console := c } := h

theorem performBackup_frame (m : BackupManager) (w : World) (D : Loc)
    (hD : resolve w m.backupDirectory = some D) (hn : w.NamesOK) :
    FrameOn (fun l => ¬ D <+: l ∧ l ≠ w.logLoc) w (m.performBackup w) :=
  frame_console _ _ _ _ (backupAll_frame m w D m.directories w hD hn rfl)

theorem construct_frame (w : World) (p : Str) :
    FrameOn (fun _ => True) w (BackupManager.construct w p).1 := by
  unfold BackupManager.construct
  split
  · exact frame_refl _ w
  · have := create_directories_frame (fun _ => True) w p
    cases hc : create_directories w p with
    | mk w1 r =>
      rw [hc] at this
      cases r <;> exact this

theorem addDirectory_frame (m : BackupManager) (w : World) (p : Str) :
    FrameOn (fun l => l ≠ w.logLoc) w (m.addDirectory w p).2 := by
  unfold BackupManager.addDirectory
  split
  · exact frame_refl _ w
  · exact logError_frame _ w _ (by simp)

theorem addExclusion_frame (m : BackupManager) (w : World) (p : Str) :
    FrameOn (fun l => l ≠ w.logLoc) w (m.addExclusion w p).2 := by
  unfold BackupManager.addExclusion
  split
  · exact frame_refl _ w
  · exact logError_frame _ w _ (by simp)

/-- C10: no operation of the engine deletes anything.  From the world before a
call of the constructor, `addDirectory`, `addExclusion` or `performBackup` to the
world after it, every directory is still a directory and every regular file still
a regular file (`Keeps`), and every regular file keeps its content: all of them
for the constructor, all but the log file for `addDirectory` and `addExclusion`,
and all outside the destination tree other than the log file for
`performBackup`. -/
theorem C10_no_operation_deletes (m : BackupManager) (w : World) (D : Loc) (p : Str)
    (hw : w.WF) (hD : resolve w m.backupDirectory = some D) :
    FrameOn (fun _ => True) w (BackupManager.construct w p).1
    ∧ FrameOn (fun l => l ≠ w.logLoc) w (m.addDirectory w p).2
    ∧ FrameOn (fun l => l ≠ w.logLoc) w (m.addExclusion w p).2
    ∧ FrameOn (fun l => ¬ D <+: l ∧ l ≠ w.logLoc) w (m.performBackup w) :=
  ⟨construct_frame w p, addDirectory_frame m w p, addExclusion_frame m w p,
    performBackup_frame m w D hD (WF.namesOK hw)⟩

set_option maxRecDepth 100000 in
theorem C10_no_operation_deletes_witness :
    exWorld.WF ∧ resolve exWorld exManagerTwo.backupDirectory = some ["bk".toList]
    ∧ FrameOn (fun l => ¬ ["bk".toList] <+: l ∧ l ≠ exWorld.logLoc) exWorld
        (exManagerTwo.performBackup exWorld) :=
  ⟨by decide, by decide,
    (C10_no_operation_deletes exManagerTwo exWorld ["bk".toList] "/bk".toList (by decide)
      (by decide)).2.2.2⟩

end SPZ

namespace SPZ


/-! ### Well-formed node tables: what writes preserve -/

theorem wfFrom_append (seen a b : List (Loc × Node)) :
    wfFrom seen (a ++ b) = (wfFrom seen a && wfFrom (seen ++ a) b) := by
  induction a generalizing seen with
  | nil => simp [wfFrom]
  | cons e a ih =>
    rw [List.cons_append]
    simp only [wfFrom]
    rw [ih]
    simp [Bool.and_assoc]

theorem lookup_isSome_of_mem (ns : List (Loc × Node)) (e : Loc × Node) (h : e ∈ ns) :
    (ns.lookup e.1).isSome = true := by
  induction ns with
  | nil => simp at h
  | cons a ns ih =>
    obtain ⟨k, n⟩ := a
    by_cases hk : e.1 = k
    · simp [List.lookup, hk]
    · have hb : (e.1 == k) = false := by simpa using hk
      rw [List.mem_cons] at h
      rcases h with h | h
      · exact absurd (by rw [h]) hk
      · simp only [List.lookup, hb]
        exact ih h

theorem mem_of_lookup (ns : List (Loc × Node)) (k : Loc) (n : Node)
    (h : ns.lookup k = some n) : (k, n) ∈ ns := by
  induction ns with
  | nil => simp [List.lookup] at h
  | cons a ns ih =>
    obtain ⟨k1, n1⟩ := a
    by_cases hk : k = k1
    · subst hk
      simp [List.lookup] at h
      simp [h]
    · have hb : (k == k1) = false := by simpa using hk
      simp only [List.lookup, hb] at h
      exact List.mem_cons_of_mem _ (ih h)

theorem node_ne_nil (w : World) (l : Loc) (hl : l ≠ []) : w.node l = w.nodes.lookup l := by
  simp [World.node, hl]

theorem wfFrom_replace (l : Loc) (c c0 : Str) (rest seen : List (Loc × Node))
    (h : (seen ++ rest).lookup l = some (Node.file c0)) :
    wfFrom (seen.map (fun e => if e.1 = l then (l, Node.file c) else e))
        (rest.map (fun e => if e.1 = l then (l, Node.file c) else e))
      = wfFrom seen rest := by
  induction rest generalizing seen with
  | nil => simp [wfFrom]
  | cons e rest ih =>
    have hrec := ih (seen ++ [e]) (by simpa using h)
    simp only [List.map_append, List.map_cons, List.map_nil] at hrec
    simp only [List.map_cons, wfFrom, hrec]
    have hkey : (if e.1 = l then (l, Node.file c) else e).1 = e.1 := by
      split
      · rename_i h1; exact h1.symm
      · rfl
    rw [hkey]
    have h1 : ∀ k, (List.lookup k
        (seen.map (fun e => if e.1 = l then (l, Node.file c) else e))).isNone
        = (List.lookup k seen).isNone := by
      intro k
      rw [lookup_replace]
      split
      · rename_i hk; subst hk; cases List.lookup k seen <;> rfl
      · rfl
    have h2 : ∀ k, (List.lookup k
        (seen.map (fun e => if e.1 = l then (l, Node.file c) else e)) == some Node.dir)
        = (List.lookup k seen == some Node.dir) := by
      intro k
      rw [lookup_replace]
      split
      · rename_i hk
        subst hk
        cases hs : List.lookup k seen with
        | none => rfl
        | some x =>
          have := lookup_append seen (e :: rest) k
          rw [hs] at this
          simp only at this
          rw [this] at h
          simp only [Option.some.injEq] at h
          subst h
          rfl
      · rfl
    rw [h1, h2]

theorem wf_parent_of_lookup (seen rest : List (Loc × Node)) (h : wfFrom seen rest = true)
    (hs : ∀ e ∈ seen, e.1.dropLast = [] ∨ (seen ++ rest).lookup e.1.dropLast = some Node.dir) :
    ∀ e ∈ seen ++ rest,
      e.1.dropLast = [] ∨ (seen ++ rest).lookup e.1.dropLast = some Node.dir := by
  induction rest generalizing seen with
  | nil =>
    intro e he
    rw [List.append_nil] at he
    exact hs e he
  | cons e rest ih =>
    simp only [wfFrom, Bool.and_eq_true, Bool.or_eq_true, beq_iff_eq] at h
    have e1 : seen ++ [e] ++ rest = seen ++ e :: rest := by
      rw [List.append_assoc]; rfl
    have := ih (seen ++ [e]) h.2 (by
      intro e2 he2
      rw [e1]
      rw [List.mem_append] at he2
      rcases he2 with he2 | he2
      · exact hs e2 he2
      · rw [List.mem_singleton] at he2
        subst he2
        rcases h.1.2 with h3 | h3
        · exact Or.inl h3
        · right
          rw [lookup_append, h3])
    rw [e1] at this
    exact this

theorem wf_parent (w : World) (hw : w.WF) (l : Loc) (hl : l ≠ []) (hn : w.node l ≠ none) :
    w.node l.dropLast = some Node.dir := by
  rw [node_ne_nil w l hl] at hn
  obtain ⟨n, hn1⟩ := Option.ne_none_iff_exists'.mp hn
  have hmem := mem_of_lookup _ _ _ hn1
  have := wf_parent_of_lookup [] w.nodes hw.1 (by simp) (l, n) (by simpa using hmem)
  rcases this with h | h
  · simp only at h
    rw [h]; exact node_root w
  · simp only [List.nil_append] at h
    by_cases hd : l.dropLast = []
    · rw [hd]; exact node_root w
    · rw [node_ne_nil w _ hd]; exact h

theorem wf_chain (w : World) (hw : w.WF) (l : Loc) (rel : List Str)
    (hn : w.node (l ++ rel) ≠ none) :
    ∀ k < rel.length, w.node (l ++ rel.take k) = some Node.dir := by
  induction rel using List.reverseRecOn with
  | nil => simp
  | append_singleton r n ih =>
    have hp : w.node (l ++ r) = some Node.dir := by
      have := wf_parent w hw (l ++ (r ++ [n])) (by simp) hn
      rw [← List.append_assoc, List.dropLast_concat] at this
      exact this
    intro k hk
    simp only [List.length_append, List.length_singleton] at hk
    by_cases hkr : k < r.length
    · rw [List.take_append_of_le_length (Nat.le_of_lt hkr)]
      exact ih (by rw [hp]; simp) k hkr
    · have : k = r.length := by omega
      subst this
      rw [List.take_left']
      · exact hp
      · rfl

end SPZ

namespace SPZ


theorem wf_put (w : World) (l : Loc) (n : Node) (hw : w.WF) (hg : GoodPut w l n) :
    (w.put l n).WF := by
  obtain ⟨hl, hv, hpar, hdir, hnd⟩ := hg
  have hcwd : (w.put l n).node (w.put l n).cwd = some Node.dir := by
    rw [put_cwd, node_put w l _ n hl]
    have : w.cwd ≠ l := by
      rintro rfl
      exact hnd hw.2.1
    simp [this, hw.2.1]
  refine ⟨?_, hcwd, hw.2.2⟩
  have hlk : w.nodes.lookup l = w.node l := (node_ne_nil w l hl).symm
  unfold World.put
  simp only
  cases hlook : w.nodes.lookup l with
  | none =>
    simp only [Option.isSome_none, Bool.false_eq_true, if_false]
    rw [wfFrom_append, hw.1]
    have h4 : (l.dropLast == [] || List.lookup l.dropLast w.nodes == some Node.dir) = true := by
      by_cases hd : l.dropLast = []
      · simp [hd]
      · rw [← node_ne_nil w _ hd, hpar]; simp
    have h1 : (l != []) = true := by simpa using hl
    have h2 : l.all validName = true := List.all_eq_true.mpr hv
    simp only [Bool.true_and, List.nil_append, wfFrom, Bool.and_true, h1, h2, hlook, h4,
      Option.isNone_none]
  | some n0 =>
    simp only [Option.isSome_some, if_true]
    cases n with
    | dir =>
      have := hdir rfl
      rw [← hlk, hlook] at this
      exact absurd this (by simp)
    | file c =>
      cases n0 with
      | dir => rw [← hlk, hlook] at hnd; exact absurd rfl hnd
      | file c0 =>
        have := wfFrom_replace l c c0 w.nodes [] (by simpa using hlook)
        simp only [List.map_nil] at this
        rw [this]; exact hw.1

/-! ### Worlds reached by good writes -/

theorem reach_trans {Q : Loc → Prop} {w w1 w2 : World} (h1 : Reach Q w w1)
    (h2 : Reach Q w1 w2) : Reach Q w w2 := by
  induction h2 with
  | refl => exact h1
  | put w3 l n _ hq hg ih => exact Reach.put _ _ l n ih hq hg

theorem reach_mono {Q Q1 : Loc → Prop} {w w1 : World} (hq : ∀ l, Q l → Q1 l)
    (h : Reach Q w w1) : Reach Q1 w w1 := by
  induction h with
  | refl => exact Reach.refl _
  | put w3 l n _ hql hg ih => exact Reach.put _ _ l n ih (hq l hql) hg

theorem reach_put {Q : Loc → Prop} (w : World) (l : Loc) (n : Node) (hq : Q l)
    (hg : GoodPut w l n) : Reach Q w (w.put l n) :=
  Reach.put _ _ l n (Reach.refl w) hq hg

theorem reach_wf {Q : Loc → Prop} {w w1 : World} (h : Reach Q w w1) (hw : w.WF) : w1.WF := by
  induction h with
  | refl => exact hw
  | put w3 l n _ _ hg ih => exact wf_put _ l n ih hg

theorem reach_off {Q : Loc → Prop} {w w1 : World} (h : Reach Q w w1) (k : Loc) (hk : ¬ Q k) :
    w1.node k = w.node k := by
  induction h with
  | refl => rfl
  | put w3 l n _ hq hg ih =>
    rw [node_put _ l k n hg.1]
    have : k ≠ l := by rintro rfl; exact hk hq
    simp [this, ih]

theorem reach_cwd {Q : Loc → Prop} {w w1 : World} (h : Reach Q w w1) : w1.cwd = w.cwd := by
  induction h with
  | refl => rfl
  | put w3 l n _ _ _ ih => rw [put_cwd, ih]

theorem keeps_put (w : World) (l : Loc) (n : Node) (hg : GoodPut w l n) :
    Keeps w (w.put l n) := by
  cases n with
  | dir => exact (frame_put_dir (fun _ => True) w l hg.1 (hg.2.2.2.1 rfl)).1
  | file c => exact (frame_put_file (fun _ => False) w l c hg.1 hg.2.2.2.2 (by simp)).1

theorem reach_keeps {Q : Loc → Prop} {w w1 : World} (h : Reach Q w w1) : Keeps w w1 := by
  induction h with
  | refl => exact keeps_refl _
  | put w3 l n _ _ hg ih => exact keeps_trans ih (keeps_put _ l n hg)

/-- The keys of the node table outside the region `q`, in table order. -/
theorem keys_put (q : Loc → Bool) (w : World) (l : Loc) (n : Node) (hq : q l = true) :
    ((w.put l n).nodes.map Prod.fst).filter (fun k => !q k)
      = (w.nodes.map Prod.fst).filter (fun k => !q k) := by
  unfold World.put
  simp only
  split
  · congr 1
    rw [List.map_map]
    apply List.map_congr_left
    intro e _
    simp only [Function.comp]
    split
    · rename_i h; exact h.symm
    · rfl
  · simp [hq]

theorem reach_keys (q : Loc → Bool) {w w1 : World} (h : Reach (fun l => q l = true) w w1) :
    (w1.nodes.map Prod.fst).filter (fun k => !q k)
      = (w.nodes.map Prod.fst).filter (fun k => !q k) := by
  induction h with
  | refl => rfl
  | put w3 l n _ hq _ ih => rw [keys_put q _ l n hq, ih]

end SPZ

namespace SPZ


/-! ### `create_directories` below an existing directory -/

theorem mkdirStep_nil_absorb (x : World × Option Loc) (c : Str) :
    mkdirStep (mkdirStep x []) c = mkdirStep x c := by
  obtain ⟨w, o⟩ := x
  cases o with
  | none => rfl
  | some l =>
    by_cases hd : w.node l = some Node.dir
    · simp [mkdirStep, hd]
    · simp [mkdirStep, hd]

theorem mkdirWalk_pathAppend (w : World) (p n : Str) (h : validName n = true) (hp : p ≠ []) :
    mkdirWalk w (pathAppend p n) = mkdirStep (mkdirWalk w p) n := by
  simp only [mkdirWalk, is_absolute_pathAppend p n h hp, splitSlash_pathAppend p n h]
  by_cases hf : has_filename p = true
  · simp [hf, List.foldl_append]
  · simp only [hf, Bool.false_eq_true, if_false, List.foldl_append, List.foldl_cons,
      List.foldl_nil]
    conv_rhs => rw [splitSlash_eq_dropLast_filename p, has_filename_false p hf]
    simp only [List.foldl_append, List.foldl_cons, List.foldl_nil]
    rw [mkdirStep_nil_absorb]

theorem mkdirWalk_entryPath (w : World) (p : Str) (rel : List Str) (hp : p ≠ [])
    (hv : ∀ n ∈ rel, validName n = true) :
    mkdirWalk w (entryPath p rel) = rel.foldl mkdirStep (mkdirWalk w p) := by
  induction rel generalizing p with
  | nil => rfl
  | cons n rel ih =>
    rw [entryPath_cons, ih _ (pathAppend_ne_nil p n (hv n (by simp)))
      (fun x hx => hv x (by simp [hx])), mkdirWalk_pathAppend w p n (hv n (by simp)) hp]
    rfl

theorem mkdirFold_existing (w : World) (segs : List Str) (s D : Loc)
    (h : segs.foldl (walkStep w) (some s) = some D) (hd : w.node D = some Node.dir) :
    segs.foldl mkdirStep (w, some s) = (w, some D) := by
  induction segs using List.reverseRecOn generalizing D with
  | nil =>
    simp only [List.foldl_nil, Option.some.injEq] at h
    subst h; rfl
  | append_singleton segs c ih =>
    rw [List.foldl_append, List.foldl_cons, List.foldl_nil] at h ⊢
    cases hx : segs.foldl (walkStep w) (some s) with
    | none => rw [hx] at h; simp [walkStep] at h
    | some l =>
      rw [hx] at h
      simp only [walkStep] at h
      by_cases hl : w.node l = some Node.dir
      · rw [ih l hx hl]
        rw [if_pos hl] at h
        simp only [mkdirStep, hl, if_true]
        split at h
        · rename_i h1
          simp only [Option.some.injEq] at h; subst h
          rw [if_pos h1]
        · rename_i h1
          rw [if_neg h1]
          split at h
          · rename_i h2
            simp only [Option.some.injEq] at h; subst h
            rw [if_pos h2]
          · rename_i h2
            simp only [Option.some.injEq] at h; subst h
            rw [if_neg h2, hd]
      · rw [if_neg hl] at h
        exact absurd h (by simp)

theorem mkdirWalk_existing (w : World) (p : Str) (D : Loc) (h : resolve w p = some D)
    (hd : w.node D = some Node.dir) : mkdirWalk w p = (w, some D) := by
  unfold resolve at h
  rw [if_neg (resolve_ne_nil w p D h)] at h
  exact mkdirFold_existing w _ _ D h hd

theorem mkdirFold_none (w : World) (rel : List Str) :
    rel.foldl mkdirStep (w, none) = (w, none) := by
  induction rel with
  | nil => rfl
  | cons n rel ih => simpa [mkdirStep] using ih

theorem mkdirStep_name (w : World) (l : Loc) (n : Str) (h : validName n = true)
    (hd : w.node l = some Node.dir) :
    mkdirStep (w, some l) n
      = match w.node (l ++ [n]) with
        | none => (w.put (l ++ [n]) Node.dir, some (l ++ [n]))
        | some Node.dir => (w, some (l ++ [n]))
        | some (Node.file _) => (w, none) := by
  obtain ⟨h1, h2, h3, -⟩ := (validName_iff n).mp h
  cases hc : w.node (l ++ [n]) with
  | none => simp [mkdirStep, hd, h1, h2, h3, hc]
  | some x => cases x <;> simp [mkdirStep, hd, h1, h2, h3, hc]

theorem goodPut_mkdir (w : World) (l : Loc) (n : Str) (h : validName n = true)
    (hd : w.node l = some Node.dir) (hl : ∀ x ∈ l, validName x = true)
    (hn : w.node (l ++ [n]) = none) : GoodPut w (l ++ [n]) Node.dir := by
  refine ⟨by simp, ?_, by simpa using hd, fun _ => hn, by rw [hn]; simp⟩
  intro x hx
  rw [List.mem_append] at hx
  rcases hx with hx | hx
  · exact hl x hx
  · simp only [List.mem_singleton] at hx; subst hx; exact h

/-- The directories `create_directories` makes below a directory `l`: the new
world is reached by writes below `l`, and on success every directory down to
`l ++ rel` exists. -/
theorem mkdirs_spec (D : Loc) (rel : List Str) (w : World) (l : Loc)
    (hv : ∀ x ∈ rel, validName x = true) (hd : w.node l = some Node.dir)
    (hl : ∀ x ∈ l, validName x = true) (hD : D <+: l) :
    Reach (fun k => D <+: k) w (rel.foldl mkdirStep (w, some l)).1
    ∧ ∀ t, (rel.foldl mkdirStep (w, some l)).2 = some t →
        t = l ++ rel ∧ (rel.foldl mkdirStep (w, some l)).1.node t = some Node.dir := by
  induction rel generalizing w l with
  | nil =>
    refine ⟨Reach.refl w, fun t ht => ?_⟩
    simp only [List.foldl_nil, Option.some.injEq] at ht
    subst ht
    exact ⟨by simp, hd⟩
  | cons n rel ih =>
    have hn : validName n = true := hv n (by simp)
    have hv2 : ∀ x ∈ rel, validName x = true := fun x hx => hv x (by simp [hx])
    have hl2 : ∀ x ∈ l ++ [n], validName x = true := by
      intro x hx
      rw [List.mem_append] at hx
      rcases hx with hx | hx
      · exact hl x hx
      · simp only [List.mem_singleton] at hx; subst hx; exact hn
    have hD2 : D <+: l ++ [n] := hD.trans (List.prefix_append l [n])
    rw [List.foldl_cons, mkdirStep_name w l n hn hd]
    cases hc : w.node (l ++ [n]) with
    | none =>
      simp only
      have hg := goodPut_mkdir w l n hn hd hl hc
      have hd2 : (w.put (l ++ [n]) Node.dir).node (l ++ [n]) = some Node.dir := by
        rw [node_put _ _ _ _ (by simp)]; simp
      obtain ⟨h1, h2⟩ := ih (w.put (l ++ [n]) Node.dir) (l ++ [n]) hv2 hd2 hl2 hD2
      refine ⟨reach_trans (reach_put w _ _ hD2 hg) h1, fun t ht => ?_⟩
      have := h2 t ht
      simpa using this
    | some x =>
      cases x with
      | dir =>
        simp only
        obtain ⟨h1, h2⟩ := ih w (l ++ [n]) hv2 hc hl2 hD2
        refine ⟨h1, fun t ht => ?_⟩
        have := h2 t ht
        simpa using this
      | file c =>
        simp only
        rw [mkdirFold_none]
        exact ⟨Reach.refl w, fun t ht => absurd ht (by simp)⟩

theorem create_directories_entry (w : World) (dest : Str) (D : Loc) (rel : List Str)
    (hv : ∀ x ∈ rel, validName x = true) (hD : resolve w dest = some D)
    (hd : w.node D = some Node.dir) :
    mkdirWalk w (entryPath dest rel) = rel.foldl mkdirStep (w, some D) := by
  rw [mkdirWalk_entryPath w dest rel (resolve_ne_nil w dest D hD) hv,
    mkdirWalk_existing w dest D hD hd]

end SPZ

namespace SPZ

/-! ### The copy of a regular file of the source -/

theorem resolve_entry_eq (w : World) (p : Str) (l : Loc) (rel : List Str)
    (hp : resolve w p = some l) (hv : ∀ x ∈ rel, validName x = true) :
    resolve w (entryPath p rel)
      = if ∀ k < rel.length, w.node (l ++ rel.take k) = some Node.dir then some (l ++ rel)
        else none := by
  rw [resolve_entryPath w p rel (resolve_ne_nil w p l hp) hv, hp, walk_names_eq w rel l hv]

theorem copy_file_put (w : World) (src dst c : Str) (t : Loc)
    (hs : status w src = some (Node.file c)) (ht : resolve w dst = some t)
    (hnd : w.node t ≠ some Node.dir) (hpar : w.node t.dropLast = some Node.dir)
    (hne : resolve w src ≠ some t) :
    copy_file w src dst = (w.put t (Node.file c), none) := by
  unfold copy_file
  simp only [hs, ht]
  cases hn : w.node t with
  | none => simp [hpar]
  | some x =>
    cases x with
    | dir => exact absurd hn hnd
    | file c0 => simp [hne]

theorem copy_file_fail (w : World) (src dst : Str)
    (h : resolve w dst = none ∨ ∃ t, resolve w dst = some t ∧ w.node t = some Node.dir) :
    (copy_file w src dst).1 = w ∧ (copy_file w src dst).2 ≠ none := by
  unfold copy_file
  split
  · rcases h with h | ⟨t, ht, hd⟩
    · simp [h]
    · simp [ht, hd]
  · simp

theorem copy_of_file (w : World) (src dst c : Str) (hs : status w src = some (Node.file c))
    (hneq : ¬ ((status w dst).isSome = true ∧ resolve w src = resolve w dst)) :
    copy w src dst
      = if is_directory w dst = true then copy_file w src (pathAppend dst (filename src))
        else copy_file w src dst := by
  unfold copy
  simp only [hs, hneq, if_false]

/-- The effect of the copy of the regular file at `S ++ rel` with content `c`:
when every directory on the way to the mirrored location exists and the target is
not a directory, the content is stored at the target; otherwise nothing changes
and an error is raised. -/
theorem copy_entry (w : World) (source dest c : Str) (S D : Loc) (r : List Str) (n : Str)
    (hS : resolve w source = some S) (hD : resolve w dest = some D)
    (hv : ∀ x ∈ r ++ [n], validName x = true)
    (hfile : w.node (S ++ (r ++ [n])) = some (Node.file c))
    (hchS : ∀ k < (r ++ [n]).length, w.node (S ++ (r ++ [n]).take k) = some Node.dir)
    (hdisj : ¬ D <+: S ++ (r ++ [n])) :
    if (∀ k < (r ++ [n]).length, w.node (D ++ (r ++ [n]).take k) = some Node.dir)
        ∧ w.node (copyTarget w (D ++ (r ++ [n])) n) ≠ some Node.dir
    then copy w (entryPath source (r ++ [n])) (entryPath dest (r ++ [n]))
        = (w.put (copyTarget w (D ++ (r ++ [n])) n) (Node.file c), none)
    else (copy w (entryPath source (r ++ [n])) (entryPath dest (r ++ [n]))).1 = w
      ∧ (copy w (entryPath source (r ++ [n])) (entryPath dest (r ++ [n]))).2 ≠ none := by
  have hn : validName n = true := hv n (by simp)
  have hrs : resolve w (entryPath source (r ++ [n])) = some (S ++ (r ++ [n])) := by
    rw [resolve_entry_eq w source S _ hS hv, if_pos hchS]
  have hst : status w (entryPath source (r ++ [n])) = some (Node.file c) := by
    simp only [status, hrs, Option.some_bind, hfile]
  have hrd := resolve_entry_eq w dest D (r ++ [n]) hD hv
  have hneq : ¬ ((status w (entryPath dest (r ++ [n]))).isSome = true
      ∧ resolve w (entryPath source (r ++ [n])) = resolve w (entryPath dest (r ++ [n]))) := by
    rintro ⟨-, h2⟩
    rw [hrs, hrd] at h2
    split at h2
    · simp only [Option.some.injEq] at h2
      exact hdisj ⟨r ++ [n], h2.symm⟩
    · exact absurd h2 (by simp)
  have hfn : filename (entryPath source (r ++ [n])) = n := filename_entryPath source r n hn
  have hv2 : ∀ x ∈ (r ++ [n]) ++ [n], validName x = true := by
    intro x hx
    rw [List.mem_append] at hx
    rcases hx with hx | hx
    · exact hv x hx
    · simp only [List.mem_singleton] at hx; subst hx; exact hn
  rw [copy_of_file w _ _ c hst hneq, hfn, ← entryPath_snoc]
  have hrd2 := resolve_entry_eq w dest D ((r ++ [n]) ++ [n]) hD hv2
  by_cases hch : ∀ k < (r ++ [n]).length, w.node (D ++ (r ++ [n]).take k) = some Node.dir
  · rw [if_pos hch] at hrd
    have hisd : is_directory w (entryPath dest (r ++ [n]))
        = decide (w.node (D ++ (r ++ [n])) = some Node.dir) := by
      simp only [is_directory, status, hrd, Option.some_bind]
    rw [hisd]
    by_cases hT0 : w.node (D ++ (r ++ [n])) = some Node.dir
    · have hct : copyTarget w (D ++ (r ++ [n])) n = D ++ (r ++ [n]) ++ [n] := by
        simp [copyTarget, hT0]
      have hch2 : ∀ k < ((r ++ [n]) ++ [n]).length,
          w.node (D ++ ((r ++ [n]) ++ [n]).take k) = some Node.dir := by
        intro k hk
        by_cases hk1 : k < (r ++ [n]).length
        · rw [List.take_append_of_le_length (Nat.le_of_lt hk1)]
          exact hch k hk1
        · have : k = (r ++ [n]).length := by
            simp only [List.length_append, List.length_singleton] at hk hk1 ⊢
            omega
          subst this
          rw [List.take_left']
          · exact hT0
          · rfl
      rw [if_pos hch2] at hrd2
      have hrd3 : resolve w (entryPath dest ((r ++ [n]) ++ [n]))
          = some (D ++ (r ++ [n]) ++ [n]) := by
        rw [hrd2, List.append_assoc D]
      rw [hct]
      simp only [hT0, decide_True, if_true]
      by_cases htg : w.node (D ++ (r ++ [n]) ++ [n]) = some Node.dir
      · rw [if_neg (fun h => h.2 htg)]
        exact copy_file_fail w _ _ (Or.inr ⟨_, hrd3, htg⟩)
      · rw [if_pos ⟨hch, htg⟩]
        refine copy_file_put w _ _ c _ hst hrd3 htg ?_ ?_
        · rw [List.dropLast_concat]; exact hT0
        · rw [hrs]
          intro e
          have e := Option.some.inj e
          exact hdisj ⟨(r ++ [n]) ++ [n], by rw [e]; simp⟩
    · have hct : copyTarget w (D ++ (r ++ [n])) n = D ++ (r ++ [n]) := by
        simp [copyTarget, hT0]
      rw [hct]
      simp only [hT0, decide_False, Bool.false_eq_true, if_false]
      rw [if_pos ⟨hch, hT0⟩]
      refine copy_file_put w _ _ c _ hst hrd hT0 ?_ ?_
      · have := hch r.length (by simp)
        rw [List.take_left'] at this
        · rw [← List.append_assoc, List.dropLast_concat]; exact this
        · rfl
      · rw [hrs]
        intro e
        exact hdisj ⟨r ++ [n], (Option.some.inj e).symm⟩
  · rw [if_neg hch] at hrd
    have hisd : is_directory w (entryPath dest (r ++ [n])) = false := by
      simp [is_directory, status, hrd]
    rw [hisd, if_neg (fun h => hch h.1)]
    simp only [Bool.false_eq_true, if_false]
    exact copy_file_fail w _ _ (Or.inl hrd)

end SPZ


namespace SPZ

/-! ### Two runs in step -/

theorem sameKind_refl (x : Option Node) : sameKind x x := by
  cases x with
  | none => trivial
  | some n => cases n <;> trivial

theorem sameKind_dir {x : Option Node} (h : sameKind x (some Node.dir)) : x = some Node.dir := by
  cases x with
  | none => exact absurd h (by simp [sameKind])
  | some n =>
    cases n with
    | dir => rfl
    | file c => exact absurd h (by simp [sameKind])

theorem sameKind_file {x : Option Node} {c : Str} (h : sameKind x (some (Node.file c))) :
    ∃ c1, x = some (Node.file c1) := by
  cases x with
  | none => exact absurd h (by simp [sameKind])
  | some n =>
    cases n with
    | dir => exact absurd h (by simp [sameKind])
    | file c1 => exact ⟨c1, rfl⟩

theorem lock_dir {D : Loc} {f a b : World} (h : Lock D f a b) (l : Loc)
    (hd : a.node l = some Node.dir) : b.node l = some Node.dir :=
  (h.ab.2 l).1 hd

theorem lock_file {D : Loc} {f a b : World} (h : Lock D f a b) (l : Loc) (c : Str)
    (hd : a.node l = some (Node.file c)) : ∃ c1, b.node l = some (Node.file c1) :=
  (h.ab.2 l).2 c hd

theorem keeps_put_both (a b : World) (t : Loc) (n : Node) (ht : t ≠ []) (h : Keeps a b) :
    Keeps (a.put t n) (b.put t n) := by
  refine ⟨h.1, fun l => ?_⟩
  rw [node_put a t l n ht, node_put b t l n ht]
  by_cases hl : l = t
  · simp only [hl, if_true]
    refine ⟨id, fun c hc => ⟨c, hc⟩⟩
  · simp only [hl, if_false]
    exact h.2 l

theorem keeps_put_left (a b : World) (t : Loc) (n : Node) (ht : t ≠ []) (h : Keeps a b)
    (hb : b.node t = some n) : Keeps (a.put t n) b := by
  refine ⟨h.1, fun l => ?_⟩
  rw [node_put a t l n ht]
  by_cases hl : l = t
  · subst hl
    simp only [if_true]
    refine ⟨fun e => ?_, fun c e => ⟨c, ?_⟩⟩
    · rw [hb, e]
    · rw [hb, e]
  · simp only [hl, if_false]
    exact h.2 l

theorem lock_put_both {D : Loc} {f a b : World} (h : Lock D f a b) (t : Loc) (c : Str)
    (ht : t ≠ []) (hD : D <+: t) (hk : Keeps (a.put t (Node.file c)) f) :
    Lock D f (a.put t (Node.file c)) (b.put t (Node.file c)) := by
  have hf : ∃ c1, f.node t = some (Node.file c1) :=
    (hk.2 t).2 c (by rw [node_put a t t _ ht]; simp)
  refine ⟨hk, keeps_put_both a b t _ ht h.ab, fun l hl => ?_, fun l hl => ?_,
    fun l hl hl2 => ?_, fun l hl => ?_⟩
  · rw [node_put b t l _ ht]
    by_cases e : l = t
    · subst e
      obtain ⟨c1, hc1⟩ := hf
      simp only [if_true, hc1]
      trivial
    · simp only [e, if_false]; exact h.kind l hl
  · rw [node_put b t l _ ht, node_put a t l _ ht]
    by_cases e : l = t
    · simp [e]
    · simp only [e, if_false]; exact h.node l hl
  · rw [node_put b t l _ ht, node_put a t l _ ht]
    have e : l ≠ t := by rintro rfl; exact hl hD
    simp only [e, if_false]
    exact h.off l hl hl2
  · rw [node_put b t l _ ht, node_put a t l _ ht]
    have e : l ≠ t := by rintro rfl; exact hl hD
    simp only [e, if_false]
    exact h.offd l hl

theorem lock_put_left {D : Loc} {f a b : World} (h : Lock D f a b) (t : Loc)
    (ht : t ≠ []) (hD : D <+: t) (hk : Keeps (a.put t Node.dir) f) :
    Lock D f (a.put t Node.dir) b ∧ b.node t = some Node.dir := by
  have hf : f.node t = some Node.dir :=
    (hk.2 t).1 (by rw [node_put a t t _ ht]; simp)
  have hb : b.node t = some Node.dir := by
    have := h.kind t hD
    rw [hf] at this
    exact sameKind_dir this
  refine ⟨⟨hk, keeps_put_left a b t _ ht h.ab hb, h.kind, fun l hl => ?_, fun l hl hl2 => ?_,
    fun l hl => ?_⟩, hb⟩
  · rw [node_put a t l _ ht]
    by_cases e : l = t
    · subst e; simp [hb]
    · simp only [e, if_false]; exact h.node l hl
  · rw [node_put a t l _ ht]
    have e : l ≠ t := by rintro rfl; exact hl hD
    simp only [e, if_false]
    exact h.off l hl hl2
  · rw [node_put a t l _ ht]
    have e : l ≠ t := by rintro rfl; exact hl hD
    simp only [e, if_false]
    exact h.offd l hl

theorem lock_mkdirs (D : Loc) (f : World) (rel : List Str) (a b : World) (l : Loc)
    (h : Lock D f a b) (hv : ∀ x ∈ rel, validName x = true)
    (hd : a.node l = some Node.dir) (hD : D <+: l)
    (hk : Keeps (rel.foldl mkdirStep (a, some l)).1 f) :
    Lock D f (rel.foldl mkdirStep (a, some l)).1 (rel.foldl mkdirStep (b, some l)).1
      ∧ (rel.foldl mkdirStep (a, some l)).2 = (rel.foldl mkdirStep (b, some l)).2 := by
  induction rel generalizing a b l with
  | nil => exact ⟨h, rfl⟩
  | cons n rel ih =>
    have hn : validName n = true := hv n (by simp)
    have hv2 : ∀ x ∈ rel, validName x = true := fun x hx => hv x (by simp [hx])
    have hD2 : D <+: l ++ [n] := hD.trans (List.prefix_append l [n])
    have hbd : b.node l = some Node.dir := lock_dir h l hd
    rw [List.foldl_cons, mkdirStep_name a l n hn hd] at hk ⊢
    rw [List.foldl_cons, mkdirStep_name b l n hn hbd]
    cases hc : a.node (l ++ [n]) with
    | none =>
      rw [hc] at hk
      simp only at hk ⊢
      have hk1 : Keeps (a.put (l ++ [n]) Node.dir) f :=
        keeps_trans (mkdirFold_frame (fun _ => True) rel _).1 hk
      obtain ⟨h1, hb1⟩ := lock_put_left h (l ++ [n]) (by simp) hD2 hk1
      rw [hb1]
      simp only
      exact ih _ b (l ++ [n]) h1 hv2 (by rw [node_put _ _ _ _ (by simp)]; simp) hD2 hk
    | some x =>
      cases x with
      | dir =>
        rw [hc] at hk
        simp only at hk ⊢
        rw [lock_dir h _ hc]
        simp only
        exact ih a b (l ++ [n]) h hv2 hc hD2 hk
      | file c =>
        obtain ⟨c1, hc1⟩ := lock_file h _ c hc
        rw [hc1]
        simp only [mkdirFold_none]
        exact ⟨h, trivial⟩

end SPZ


namespace SPZ

/-! ### One entry of a source that lies apart from the destination -/

theorem disjoint_entry {S D : Loc} (hSD : ¬ S <+: D) (hDS : ¬ D <+: S) (rel : List Str) :
    ¬ D <+: S ++ rel := by
  intro h
  rcases List.prefix_or_prefix_of_prefix h (List.prefix_append S rel) with h1 | h1
  · exact hDS h1
  · exact hSD h1

theorem setup_reach {Q : Loc → Prop} {w w1 : World} {source dest : Str} {S D : Loc}
    (h : Setup w source dest S D) (hr : Reach Q w w1) : Setup w1 source dest S D :=
  ⟨reach_wf hr h.wf, resolve_mono (reach_keeps hr) _ _ h.hS,
    resolve_mono (reach_keeps hr) _ _ h.hD, ((reach_keeps hr).2 D).1 h.hDd, h.hSD, h.hDS⟩

theorem setup_valid_D {w : World} {source dest : Str} {S D : Loc}
    (h : Setup w source dest S D) : ∀ x ∈ D, validName x = true :=
  resolve_valid w dest D (WF.namesOK h.wf).2 h.hD

theorem status_entry {w : World} {source dest : Str} {S D : Loc}
    (h : Setup w source dest S D) (rel : List Str) (hv : ∀ x ∈ rel, validName x = true)
    (hex : w.node (S ++ rel) ≠ none) :
    status w (entryPath source rel) = w.node (S ++ rel) := by
  rw [status, resolve_entry_eq w source S rel h.hS hv, if_pos (wf_chain w h.wf S rel hex)]
  rfl

theorem copyEntry_dir (m : BackupManager) {w : World} {source dest : Str} {S D : Loc}
    (h : Setup w source dest S D) (rel : List Str) (hne : rel ≠ [])
    (hv : ∀ x ∈ rel, validName x = true)
    (hx : m.isExcluded (entryPath source rel) = false)
    (hd : w.node (S ++ rel) = some Node.dir) :
    m.copyEntry w source dest (entryPath source rel)
      = match (rel.foldl mkdirStep (w, some D)).2 with
        | some _ => ((rel.foldl mkdirStep (w, some D)).1, none)
        | none => ((rel.foldl mkdirStep (w, some D)).1,
            some "filesystem error: cannot create directories: Not a directory".toList) := by
  have hs := status_entry h rel hv (by rw [hd]; simp)
  rw [copyEntry_entryPath m w source dest rel (resolve_ne_nil w source S h.hS) hne hv, hx]
  simp only [Bool.false_eq_true, if_false, is_directory, hs, hd, decide_True, if_true]
  rw [create_directories_eq w _ (entryPath_ne_nil dest rel (resolve_ne_nil w dest D h.hD) hv),
    create_directories_entry w dest D rel hv h.hD h.hDd]

theorem copyEntry_file (m : BackupManager) {w : World} {source dest : Str} {S D : Loc}
    (h : Setup w source dest S D) (rel : List Str) (hne : rel ≠ [])
    (hv : ∀ x ∈ rel, validName x = true)
    (hx : m.isExcluded (entryPath source rel) = false) (c : Str)
    (hd : w.node (S ++ rel) = some (Node.file c)) :
    m.copyEntry w source dest (entryPath source rel)
      = copy w (entryPath source rel) (entryPath dest rel) := by
  have hs := status_entry h rel hv (by rw [hd]; simp)
  rw [copyEntry_entryPath m w source dest rel (resolve_ne_nil w source S h.hS) hne hv, hx]
  simp only [Bool.false_eq_true, if_false, is_directory, hs, hd]
  simp

theorem copyEntry_excluded (m : BackupManager) (w : World) (source dest p : Str)
    (hx : m.isExcluded p = true) : m.copyEntry w source dest p = (w, none) := by
  simp only [BackupManager.copyEntry, hx, if_true]

theorem goodPut_copyTarget {w : World} {D : Loc} (r : List Str) (n c : Str)
    (hD : ∀ x ∈ D, validName x = true) (hv : ∀ x ∈ r ++ [n], validName x = true)
    (hch : ∀ k < (r ++ [n]).length, w.node (D ++ (r ++ [n]).take k) = some Node.dir)
    (ht : w.node (copyTarget w (D ++ (r ++ [n])) n) ≠ some Node.dir) :
    GoodPut w (copyTarget w (D ++ (r ++ [n])) n) (Node.file c)
      ∧ D <+: copyTarget w (D ++ (r ++ [n])) n := by
  have hn : validName n = true := hv n (by simp)
  have hv0 : ∀ x ∈ D ++ (r ++ [n]), validName x = true := by
    intro x hx
    rw [List.mem_append] at hx
    rcases hx with hx | hx
    · exact hD x hx
    · exact hv x hx
  unfold copyTarget at ht ⊢
  by_cases hT0 : w.node (D ++ (r ++ [n])) = some Node.dir
  · rw [if_pos hT0] at ht ⊢
    refine ⟨⟨by simp, ?_, (by rw [List.dropLast_concat]; exact hT0),
      (fun e => Node.noConfusion e), ht⟩, ⟨(r ++ [n]) ++ [n], by simp⟩⟩
    intro x hx
    rw [List.mem_append] at hx
    rcases hx with hx | hx
    · exact hv0 x hx
    · simp only [List.mem_singleton] at hx; subst hx; exact hn
  · rw [if_neg hT0] at ht ⊢
    refine ⟨⟨by simp, hv0, ?_, (fun e => Node.noConfusion e), ht⟩, ⟨r ++ [n], rfl⟩⟩
    have := hch r.length (by simp)
    rw [List.take_left'] at this
    · rw [← List.append_assoc, List.dropLast_concat]; exact this
    · rfl

/-- The loop body reaches its result by writes below the destination. -/
theorem entry_reach (m : BackupManager) {w : World} {source dest : Str} {S D : Loc}
    (h : Setup w source dest S D) (rel : List Str) (hne : rel ≠ [])
    (hv : ∀ x ∈ rel, validName x = true) (hex : w.node (S ++ rel) ≠ none) :
    Reach (fun k => D <+: k) w (m.copyEntry w source dest (entryPath source rel)).1 := by
  by_cases hx : m.isExcluded (entryPath source rel) = true
  · rw [copyEntry_excluded m w source dest _ hx]; exact Reach.refl w
  · have hx : m.isExcluded (entryPath source rel) = false := by simpa using hx
    cases hn : w.node (S ++ rel) with
    | none => exact absurd hn hex
    | some x =>
      cases x with
      | dir =>
        rw [copyEntry_dir m h rel hne hv hx hn]
        have := (mkdirs_spec D rel w D hv h.hDd (setup_valid_D h) (List.prefix_refl D)).1
        split <;> exact this
      | file c =>
        rw [copyEntry_file m h rel hne hv hx c hn]
        obtain ⟨r, n, rfl⟩ := exists_snoc rel hne
        have hce := copy_entry w source dest c S D r n h.hS h.hD hv hn
          (wf_chain w h.wf S _ (by rw [hn]; simp)) (disjoint_entry h.hSD h.hDS _)
        split at hce
        · rename_i hc
          rw [hce]
          obtain ⟨hg, hq⟩ := goodPut_copyTarget r n c (setup_valid_D h) hv hc.1 hc.2
          exact reach_put w _ _ hq hg
        · rw [hce.1]; exact Reach.refl w

end SPZ


namespace SPZ

theorem chain_iff (w : World) (hw : w.WF) (D : Loc) (r : List Str) (n : Str) :
    (∀ k < (r ++ [n]).length, w.node (D ++ (r ++ [n]).take k) = some Node.dir)
      ↔ w.node (D ++ r) = some Node.dir := by
  constructor
  · intro h
    have := h r.length (by simp)
    rw [List.take_left'] at this
    · exact this
    · rfl
  · intro h k hk
    simp only [List.length_append, List.length_singleton] at hk
    by_cases hkr : k < r.length
    · rw [List.take_append_of_le_length (Nat.le_of_lt hkr)]
      exact wf_chain w hw D r (by rw [h]; simp) k hkr
    · have : k = r.length := by omega
      subst this
      rw [List.take_left']
      · exact h
      · rfl

theorem copy_entry_ok {w : World} {source dest : Str} {S D : Loc}
    (h : Setup w source dest S D) (c : Str) (r : List Str) (n : Str)
    (hv : ∀ x ∈ r ++ [n], validName x = true)
    (hfile : w.node (S ++ (r ++ [n])) = some (Node.file c))
    (hP : w.node (D ++ r) = some Node.dir)
    (ht : w.node (copyTarget w (D ++ (r ++ [n])) n) ≠ some Node.dir) :
    copy w (entryPath source (r ++ [n])) (entryPath dest (r ++ [n]))
      = (w.put (copyTarget w (D ++ (r ++ [n])) n) (Node.file c), none) := by
  have := copy_entry w source dest c S D r n h.hS h.hD hv hfile
    (wf_chain w h.wf S _ (by rw [hfile]; simp)) (disjoint_entry h.hSD h.hDS _)
  rw [if_pos ⟨(chain_iff w h.wf D r n).mpr hP, ht⟩] at this
  exact this

theorem copy_entry_fail {w : World} {source dest : Str} {S D : Loc}
    (h : Setup w source dest S D) (c : Str) (r : List Str) (n : Str)
    (hv : ∀ x ∈ r ++ [n], validName x = true)
    (hfile : w.node (S ++ (r ++ [n])) = some (Node.file c))
    (hP : w.node (D ++ r) ≠ some Node.dir
      ∨ w.node (copyTarget w (D ++ (r ++ [n])) n) = some Node.dir) :
    (copy w (entryPath source (r ++ [n])) (entryPath dest (r ++ [n]))).1 = w
      ∧ (copy w (entryPath source (r ++ [n])) (entryPath dest (r ++ [n]))).2 ≠ none := by
  have := copy_entry w source dest c S D r n h.hS h.hD hv hfile
    (wf_chain w h.wf S _ (by rw [hfile]; simp)) (disjoint_entry h.hSD h.hDS _)
  rw [if_neg] at this
  · exact this
  · rintro ⟨h1, h2⟩
    rcases hP with hP | hP
    · exact hP ((chain_iff w h.wf D r n).mp h1)
    · exact h2 hP

theorem setup_lock {D : Loc} {f a b : World} {source dest : Str} {S : Loc}
    (h : Lock D f a b) (ha : Setup a source dest S D) (hb : b.WF) :
    Setup b source dest S D :=
  ⟨hb, resolve_mono h.ab _ _ ha.hS, resolve_mono h.ab _ _ ha.hD, lock_dir h D ha.hDd,
    ha.hSD, ha.hDS⟩

theorem lock_source_node {D : Loc} {f a b : World} {source dest : Str} {S : Loc}
    (h : Lock D f a b) (ha : Setup a source dest S D) (hL : ¬ S <+: a.logLoc)
    (rel : List Str) : b.node (S ++ rel) = a.node (S ++ rel) :=
  h.off _ (disjoint_entry ha.hSD ha.hDS rel) (fun e => hL ⟨rel, e⟩)

/-- One pass of the loop body in the first and in the second run. -/
theorem lock_entry (m : BackupManager) {D : Loc} {f a b : World} {source dest : Str} {S : Loc}
    (h : Lock D f a b) (ha : Setup a source dest S D) (hb : b.WF) (hL : ¬ S <+: a.logLoc)
    (rel : List Str) (hne : rel ≠ []) (hv : ∀ x ∈ rel, validName x = true)
    (hex : a.node (S ++ rel) ≠ none)
    (hpar : m.isExcluded (entryPath source rel) = false →
      (∃ c, a.node (S ++ rel) = some (Node.file c)) → a.node (D ++ rel.dropLast) ≠ none)
    (hk : Keeps (m.copyEntry a source dest (entryPath source rel)).1 f) :
    Lock D f (m.copyEntry a source dest (entryPath source rel)).1
        (m.copyEntry b source dest (entryPath source rel)).1
      ∧ ((m.copyEntry a source dest (entryPath source rel)).2 = none
          ↔ (m.copyEntry b source dest (entryPath source rel)).2 = none) := by
  have hsb := setup_lock h ha hb
  have hnode := lock_source_node h ha hL rel
  by_cases hx : m.isExcluded (entryPath source rel) = true
  · rw [copyEntry_excluded m a source dest _ hx, copyEntry_excluded m b source dest _ hx]
    exact ⟨h, Iff.rfl⟩
  · have hx : m.isExcluded (entryPath source rel) = false := by simpa using hx
    cases hn : a.node (S ++ rel) with
    | none => exact absurd hn hex
    | some x =>
      cases x with
      | dir =>
        have hnb : b.node (S ++ rel) = some Node.dir := by rw [hnode, hn]
        have ea := copyEntry_dir m ha rel hne hv hx hn
        have eb := copyEntry_dir m hsb rel hne hv hx hnb
        have hk1 : Keeps (rel.foldl mkdirStep (a, some D)).1 f := by
          rw [ea] at hk
          split at hk <;> exact hk
        obtain ⟨h1, h2⟩ := lock_mkdirs D f rel a b D h hv ha.hDd (List.prefix_refl D) hk1
        rw [ea, eb, ← h2]
        cases (rel.foldl mkdirStep (a, some D)).2 with
        | none => exact ⟨h1, by simp⟩
        | some t => exact ⟨h1, by simp⟩
      | file c =>
        have hnb : b.node (S ++ rel) = some (Node.file c) := by rw [hnode, hn]
        rw [copyEntry_file m ha rel hne hv hx c hn] at hk ⊢
        rw [copyEntry_file m hsb rel hne hv hx c hnb]
        obtain ⟨r, n, rfl⟩ := exists_snoc rel hne
        have hP : a.node (D ++ r) ≠ none := by
          have := hpar hx ⟨c, hn⟩
          rw [List.dropLast_concat] at this
          exact this
        -- the parent directory of the mirrored location
        cases hPa : a.node (D ++ r) with
        | none => exact absurd hPa hP
        | some y =>
          cases y with
          | file cP =>
            obtain ⟨c1, hPb⟩ := lock_file h _ cP hPa
            have hca := copy_entry_fail ha c r n hv hn (Or.inl (by rw [hPa]; simp))
            have hcb := copy_entry_fail hsb c r n hv hnb (Or.inl (by rw [hPb]; simp))
            refine ⟨?_, ?_⟩
            · rw [hca.1, hcb.1]; exact h
            · exact ⟨fun e => absurd e hca.2, fun e => absurd e hcb.2⟩
          | dir =>
            have hPb := lock_dir h _ hPa
            by_cases hta : a.node (copyTarget a (D ++ (r ++ [n])) n) = some Node.dir
            · -- the target is a directory in both runs
              have hT0 : a.node (D ++ (r ++ [n])) = some Node.dir := by
                by_contra hc
                have e1 : copyTarget a (D ++ (r ++ [n])) n = D ++ (r ++ [n]) := by
                  unfold copyTarget; rw [if_neg hc]
                rw [e1] at hta
                exact hc hta
              have hT0b := lock_dir h _ hT0
              have hta1 : a.node (D ++ (r ++ [n]) ++ [n]) = some Node.dir := by
                simpa [copyTarget, hT0] using hta
              have htb : b.node (copyTarget b (D ++ (r ++ [n])) n) = some Node.dir := by
                simp only [copyTarget, hT0b, if_true]
                exact lock_dir h _ hta1
              have hca := copy_entry_fail ha c r n hv hn (Or.inr hta)
              have hcb := copy_entry_fail hsb c r n hv hnb (Or.inr htb)
              refine ⟨?_, ?_⟩
              · rw [hca.1, hcb.1]; exact h
              · exact ⟨fun e => absurd e hca.2, fun e => absurd e hcb.2⟩
            · have hca := copy_entry_ok ha c r n hv hn hPa hta
              rw [hca] at hk ⊢
              have hg := goodPut_copyTarget (w := a) r n c (setup_valid_D ha) hv
                ((chain_iff a ha.wf D r n).mpr hPa) hta
              have hfile : ∃ c1, f.node (copyTarget a (D ++ (r ++ [n])) n)
                  = some (Node.file c1) :=
                (hk.2 _).2 c (by rw [node_put _ _ _ _ hg.1.1]; simp)
              obtain ⟨c1, hc1⟩ := hfile
              have hbf : ∃ c2, b.node (copyTarget a (D ++ (r ++ [n])) n)
                  = some (Node.file c2) := by
                have := h.kind _ hg.2
                rw [hc1] at this
                exact sameKind_file this
              obtain ⟨c2, hc2⟩ := hbf
              have htgt : copyTarget b (D ++ (r ++ [n])) n
                  = copyTarget a (D ++ (r ++ [n])) n := by
                by_cases hT0 : a.node (D ++ (r ++ [n])) = some Node.dir
                · simp [copyTarget, hT0, lock_dir h _ hT0]
                · have e1 : copyTarget a (D ++ (r ++ [n])) n = D ++ (r ++ [n]) := by
                    simp [copyTarget, hT0]
                  rw [e1] at hc2 ⊢
                  simp [copyTarget, hc2]
              have hcb := copy_entry_ok hsb c r n hv hnb hPb
                (by rw [htgt, hc2]; simp)
              rw [hcb, htgt]
              exact ⟨lock_put_both h _ c hg.1.1 hg.2 hk, Iff.rfl⟩

end SPZ


namespace SPZ

/-! ### The loop over the entries of one source, in the two runs -/

theorem iterator_eq (w : World) (source : Str) (S : Loc) (hS : resolve w source = some S)
    (hd : w.node S = some Node.dir) :
    recursive_directory_iterator w source = some (entriesOf source S w.nodes) := by
  simp only [recursive_directory_iterator, hS, hd, if_true, entriesOf]

theorem iterator_none (w : World) (source : Str) (S : Loc) (hS : resolve w source = some S)
    (hd : w.node S ≠ some Node.dir) : recursive_directory_iterator w source = none := by
  simp only [recursive_directory_iterator, hS, hd, if_false]

theorem wf_split (w : World) (hw : w.WF) (pre post : List (Loc × Node)) (e : Loc × Node)
    (h : w.nodes = pre ++ e :: post) :
    e.1 ≠ [] ∧ (∀ x ∈ e.1, validName x = true)
      ∧ (e.1.dropLast = [] ∨ pre.lookup e.1.dropLast = some Node.dir) := by
  have h1 := hw.1
  rw [h, wfFrom_append] at h1
  simp only [Bool.and_eq_true, List.nil_append, wfFrom, bne_iff_ne, ne_eq, Bool.or_eq_true,
    beq_iff_eq, List.all_eq_true] at h1
  exact ⟨h1.2.1.1.1.1, h1.2.1.1.1.2, h1.2.1.2⟩

theorem node_of_mem (w : World) (e : Loc × Node) (he : e ∈ w.nodes) (hne : e.1 ≠ []) :
    w.node e.1 ≠ none := by
  rw [node_ne_nil w e.1 hne]
  have := lookup_isSome_of_mem w.nodes e he
  intro h
  rw [h] at this
  exact absurd this (by simp)

theorem prefix_pathAppend (p n : Str) (h : validName n = true) : p <+: pathAppend p n := by
  rw [pathAppend_name p n h]
  split
  · exact List.prefix_append p _
  · exact List.prefix_append p _

theorem excl_parent (m : BackupManager) (source : Str) (r : List Str) (n : Str)
    (hn : validName n = true) (h : m.isExcluded (entryPath source (r ++ [n])) = false) :
    m.isExcluded (entryPath source r) = false := by
  by_contra hc
  have hc : m.isExcluded (entryPath source r) = true := by simpa using hc
  obtain ⟨e, he, hp⟩ := (isExcluded_iff m _).mp hc
  have : m.isExcluded (entryPath source (r ++ [n])) = true := by
    rw [isExcluded_iff]
    refine ⟨e, he, hp.trans ?_⟩
    rw [entryPath_snoc]
    exact prefix_pathAppend _ n hn
  rw [h] at this
  exact absurd this (by simp)

theorem entry_dir_done (m : BackupManager) {w : World} {source dest : Str} {S D : Loc}
    (h : Setup w source dest S D) (rel : List Str) (hne : rel ≠ [])
    (hv : ∀ x ∈ rel, validName x = true)
    (hx : m.isExcluded (entryPath source rel) = false)
    (hd : w.node (S ++ rel) = some Node.dir)
    (hok : (m.copyEntry w source dest (entryPath source rel)).2 = none) :
    (m.copyEntry w source dest (entryPath source rel)).1.node (D ++ rel) = some Node.dir := by
  rw [copyEntry_dir m h rel hne hv hx hd] at hok ⊢
  have := (mkdirs_spec D rel w D hv h.hDd (setup_valid_D h) (List.prefix_refl D)).2
  cases hf : (rel.foldl mkdirStep (w, some D)).2 with
  | none => rw [hf] at hok; exact absurd hok (by simp)
  | some t =>
    obtain ⟨ht, hnode⟩ := this t hf
    subst ht
    simpa [hf] using hnode

theorem entriesOf_isEntry (source : Str) (S : Loc) (ns : List (Loc × Node))
    (hv : ∀ e ∈ ns, ∀ x ∈ e.1, validName x = true) :
    ∀ p ∈ entriesOf source S ns, IsEntry source p := by
  intro p hp
  unfold entriesOf at hp
  rw [List.mem_filterMap] at hp
  obtain ⟨e, he, hep⟩ := hp
  split at hep
  · rename_i hc
    simp only [Option.some.injEq] at hep
    simp only [Bool.and_eq_true, bne_iff_ne, ne_eq] at hc
    obtain ⟨r, hr⟩ := List.isPrefixOf_iff_prefix.mp hc.1
    refine ⟨e.1.drop S.length, ?_, ?_, hep.symm⟩
    · rw [← hr]
      simp only [List.drop_left]
      rintro rfl
      apply hc.2
      rw [← hr]; simp
    · intro x hx
      exact hv e he x (List.mem_of_mem_drop hx)
  · exact absurd hep (by simp)

theorem entriesOf_cons_in (source : Str) (S : Loc) (e : Loc × Node) (ns : List (Loc × Node))
    (h : (S.isPrefixOf e.1 && e.1 != S) = true) :
    entriesOf source S (e :: ns)
      = entryPath source (e.1.drop S.length) :: entriesOf source S ns := by
  simp only [entriesOf, List.filterMap_cons, h, if_true]

theorem entriesOf_cons_out (source : Str) (S : Loc) (e : Loc × Node) (ns : List (Loc × Node))
    (h : ¬ (S.isPrefixOf e.1 && e.1 != S) = true) :
    entriesOf source S (e :: ns) = entriesOf source S ns := by
  have h2 : (S.isPrefixOf e.1 && e.1 != S) = false := by simpa using h
  simp only [entriesOf, List.filterMap_cons, h2, Bool.false_eq_true, if_false]

theorem lock_loop (m : BackupManager) {D : Loc} {f : World} {source dest : Str} {S : Loc}
    (a0 : World) (ha0 : a0.WF) (rest : List (Loc × Node)) :
    ∀ (seen : List (Loc × Node)) (a b : World), a0.nodes = seen ++ rest →
      Lock D f a b → Setup a source dest S D → b.WF → ¬ S <+: a.logLoc →
      (∀ l, ¬ D <+: l → a.node l = a0.node l) →
      (∀ e ∈ seen, S <+: e.1 → e.1 ≠ S → a0.node e.1 = some Node.dir →
        m.isExcluded (entryPath source (e.1.drop S.length)) = false →
        a.node (D ++ e.1.drop S.length) = some Node.dir) →
      Keeps (m.copyEntries source dest a (entriesOf source S rest)).1 f →
      Lock D f (m.copyEntries source dest a (entriesOf source S rest)).1
          (m.copyEntries source dest b (entriesOf source S rest)).1
        ∧ ((m.copyEntries source dest a (entriesOf source S rest)).2 = none
            ↔ (m.copyEntries source dest b (entriesOf source S rest)).2 = none) := by
  induction rest with
  | nil =>
    intro seen a b _ h _ _ _ _ _ _
    exact ⟨h, Iff.rfl⟩
  | cons e rest ih =>
    intro seen a b hn h ha hb hL hsrc hpin hk
    have hn2 : a0.nodes = (seen ++ [e]) ++ rest := by rw [hn, List.append_assoc]; rfl
    by_cases hin : (S.isPrefixOf e.1 && e.1 != S) = true
    · -- an entry of the source
      obtain ⟨hene, hev, hepar⟩ := wf_split a0 ha0 seen rest e hn
      simp only [Bool.and_eq_true, bne_iff_ne, ne_eq] at hin
      obtain ⟨rel, hrel⟩ := List.isPrefixOf_iff_prefix.mp hin.1
      have hdrop : e.1.drop S.length = rel := by rw [← hrel]; simp
      have hne : rel ≠ [] := by
        rintro rfl
        apply hin.2
        rw [← hrel]; simp
      have hv : ∀ x ∈ rel, validName x = true := by
        intro x hx
        exact hev x (by rw [← hrel]; simp [hx])
      have hmem : e ∈ a0.nodes := by rw [hn]; simp
      have hex0 : a0.node (S ++ rel) ≠ none := by
        rw [hrel]; exact node_of_mem a0 e hmem hene
      have hoff : ¬ D <+: S ++ rel := disjoint_entry ha.hSD ha.hDS rel
      have hex : a.node (S ++ rel) ≠ none := by rw [hsrc _ hoff]; exact hex0
      have hes : ∀ p ∈ entriesOf source S rest, IsEntry source p :=
        entriesOf_isEntry source S rest (fun e1 he1 =>
          (WF.namesOK ha0).1 e1 (by rw [hn]; simp [he1]))
      rw [entriesOf_cons_in source S e rest (by simp [hin]), hdrop] at hk ⊢
      -- the step itself
      have hra := entry_reach m ha rel hne hv hex
      have hsb := setup_lock h ha hb
      have hrb := entry_reach m hsb rel hne hv
        (by rw [lock_source_node h ha hL rel]; exact hex)
      have hkstep : Keeps (m.copyEntry a source dest (entryPath source rel)).1 f := by
        simp only [BackupManager.copyEntries] at hk
        cases hc : m.copyEntry a source dest (entryPath source rel) with
        | mk a1 ra =>
          rw [hc] at hk hra
          cases ra with
          | some err => exact hk
          | none =>
            simp only at hk
            have ha1 := setup_reach ha hra
            exact keeps_trans (copyEntries_frame (fun _ => False) m source dest D
              (resolve_ne_nil _ _ _ ha.hS) (fun _ hl => absurd hl id) _ a1 hes ha1.hD
              (WF.namesOK ha1.wf)).1.1 hk
      have hpar : m.isExcluded (entryPath source rel) = false →
          (∃ c, a.node (S ++ rel) = some (Node.file c)) → a.node (D ++ rel.dropLast) ≠ none := by
        intro hx _
        obtain ⟨r, n, rfl⟩ := exists_snoc rel hne
        rw [List.dropLast_concat]
        by_cases hr : r = []
        · subst hr
          rw [List.append_nil, ha.hDd]; simp
        · have hkp : e.1.dropLast = S ++ r := by
            rw [← hrel, ← List.append_assoc, List.dropLast_concat]
          rcases hepar with h0 | h0
          · rw [hkp] at h0
            simp only [List.append_eq_nil] at h0
            exact absurd h0.2 hr
          · have hpm := mem_of_lookup _ _ _ h0
            have hx2 := excl_parent m source r n (hv n (by simp)) hx
            have hnode0 : a0.node (e.1.dropLast) = some Node.dir := by
              have hne2 : e.1.dropLast ≠ [] := by rw [hkp]; simp [hr]
              rw [node_ne_nil a0 _ hne2, hn, lookup_append, h0]
            have := hpin (e.1.dropLast, Node.dir) hpm (by rw [hkp]; exact List.prefix_append S r)
              (by
                rw [hkp]
                intro e1
                have := congrArg List.length e1
                simp only [List.length_append] at this
                have hr2 : r.length ≠ 0 := by
                  intro e2; exact hr (List.length_eq_zero.mp e2)
                omega)
              hnode0 (by rw [hkp]; simpa using hx2)
            rw [hkp] at this
            simp only [List.drop_left] at this
            rw [this]; simp
      obtain ⟨h1, hiff⟩ := lock_entry m h ha hb hL rel hne hv hex hpar hkstep
      simp only [BackupManager.copyEntries] at hk ⊢
      cases hca : m.copyEntry a source dest (entryPath source rel) with
      | mk a1 ra =>
        cases hcb : m.copyEntry b source dest (entryPath source rel) with
        | mk b1 rb =>
          rw [hca, hcb] at h1 hiff
          rw [hca] at hk hra
          rw [hcb] at hrb
          simp only at h1 hiff hk hra hrb ⊢
          cases ra with
          | some err =>
            cases rb with
            | none => exact absurd (hiff.mpr rfl) (by simp)
            | some err2 => exact ⟨h1, by simp⟩
          | none =>
            cases rb with
            | some err2 => exact absurd (hiff.mp rfl) (by simp)
            | none =>
              simp only
              refine ih (seen ++ [e]) a1 b1 hn2 h1 (setup_reach ha hra) (reach_wf hrb hb)
                ?_ ?_ ?_ hk
              · unfold World.logLoc at hL ⊢
                rw [reach_cwd hra]; exact hL
              · intro l hl
                rw [reach_off hra l hl]; exact hsrc l hl
              · intro e1 he1 hp1 hp2 hp3 hp4
                rw [List.mem_append] at he1
                rcases he1 with he1 | he1
                · exact ((reach_keeps hra).2 _).1 (hpin e1 he1 hp1 hp2 hp3 hp4)
                · simp only [List.mem_singleton] at he1
                  subst he1
                  rw [hdrop] at hp4 ⊢
                  have hd : a.node (S ++ rel) = some Node.dir := by
                    rw [hsrc _ hoff, hrel]; exact hp3
                  have := entry_dir_done m ha rel hne hv hp4 hd (by rw [hca])
                  rw [hca] at this
                  exact this
    · rw [entriesOf_cons_out source S e rest hin] at hk ⊢
      refine ih (seen ++ [e]) a b hn2 h ha hb hL hsrc ?_ hk
      intro e1 he1 hp1 hp2 hp3 hp4
      rw [List.mem_append] at he1
      rcases he1 with he1 | he1
      · exact hpin e1 he1 hp1 hp2 hp3 hp4
      · simp only [List.mem_singleton] at he1
        subst he1
        exfalso
        apply hin
        simp only [Bool.and_eq_true, bne_iff_ne, ne_eq]
        exact ⟨List.isPrefixOf_iff_prefix.mpr hp1, hp2⟩

end SPZ


namespace SPZ

/-! ### One source directory in the two runs -/

theorem entriesOf_keys (source : Str) (S : Loc) (ns : List (Loc × Node)) :
    entriesOf source S ns
      = (ns.map Prod.fst).filterMap (fun k =>
          if S.isPrefixOf k && k != S then some (entryPath source (k.drop S.length))
          else none) := by
  rw [List.filterMap_map]
  rfl

theorem entries_agree {a b : World} {source dest : Str} {S D : Loc}
    (ha : Setup a source dest S D) (L : Loc) (hL : ¬ S <+: L)
    (hkeys : (a.nodes.map Prod.fst).filter (fun k => !(D.isPrefixOf k || k == L))
      = (b.nodes.map Prod.fst).filter (fun k => !(D.isPrefixOf k || k == L))) :
    entriesOf source S a.nodes = entriesOf source S b.nodes := by
  have key : ∀ ks : List Loc,
      ks.filterMap (fun k =>
          if S.isPrefixOf k && k != S then some (entryPath source (k.drop S.length))
          else none)
      = (ks.filter (fun k => !(D.isPrefixOf k || k == L))).filterMap (fun k =>
          if S.isPrefixOf k && k != S then some (entryPath source (k.drop S.length))
          else none) := by
    intro ks
    rw [List.filterMap_filter]
    apply List.filterMap_congr
    intro k _
    by_cases hq : (D.isPrefixOf k || k == L) = true
    · have hS : ¬ S <+: k := by
        intro hp
        obtain ⟨rel, hrel⟩ := hp
        simp only [Bool.or_eq_true, beq_iff_eq] at hq
        rcases hq with hq | hq
        · have := List.isPrefixOf_iff_prefix.mp hq
          rw [← hrel] at this
          exact disjoint_entry ha.hSD ha.hDS rel this
        · exact hL ⟨rel, hrel.trans hq⟩
      have : S.isPrefixOf k = false :=
        Bool.eq_false_iff.mpr (fun hc => hS (List.isPrefixOf_iff_prefix.mp hc))
      rw [this, hq]
      rfl
    · have hq : (D.isPrefixOf k || k == L) = false := Bool.eq_false_iff.mpr hq
      rw [hq]
      rfl
  rw [entriesOf_keys, entriesOf_keys, key, hkeys, ← key]

theorem copyEntries_reach (m : BackupManager) {source dest : Str} {S D : Loc} (w0 : World)
    (hw0 : w0.WF) (ns : List (Loc × Node)) (hns : ∀ e ∈ ns, e ∈ w0.nodes) :
    ∀ w : World, Setup w source dest S D → (∀ l, ¬ D <+: l → w.node l = w0.node l) →
      Reach (fun k => D <+: k) w (m.copyEntries source dest w (entriesOf source S ns)).1 := by
  induction ns with
  | nil => intro w _ _; exact Reach.refl w
  | cons e ns ih =>
    intro w hs hsrc
    have ih2 := ih (fun e1 he1 => hns e1 (by simp [he1]))
    by_cases hin : (S.isPrefixOf e.1 && e.1 != S) = true
    · rw [entriesOf_cons_in source S e ns hin]
      simp only [Bool.and_eq_true, bne_iff_ne, ne_eq] at hin
      obtain ⟨rel, hrel⟩ := List.isPrefixOf_iff_prefix.mp hin.1
      have hdrop : e.1.drop S.length = rel := by rw [← hrel]; simp
      have hne : rel ≠ [] := by
        rintro rfl
        apply hin.2
        rw [← hrel]; simp
      have hmem := hns e (by simp)
      have hv : ∀ x ∈ rel, validName x = true := by
        intro x hx
        exact (WF.namesOK hw0).1 e hmem x (by rw [← hrel]; simp [hx])
      have hene : e.1 ≠ [] := by rw [← hrel]; simp [hne]
      have hex : w.node (S ++ rel) ≠ none := by
        rw [hsrc _ (disjoint_entry hs.hSD hs.hDS rel), hrel]
        exact node_of_mem w0 e hmem hene
      rw [hdrop]
      have hr := entry_reach m hs rel hne hv hex
      simp only [BackupManager.copyEntries]
      cases hc : m.copyEntry w source dest (entryPath source rel) with
      | mk w1 r =>
        rw [hc] at hr
        cases r with
        | some err => exact hr
        | none =>
          exact reach_trans hr (ih2 w1 (setup_reach hs hr)
            (fun l hl => by rw [reach_off hr l hl]; exact hsrc l hl))
    · rw [entriesOf_cons_out source S e ns hin]
      exact ih2 w hs hsrc

theorem copyDirectory_reach (m : BackupManager) {w : World} {source dest : Str} {S D : Loc}
    (hs : Setup w source dest S D) :
    Reach (fun k => D <+: k) w (m.copyDirectory w source dest).1 := by
  unfold BackupManager.copyDirectory
  by_cases hd : w.node S = some Node.dir
  · rw [iterator_eq w source S hs.hS hd]
    exact copyEntries_reach m w hs.wf w.nodes (fun _ h => h) w hs (fun _ _ => rfl)
  · rw [iterator_none w source S hs.hS hd]
    exact Reach.refl w

theorem lock_copyDirectory (m : BackupManager) {D : Loc} {f a b : World} {source dest : Str}
    {S : Loc} (h : Lock D f a b) (ha : Setup a source dest S D) (hb : b.WF)
    (hL : ¬ S <+: a.logLoc)
    (hkeys : (a.nodes.map Prod.fst).filter (fun k => !(D.isPrefixOf k || k == a.logLoc))
      = (b.nodes.map Prod.fst).filter (fun k => !(D.isPrefixOf k || k == a.logLoc)))
    (hk : Keeps (m.copyDirectory a source dest).1 f) :
    Lock D f (m.copyDirectory a source dest).1 (m.copyDirectory b source dest).1
      ∧ ((m.copyDirectory a source dest).2 = none ↔ (m.copyDirectory b source dest).2 = none) := by
  have hsb := setup_lock h ha hb
  have hnS : b.node S = a.node S := by
    have := lock_source_node h ha hL []
    simpa using this
  unfold BackupManager.copyDirectory at hk ⊢
  by_cases hd : a.node S = some Node.dir
  · have hdb : b.node S = some Node.dir := by rw [hnS]; exact hd
    rw [iterator_eq a source S ha.hS hd] at hk ⊢
    rw [iterator_eq b source S hsb.hS hdb, ← entries_agree ha a.logLoc hL hkeys]
    exact lock_loop m a ha.wf a.nodes [] a b rfl h ha hb hL (fun _ _ => rfl)
      (fun e he => absurd he (by simp)) hk
  · have hdb : b.node S ≠ some Node.dir := by rw [hnS]; exact hd
    rw [iterator_none a source S ha.hS hd]
    rw [iterator_none b source S hsb.hS hdb]
    exact ⟨h, by simp⟩

end SPZ


namespace SPZ

/-! ### The log, and the whole backup loop in the two runs -/

theorem logError_dir (w : World) (e : Str) (h : w.node w.logLoc = some Node.dir) :
    logError w e = w := by
  unfold World.logLoc at h
  simp only [logError, h]

theorem logError_put (w : World) (e : Str) (h : w.node w.logLoc ≠ some Node.dir) :
    ∃ c, logError w e = w.put w.logLoc (Node.file c) := by
  unfold World.logLoc at h ⊢
  unfold logError
  cases hn : w.node (w.cwd ++ [logName]) with
  | none => exact ⟨_, rfl⟩
  | some x =>
    cases x with
    | dir => exact absurd hn h
    | file c => exact ⟨_, rfl⟩

theorem goodPut_log (w : World) (hw : w.WF) (c : Str) (h : w.node w.logLoc ≠ some Node.dir) :
    GoodPut w w.logLoc (Node.file c) := by
  unfold World.logLoc at h ⊢
  refine ⟨by simp, ?_, (by rw [List.dropLast_concat]; exact hw.2.1),
    (fun e => Node.noConfusion e), h⟩
  intro x hx
  rw [List.mem_append] at hx
  rcases hx with hx | hx
  · exact (WF.namesOK hw).2 x hx
  · simp only [List.mem_singleton] at hx; subst hx; exact validName_logName

theorem logError_reach (w : World) (hw : w.WF) (e : Str) :
    Reach (fun l => l = w.logLoc) w (logError w e) := by
  by_cases h : w.node w.logLoc = some Node.dir
  · rw [logError_dir w e h]; exact Reach.refl w
  · obtain ⟨c, hc⟩ := logError_put w e h
    rw [hc]
    exact reach_put w _ _ rfl (goodPut_log w hw c h)

theorem lock_log {D : Loc} {f a b : World} (h : Lock D f a b) (hDL : ¬ D <+: a.logLoc)
    (e e2 : Str) (hk : Keeps (logError a e) f) :
    Lock D f (logError a e) (logError b e2) := by
  have hlb : b.logLoc = a.logLoc := by unfold World.logLoc; rw [h.ab.1]
  by_cases hd : a.node a.logLoc = some Node.dir
  · have hdb : b.node b.logLoc = some Node.dir := by rw [hlb]; exact lock_dir h _ hd
    rw [logError_dir a e hd, logError_dir b e2 hdb]
    exact h
  · have hdb : b.node b.logLoc ≠ some Node.dir := by
      rw [hlb]
      intro hc
      exact hd (h.offd _ hDL hc)
    obtain ⟨c, hc⟩ := logError_put a e hd
    obtain ⟨c2, hc2⟩ := logError_put b e2 hdb
    rw [hc] at hk ⊢
    rw [hc2, hlb]
    have hne : a.logLoc ≠ [] := by unfold World.logLoc; simp
    refine ⟨hk, ⟨h.ab.1, fun l => ?_⟩, fun l hl => ?_, fun l hl => ?_,
      fun l hl hl2 => ?_, fun l hl => ?_⟩
    · rw [node_put a _ l _ hne, node_put b _ l _ hne]
      by_cases e1 : l = a.logLoc
      · simp only [e1, if_true]
        exact ⟨fun e3 => absurd e3 (by simp), fun c3 _ => ⟨c2, rfl⟩⟩
      · simp only [e1, if_false]
        exact h.ab.2 l
    · rw [node_put b _ l _ hne]
      have e1 : l ≠ a.logLoc := by rintro rfl; exact hDL hl
      simp only [e1, if_false]
      exact h.kind l hl
    · rw [node_put a _ l _ hne, node_put b _ l _ hne]
      have e1 : l ≠ a.logLoc := by rintro rfl; exact hDL hl
      simp only [e1, if_false]
      exact h.node l hl
    · have e1 : l ≠ a.logLoc := hl2
      rw [node_put a _ l _ hne, node_put b _ l _ hne]
      simp only [e1, if_false]
      exact h.off l hl hl2
    · rw [node_put a _ l _ hne, node_put b _ l _ hne]
      by_cases e1 : l = a.logLoc
      · simp [e1]
      · simp only [e1, if_false]
        exact h.offd l hl

theorem backupOne_reach (m : BackupManager) {w : World} {d : Str} {S D : Loc}
    (hs : Setup w d m.backupDirectory S D) :
    Reach (fun l => (D.isPrefixOf l || l == w.logLoc) = true) w (m.backupOne w d) := by
  have h1 : Reach (fun l => (D.isPrefixOf l || l == w.logLoc) = true) w
      (m.copyDirectory w d m.backupDirectory).1 :=
    reach_mono (fun l hl => by simp [List.isPrefixOf_iff_prefix.mpr hl])
      (copyDirectory_reach m hs)
  unfold BackupManager.backupOne
  cases hc : m.copyDirectory w d m.backupDirectory with
  | mk w1 r =>
    rw [hc] at h1
    cases r with
    | none => exact h1
    | some e =>
      have hl : w1.logLoc = w.logLoc := by unfold World.logLoc; rw [reach_cwd h1]
      refine reach_trans h1 (reach_mono (fun l hl2 => ?_) (logError_reach w1 (reach_wf h1 hs.wf) e))
      simp only at hl2
      rw [hl2, hl]; simp

theorem lock_backupOne (m : BackupManager) {D : Loc} {f a b : World} {d : Str} {S : Loc}
    (h : Lock D f a b) (ha : Setup a d m.backupDirectory S D) (hb : b.WF)
    (hL : ¬ S <+: a.logLoc) (hDL : ¬ D <+: a.logLoc)
    (hkeys : (a.nodes.map Prod.fst).filter (fun k => !(D.isPrefixOf k || k == a.logLoc))
      = (b.nodes.map Prod.fst).filter (fun k => !(D.isPrefixOf k || k == a.logLoc)))
    (hk : Keeps (m.backupOne a d) f) :
    Lock D f (m.backupOne a d) (m.backupOne b d) := by
  have hra := copyDirectory_reach m ha
  have hk1 : Keeps (m.copyDirectory a d m.backupDirectory).1 f := by
    unfold BackupManager.backupOne at hk
    cases hc : m.copyDirectory a d m.backupDirectory with
    | mk a1 r =>
      rw [hc] at hk hra
      cases r with
      | none => exact hk
      | some e =>
        exact keeps_trans (reach_keeps (logError_reach a1 (reach_wf hra ha.wf) e)) hk
  obtain ⟨h1, hiff⟩ := lock_copyDirectory m h ha hb hL hkeys hk1
  unfold BackupManager.backupOne at hk ⊢
  cases hca : m.copyDirectory a d m.backupDirectory with
  | mk a1 ra =>
    cases hcb : m.copyDirectory b d m.backupDirectory with
    | mk b1 rb =>
      rw [hca, hcb] at h1 hiff
      rw [hca] at hk hra
      simp only at h1 hiff hk hra ⊢
      cases ra with
      | none =>
        cases rb with
        | none => exact h1
        | some e2 => exact absurd (hiff.mp rfl) (by simp)
      | some e =>
        cases rb with
        | none => exact absurd (hiff.mpr rfl) (by simp)
        | some e2 =>
          simp only
          have hl : a1.logLoc = a.logLoc := by unfold World.logLoc; rw [reach_cwd hra]
          exact lock_log h1 (by rw [hl]; exact hDL) e e2 hk

theorem lock_backupAll (m : BackupManager) {D : Loc} {f : World} (dirs : List Str) :
    ∀ a b : World, Lock D f a b → b.WF →
      (∀ d ∈ dirs, ∃ S, Setup a d m.backupDirectory S D ∧ ¬ S <+: a.logLoc) →
      ¬ D <+: a.logLoc →
      (a.nodes.map Prod.fst).filter (fun k => !(D.isPrefixOf k || k == a.logLoc))
        = (b.nodes.map Prod.fst).filter (fun k => !(D.isPrefixOf k || k == a.logLoc)) →
      Keeps (m.backupAll a dirs) f →
      Lock D f (m.backupAll a dirs) (m.backupAll b dirs) := by
  induction dirs with
  | nil => intro a b h _ _ _ _ _; exact h
  | cons d dirs ih =>
    intro a b h hb hsrc hDL hkeys hk
    obtain ⟨S, hs, hL⟩ := hsrc d (by simp)
    rw [backupAll_cons] at hk ⊢
    rw [backupAll_cons]
    have hra := backupOne_reach m hs
    have hsb := setup_lock h hs hb
    have hrb := backupOne_reach m hsb
    have hlb : b.logLoc = a.logLoc := by unfold World.logLoc; rw [h.ab.1]
    rw [hlb] at hrb
    have hl1 : (m.backupOne a d).logLoc = a.logLoc := by
      unfold World.logLoc; rw [reach_cwd hra]
    have hk1 : Keeps (m.backupOne a d) f := by
      refine keeps_trans ?_ hk
      -- the rest of the loop keeps everything
      have hD1 := resolve_mono (reach_keeps hra) _ _ hs.hD
      exact (backupAll_frame m (m.backupOne a d) D dirs (m.backupOne a d) hD1
        (WF.namesOK (reach_wf hra hs.wf)) rfl).1
    have h1 := lock_backupOne m h hs hb hL hDL hkeys hk1
    refine ih _ _ h1 (reach_wf hrb hb) ?_ (by rw [hl1]; exact hDL) ?_ hk
    · intro d2 hd2
      obtain ⟨S2, hs2, hL2⟩ := hsrc d2 (by simp [hd2])
      exact ⟨S2, setup_reach hs2 hra, by rw [hl1]; exact hL2⟩
    · rw [hl1, reach_keys _ hra, reach_keys _ hrb]
      exact hkeys

theorem backupAll_reach (m : BackupManager) {D : Loc} (dirs : List Str) :
    ∀ w : World, (∀ d ∈ dirs, ∃ S, Setup w d m.backupDirectory S D) →
      Reach (fun l => (D.isPrefixOf l || l == w.logLoc) = true) w (m.backupAll w dirs) := by
  induction dirs with
  | nil => intro w _; exact Reach.refl w
  | cons d dirs ih =>
    intro w hsrc
    obtain ⟨S, hs⟩ := hsrc d (by simp)
    have hr := backupOne_reach m hs
    have hl1 : (m.backupOne w d).logLoc = w.logLoc := by
      unfold World.logLoc; rw [reach_cwd hr]
    rw [backupAll_cons]
    have := ih (m.backupOne w d) (fun d2 hd2 => by
      obtain ⟨S2, hs2⟩ := hsrc d2 (by simp [hd2])
      exact ⟨S2, setup_reach hs2 hr⟩)
    rw [hl1] at this
    exact reach_trans hr this

theorem backupOne_log_dir (m : BackupManager) {w : World} {d : Str} {S D : Loc}
    (hs : Setup w d m.backupDirectory S D) (hDL : ¬ D <+: w.logLoc)
    (h : (m.backupOne w d).node w.logLoc = some Node.dir) :
    w.node w.logLoc = some Node.dir := by
  have hr := copyDirectory_reach m hs
  unfold BackupManager.backupOne at h
  cases hc : m.copyDirectory w d m.backupDirectory with
  | mk w1 r =>
    rw [hc] at h hr
    have hl : w1.logLoc = w.logLoc := by unfold World.logLoc; rw [reach_cwd hr]
    have hoff := reach_off hr w.logLoc hDL
    simp only at hoff
    cases r with
    | none =>
      simp only at h
      rw [← hoff]; exact h
    | some e =>
      simp only at h
      by_cases hd : w1.node w1.logLoc = some Node.dir
      · rw [← hoff, ← hl]; exact hd
      · obtain ⟨c, hcc⟩ := logError_put w1 e hd
        rw [hcc, hl, node_put _ _ _ _ (by unfold World.logLoc; simp)] at h
        simp at h

theorem backupAll_log_dir (m : BackupManager) {D : Loc} (dirs : List Str) :
    ∀ w : World, (∀ d ∈ dirs, ∃ S, Setup w d m.backupDirectory S D) → ¬ D <+: w.logLoc →
      (m.backupAll w dirs).node w.logLoc = some Node.dir → w.node w.logLoc = some Node.dir := by
  induction dirs with
  | nil => intro w _ _ h; exact h
  | cons d dirs ih =>
    intro w hsrc hDL h
    obtain ⟨S, hs⟩ := hsrc d (by simp)
    have hr := backupOne_reach m hs
    have hl1 : (m.backupOne w d).logLoc = w.logLoc := by
      unfold World.logLoc; rw [reach_cwd hr]
    rw [backupAll_cons, ← hl1] at h
    have := ih (m.backupOne w d) (fun d2 hd2 => by
      obtain ⟨S2, hs2⟩ := hsrc d2 (by simp [hd2])
      exact ⟨S2, setup_reach hs2 hr⟩) (by rw [hl1]; exact hDL) h
    rw [hl1] at this
    exact backupOne_log_dir m hs hDL this

end SPZ


namespace SPZ

/-! ### Running the backup twice -/

set_option maxRecDepth 100000 in
/-- C6 (counterexample): when a copy error is logged and the log file lies in the
destination tree (first world) or in a source directory (second world), the
second run leaves a destination tree that differs from the one after the first
run: the log, or its copy, has grown. -/
theorem C6_counterexample_log_in_the_trees :
    (resolve exWorldLogInDest exManagerOne.backupDirectory = some ["bk".toList]
      ∧ (exManagerOne.performBackup (exManagerOne.performBackup exWorldLogInDest)).node
          ["bk".toList, "backup_log.txt".toList]
        ≠ (exManagerOne.performBackup exWorldLogInDest).node
          ["bk".toList, "backup_log.txt".toList])
    ∧ (resolve exWorldLogInSource exManagerLogs.backupDirectory = some ["bk".toList]
      ∧ (exManagerLogs.performBackup (exManagerLogs.performBackup exWorldLogInSource)).node
          ["bk".toList, "backup_log.txt".toList]
        ≠ (exManagerLogs.performBackup exWorldLogInSource).node
          ["bk".toList, "backup_log.txt".toList]) := by
  decide

/-- C6 (amended): when the destination is a directory, every registered source
lies apart from it (neither inside the other), and the log file lies neither in
the destination tree nor in a source, running `performBackup` a second time leaves
every location of the destination tree as the first run left it: the same
entries with the same kinds and contents, and no further entry. -/
theorem C6_second_run_keeps_destination_tree (m : BackupManager) (w : World) (D : Loc)
    (hw : w.WF) (hD : resolve w m.backupDirectory = some D)
    (hDd : w.node D = some Node.dir) (hDL : ¬ D <+: w.logLoc)
    (hsrc : ∀ s ∈ m.directories, ∃ S, resolve w s = some S
      ∧ ¬ S <+: D ∧ ¬ D <+: S ∧ ¬ S <+: w.logLoc) :
    ∀ l, D <+: l →
      (m.performBackup (m.performBackup w)).node l = (m.performBackup w).node l := by
  have hsetup : ∀ d ∈ m.directories,
      ∃ S, Setup w d m.backupDirectory S D ∧ ¬ S <+: w.logLoc := by
    intro d hd
    obtain ⟨S, h1, h2, h3, h4⟩ := hsrc d hd
    exact ⟨S, ⟨hw, h1, hD, hDd, h2, h3⟩, h4⟩
  have hsetup2 : ∀ d ∈ m.directories, ∃ S, Setup w d m.backupDirectory S D := by
    intro d hd
    obtain ⟨S, h1, _⟩ := hsetup d hd
    exact ⟨S, h1⟩
  have hreach := backupAll_reach m m.directories w hsetup2
  have hkeep := reach_keeps hreach
  have hlock : Lock D (m.backupAll w m.directories) w (m.performBackup w) := by
    refine ⟨hkeep, hkeep, fun l _ => sameKind_refl _, fun l _ => Or.inr rfl,
      fun l hl hl2 => ?_, fun l hl hd => ?_⟩
    · refine reach_off hreach l ?_
      simp only [Bool.or_eq_true, beq_iff_eq, not_or]
      exact ⟨fun hc => hl (List.isPrefixOf_iff_prefix.mp hc), hl2⟩
    · by_cases hlL : l = w.logLoc
      · subst hlL
        exact backupAll_log_dir m m.directories w hsetup2 hDL hd
      · have : (m.backupAll w m.directories).node l = w.node l := by
          refine reach_off hreach l ?_
          simp only [Bool.or_eq_true, beq_iff_eq, not_or]
          exact ⟨fun hc => hl (List.isPrefixOf_iff_prefix.mp hc), hlL⟩
        rw [← this]; exact hd
  have hF : (m.backupAll w m.directories).WF := reach_wf hreach hw
  have hbwf : (m.performBackup w).WF := hF
  have hkeys := (reach_keys (fun l => D.isPrefixOf l || l == w.logLoc) hreach).symm
  have := lock_backupAll m m.directories w (m.performBackup w) hlock hbwf hsetup hDL hkeys
    (keeps_refl _)
  intro l hl
  rcases this.node l hl with h1 | h1
  · exact h1
  · exact h1

set_option maxRecDepth 100000 in
theorem C6_second_run_keeps_destination_tree_witness :
    exWorldBlocked.WF
    ∧ resolve exWorldBlocked exManagerTwo.backupDirectory = some ["bk".toList]
    ∧ (exManagerTwo.performBackup (exManagerTwo.performBackup exWorldBlocked)).node
          ["bk".toList, "a.txt".toList]
        = (exManagerTwo.performBackup exWorldBlocked).node ["bk".toList, "a.txt".toList] :=
  ⟨by decide, by decide,
    C6_second_run_keeps_destination_tree exManagerTwo exWorldBlocked ["bk".toList]
      (by decide) (by decide) (by decide) (by decide)
      (by
        intro s hs
        simp only [exManagerTwo, List.mem_cons, List.mem_singleton, List.not_mem_nil,
          or_false] at hs
        rcases hs with rfl | rfl
        · exact ⟨["home".toList, "u".toList, "src".toList],
            by decide, by decide, by decide, by decide⟩
        · exact ⟨["home".toList, "u".toList, "src".toList, "sub".toList],
            by decide, by decide, by decide, by decide⟩)
      ["bk".toList, "a.txt".toList] (by decide)⟩

end SPZ


namespace SPZ

/-! ### Where a file of a source ends up -/

theorem mkdirs_reach_take (rel : List Str) (w : World) (l : Loc)
    (hv : ∀ x ∈ rel, validName x = true) (hd : w.node l = some Node.dir)
    (hl : ∀ x ∈ l, validName x = true) :
    Reach (fun t => ∃ j, t = l ++ rel.take j) w (rel.foldl mkdirStep (w, some l)).1 := by
  induction rel generalizing w l with
  | nil => exact Reach.refl w
  | cons n rel ih =>
    have hn : validName n = true := hv n (by simp)
    have hv2 : ∀ x ∈ rel, validName x = true := fun x hx => hv x (by simp [hx])
    have hl2 : ∀ x ∈ l ++ [n], validName x = true := by
      intro x hx
      rw [List.mem_append] at hx
      rcases hx with hx | hx
      · exact hl x hx
      · simp only [List.mem_singleton] at hx; subst hx; exact hn
    have hmono : ∀ t, (∃ j, t = (l ++ [n]) ++ rel.take j) → ∃ j, t = l ++ (n :: rel).take j := by
      rintro t ⟨j, rfl⟩
      exact ⟨j + 1, by simp⟩
    rw [List.foldl_cons, mkdirStep_name w l n hn hd]
    cases hc : w.node (l ++ [n]) with
    | none =>
      simp only
      have hg := goodPut_mkdir w l n hn hd hl hc
      have hd2 : (w.put (l ++ [n]) Node.dir).node (l ++ [n]) = some Node.dir := by
        rw [node_put _ _ _ _ (by simp)]; simp
      exact reach_trans (reach_put w _ _ ⟨1, by simp⟩ hg)
        (reach_mono hmono (ih (w.put (l ++ [n]) Node.dir) (l ++ [n]) hv2 hd2 hl2))
    | some x =>
      cases x with
      | dir =>
        simp only
        exact reach_mono hmono (ih w (l ++ [n]) hv2 hc hl2)
      | file c =>
        simp only
        rw [mkdirFold_none]
        exact Reach.refl w

theorem entry_keeps_target (m : BackupManager) {a : World} {d dest : Str} {S D : Loc}
    (hs : Setup a d dest S D) (rel1 : List Str) (hne : rel1 ≠ [])
    (hv : ∀ x ∈ rel1, validName x = true) (hex : a.node (S ++ rel1) ≠ none) (rel : List Str)
    (h1 : ∀ j, rel ≠ rel1.take j)
    (h2 : (∃ c1, a.node (S ++ rel1) = some (Node.file c1)) → ∀ n1, rel ≠ rel1 ++ [n1]) :
    (m.copyEntry a d dest (entryPath d rel1)).1.node (D ++ rel) = a.node (D ++ rel) := by
  by_cases hx : m.isExcluded (entryPath d rel1) = true
  · rw [copyEntry_excluded m a d dest _ hx]
  · have hx : m.isExcluded (entryPath d rel1) = false := by simpa using hx
    cases hn : a.node (S ++ rel1) with
    | none => exact absurd hn hex
    | some x =>
      cases x with
      | dir =>
        have e1 : (m.copyEntry a d dest (entryPath d rel1)).1
            = (rel1.foldl mkdirStep (a, some D)).1 := by
          rw [copyEntry_dir m hs rel1 hne hv hx hn]
          split <;> rfl
        rw [e1]
        refine reach_off (mkdirs_reach_take rel1 a D hv hs.hDd (setup_valid_D hs)) _ ?_
        rintro ⟨j, hj⟩
        exact h1 j (List.append_cancel_left hj)
      | file c1 =>
        rw [copyEntry_file m hs rel1 hne hv hx c1 hn]
        obtain ⟨r, n, rfl⟩ := exists_snoc rel1 hne
        by_cases hc : a.node (D ++ r) = some Node.dir
            ∧ a.node (copyTarget a (D ++ (r ++ [n])) n) ≠ some Node.dir
        · rw [copy_entry_ok hs c1 r n hv hn hc.1 hc.2]
          have hg := goodPut_copyTarget (w := a) r n c1 (setup_valid_D hs) hv
            ((chain_iff a hs.wf D r n).mpr hc.1) hc.2
          rw [node_put _ _ _ _ hg.1.1]
          have hne2 : D ++ rel ≠ copyTarget a (D ++ (r ++ [n])) n := by
            unfold copyTarget
            split
            · intro e
              rw [List.append_assoc] at e
              exact h2 ⟨c1, hn⟩ n (List.append_cancel_left e)
            · intro e
              have := h1 (r ++ [n]).length
              rw [List.take_length] at this
              exact this (List.append_cancel_left e)
          simp [hne2]
        · have : a.node (D ++ r) ≠ some Node.dir
              ∨ a.node (copyTarget a (D ++ (r ++ [n])) n) = some Node.dir := by
            by_cases hp : a.node (D ++ r) = some Node.dir
            · right
              by_contra hq
              exact hc ⟨hp, hq⟩
            · exact Or.inl hp
          rw [(copy_entry_fail hs c1 r n hv hn this).1]

theorem entry_same (m : BackupManager) {a : World} {s dest : Str} {S D : Loc}
    (hs : Setup a s dest S D) (rel : List Str) (hne : rel ≠ [])
    (hv : ∀ x ∈ rel, validName x = true) (c : Str)
    (hfile : a.node (S ++ rel) = some (Node.file c))
    (hx : m.isExcluded (entryPath s rel) = false) :
    (a.node (D ++ rel) = some (Node.file c) →
        (m.copyEntry a s dest (entryPath s rel)).1.node (D ++ rel) = some (Node.file c))
    ∧ (a.node (D ++ rel) ≠ some Node.dir →
        (m.copyEntry a s dest (entryPath s rel)).1.node (D ++ rel) ≠ some Node.dir)
    ∧ (a.node (D ++ rel) ≠ some Node.dir →
        (m.copyEntry a s dest (entryPath s rel)).2 = none →
        (m.copyEntry a s dest (entryPath s rel)).1.node (D ++ rel) = some (Node.file c)) := by
  rw [copyEntry_file m hs rel hne hv hx c hfile]
  obtain ⟨r, n, rfl⟩ := exists_snoc rel hne
  by_cases hc : a.node (D ++ r) = some Node.dir
      ∧ a.node (copyTarget a (D ++ (r ++ [n])) n) ≠ some Node.dir
  · rw [copy_entry_ok hs c r n hv hfile hc.1 hc.2]
    have key : a.node (D ++ (r ++ [n])) ≠ some Node.dir →
        (a.put (copyTarget a (D ++ (r ++ [n])) n) (Node.file c)).node (D ++ (r ++ [n]))
          = some (Node.file c) := by
      intro hT
      have e1 : copyTarget a (D ++ (r ++ [n])) n = D ++ (r ++ [n]) := by
        unfold copyTarget; rw [if_neg hT]
      rw [e1, node_put _ _ _ _ (by simp)]
      simp
    refine ⟨fun h => key (by rw [h]; simp), fun h => by rw [key h]; simp, fun h _ => key h⟩
  · have : a.node (D ++ r) ≠ some Node.dir
        ∨ a.node (copyTarget a (D ++ (r ++ [n])) n) = some Node.dir := by
      by_cases hp : a.node (D ++ r) = some Node.dir
      · right
        by_contra hq
        exact hc ⟨hp, hq⟩
      · exact Or.inl hp
    obtain ⟨e1, e2⟩ := copy_entry_fail hs c r n hv hfile this
    rw [e1]
    exact ⟨id, id, fun _ h => absurd h e2⟩

end SPZ


namespace SPZ

theorem loop_target (m : BackupManager) {d dest : Str} {S1 D : Loc} (w0 : World)
    (hw0 : w0.WF) (rel : List Str) (hne : rel ≠ []) (c : Str)
    (hx : ∀ p, m.isExcluded p = false) (ns : List (Loc × Node))
    (hns : ∀ e ∈ ns, e ∈ w0.nodes)
    (hcls : ∀ e ∈ ns, ∀ rel1, e.1 = S1 ++ rel1 → rel1 ≠ [] →
      ((∀ j, rel ≠ rel1.take j)
        ∧ ((∃ c1, w0.node e.1 = some (Node.file c1)) → ∀ n1, rel ≠ rel1 ++ [n1]))
      ∨ (rel1 = rel ∧ w0.node e.1 = some (Node.file c))) :
    ∀ a : World, Setup a d dest S1 D → (∀ l, ¬ D <+: l → a.node l = w0.node l) →
      (a.node (D ++ rel) = some (Node.file c) →
        (m.copyEntries d dest a (entriesOf d S1 ns)).1.node (D ++ rel) = some (Node.file c))
      ∧ (a.node (D ++ rel) ≠ some Node.dir →
        (m.copyEntries d dest a (entriesOf d S1 ns)).1.node (D ++ rel) ≠ some Node.dir)
      ∧ (a.node (D ++ rel) ≠ some Node.dir →
        (∃ e ∈ ns, e.1 = S1 ++ rel ∧ w0.node e.1 = some (Node.file c)) →
        (m.copyEntries d dest a (entriesOf d S1 ns)).2 = none →
        (m.copyEntries d dest a (entriesOf d S1 ns)).1.node (D ++ rel)
          = some (Node.file c)) := by
  induction ns with
  | nil =>
    intro a _ _
    refine ⟨id, id, fun _ h _ => ?_⟩
    obtain ⟨e, he, _⟩ := h
    exact absurd he (by simp)
  | cons e ns ih =>
    intro a hs hoff
    have ih2 := ih (fun e1 he1 => hns e1 (by simp [he1]))
      (fun e1 he1 => hcls e1 (by simp [he1]))
    by_cases hin : (S1.isPrefixOf e.1 && e.1 != S1) = true
    · rw [entriesOf_cons_in d S1 e ns hin]
      simp only [Bool.and_eq_true, bne_iff_ne, ne_eq] at hin
      obtain ⟨rel1, hrel⟩ := List.isPrefixOf_iff_prefix.mp hin.1
      have hdrop : e.1.drop S1.length = rel1 := by rw [← hrel]; simp
      have hne1 : rel1 ≠ [] := by
        rintro rfl
        apply hin.2
        rw [← hrel]; simp
      have hmem := hns e (by simp)
      have hv : ∀ x ∈ rel1, validName x = true := by
        intro x hx1
        exact (WF.namesOK hw0).1 e hmem x (by rw [← hrel]; simp [hx1])
      have hene : e.1 ≠ [] := by rw [← hrel]; simp [hne1]
      have hoS : ¬ D <+: S1 ++ rel1 := disjoint_entry hs.hSD hs.hDS rel1
      have hnode : a.node (S1 ++ rel1) = w0.node e.1 := by rw [hoff _ hoS, hrel]
      have hex : a.node (S1 ++ rel1) ≠ none := by
        rw [hnode]; exact node_of_mem w0 e hmem hene
      rw [hdrop]
      have hr := entry_reach m hs rel1 hne1 hv hex
      have hstep : (a.node (D ++ rel) = some (Node.file c) →
            (m.copyEntry a d dest (entryPath d rel1)).1.node (D ++ rel) = some (Node.file c))
          ∧ (a.node (D ++ rel) ≠ some Node.dir →
            (m.copyEntry a d dest (entryPath d rel1)).1.node (D ++ rel) ≠ some Node.dir)
          ∧ (a.node (D ++ rel) ≠ some Node.dir → e.1 = S1 ++ rel →
            (m.copyEntry a d dest (entryPath d rel1)).2 = none →
            (m.copyEntry a d dest (entryPath d rel1)).1.node (D ++ rel)
              = some (Node.file c)) := by
        rcases hcls e (by simp) rel1 hrel.symm hne1 with ⟨h1, h2⟩ | ⟨h1, h2⟩
        · have := entry_keeps_target m hs rel1 hne1 hv hex rel h1 (by rw [hnode]; exact h2)
          rw [this]
          refine ⟨id, id, fun _ he _ => ?_⟩
          exfalso
          rw [← hrel] at he
          have := h1 rel1.length
          rw [List.take_length] at this
          exact this (List.append_cancel_left he).symm
        · subst h1
          have := entry_same m hs rel1 hne1 hv c (by rw [hnode]; exact h2) (hx _)
          exact ⟨this.1, this.2.1, fun h _ h3 => this.2.2 h h3⟩
      simp only [BackupManager.copyEntries]
      cases hc : m.copyEntry a d dest (entryPath d rel1) with
      | mk a1 r1 =>
        rw [hc] at hr hstep
        simp only at hstep
        cases r1 with
        | some err =>
          exact ⟨hstep.1, hstep.2.1, fun _ _ h => absurd h (by simp)⟩
        | none =>
          simp only
          obtain ⟨i1, i2, i3⟩ := ih2 a1 (setup_reach hs hr)
            (fun l hl => by rw [reach_off hr l hl]; exact hoff l hl)
          refine ⟨fun h => i1 (hstep.1 h), fun h => i2 (hstep.2.1 h), fun h hex2 hok => ?_⟩
          obtain ⟨e2, he2, he2a, he2b⟩ := hex2
          rw [List.mem_cons] at he2
          rcases he2 with rfl | he2
          · exact i1 (hstep.2.2 h he2a rfl)
          · exact i3 (hstep.2.1 h) ⟨e2, he2, he2a, he2b⟩ hok
    · rw [entriesOf_cons_out d S1 e ns hin]
      obtain ⟨i1, i2, i3⟩ := ih2 a hs hoff
      refine ⟨i1, i2, fun h hex2 hok => i3 h ?_ hok⟩
      obtain ⟨e2, he2, he2a, he2b⟩ := hex2
      rw [List.mem_cons] at he2
      rcases he2 with rfl | he2
      · exfalso
        apply hin
        simp only [Bool.and_eq_true, bne_iff_ne, ne_eq]
        refine ⟨List.isPrefixOf_iff_prefix.mpr ⟨rel, he2a.symm⟩, ?_⟩
        rw [he2a]
        intro e3
        have := congrArg List.length e3
        simp only [List.length_append] at this
        have : rel.length = 0 := by omega
        exact hne (List.length_eq_zero.mp this)
      · exact ⟨e2, he2, he2a, he2b⟩

theorem source_target (m : BackupManager) {a : World} {d : Str} {S1 D : Loc}
    (hs : Setup a d m.backupDirectory S1 D) (w : World)
    (hoffw : ∀ l, ¬ D <+: l → a.node l = w.node l) (S : Loc) (rel : List Str) (c : Str)
    (hne : rel ≠ []) (hfile : w.node (S ++ rel) = some (Node.file c))
    (hSD : ¬ S <+: D) (hDS : ¬ D <+: S)
    (hcoll : S1 ≠ S → w.node (S1 ++ rel) = none
      ∧ ∀ c1, w.node (S1 ++ rel.dropLast) ≠ some (Node.file c1))
    (hx : m.exclusions = []) :
    (a.node (D ++ rel) = some (Node.file c) →
        (m.copyDirectory a d m.backupDirectory).1.node (D ++ rel) = some (Node.file c))
    ∧ (a.node (D ++ rel) ≠ some Node.dir →
        (m.copyDirectory a d m.backupDirectory).1.node (D ++ rel) ≠ some Node.dir)
    ∧ (a.node (D ++ rel) ≠ some Node.dir → S1 = S →
        (m.copyDirectory a d m.backupDirectory).2 = none →
        (m.copyDirectory a d m.backupDirectory).1.node (D ++ rel) = some (Node.file c)) := by
  have hxp : ∀ p, m.isExcluded p = false := by
    intro p
    simp [BackupManager.isExcluded, hx]
  have hfa : a.node (S ++ rel) = some (Node.file c) := by
    rw [hoffw _ (disjoint_entry hSD hDS rel)]; exact hfile
  unfold BackupManager.copyDirectory
  by_cases hd : a.node S1 = some Node.dir
  · rw [iterator_eq a d S1 hs.hS hd]
    have hcls : ∀ e ∈ a.nodes, ∀ rel1, e.1 = S1 ++ rel1 → rel1 ≠ [] →
        ((∀ j, rel ≠ rel1.take j)
          ∧ ((∃ c1, a.node e.1 = some (Node.file c1)) → ∀ n1, rel ≠ rel1 ++ [n1]))
        ∨ (rel1 = rel ∧ a.node e.1 = some (Node.file c)) := by
      intro e he rel1 hrel hne1
      have hene : e.1 ≠ [] := by rw [hrel]; simp [hne1]
      have hex : a.node (S1 ++ rel1) ≠ none := by
        rw [← hrel]; exact node_of_mem a e he hene
      by_cases hSS : S1 = S
      · subst hSS
        by_cases hrr : rel1 = rel
        · right
          exact ⟨hrr, by rw [hrel, hrr]; exact hfa⟩
        · left
          refine ⟨fun j hj => ?_, fun hc1 n1 hn1 => ?_⟩
          · by_cases hjl : j < rel1.length
            · have := wf_chain a hs.wf S1 rel1 hex j hjl
              rw [← hj, hfa] at this
              exact absurd this (by simp)
            · rw [List.take_of_length_le (Nat.le_of_not_lt hjl)] at hj
              exact hrr hj.symm
          · obtain ⟨c1, hc1⟩ := hc1
            have := wf_parent a hs.wf (S1 ++ rel) (by simp [hne]) (by rw [hfa]; simp)
            rw [hn1, ← List.append_assoc, List.dropLast_concat, ← hrel, hc1] at this
            exact absurd this (by simp)
      · left
        obtain ⟨hc1, hc2⟩ := hcoll hSS
        have hoS : ∀ r2, a.node (S1 ++ r2) = w.node (S1 ++ r2) :=
          fun r2 => hoffw _ (disjoint_entry hs.hSD hs.hDS r2)
        refine ⟨fun j hj => ?_, fun hcf n1 hn1 => ?_⟩
        · have hex2 : a.node (S1 ++ rel) ≠ none := by
            by_cases hjl : j < rel1.length
            · have := wf_chain a hs.wf S1 rel1 hex j hjl
              rw [← hj] at this
              rw [this]; simp
            · rw [List.take_of_length_le (Nat.le_of_not_lt hjl)] at hj
              rw [hj]; exact hex
          rw [hoS, hc1] at hex2
          exact hex2 rfl
        · obtain ⟨c1, hcf⟩ := hcf
          have : rel.dropLast = rel1 := by rw [hn1, List.dropLast_concat]
          rw [hrel, hoS, ← this] at hcf
          exact hc2 c1 hcf
    obtain ⟨i1, i2, i3⟩ := loop_target m a hs.wf rel hne c hxp a.nodes (fun _ h => h) hcls a hs
      (fun _ _ => rfl)
    refine ⟨i1, i2, fun h hSS hok => i3 h ?_ hok⟩
    subst hSS
    have hlk : a.nodes.lookup (S1 ++ rel) = some (Node.file c) := by
      rw [← node_ne_nil a _ (by simp [hne])]; exact hfa
    exact ⟨(S1 ++ rel, Node.file c), mem_of_lookup _ _ _ hlk, rfl, hfa⟩
  · rw [iterator_none a d S1 hs.hS hd]
    exact ⟨id, id, fun _ _ h => absurd h (by simp)⟩

theorem backupAll_target (m : BackupManager) (w : World) (D S : Loc) (rel : List Str)
    (c : Str) (hw : w.WF) (hx : m.exclusions = [])
    (hD : resolve w m.backupDirectory = some D) (hDd : w.node D = some Node.dir)
    (hne : rel ≠ []) (hfile : w.node (S ++ rel) = some (Node.file c))
    (hSD : ¬ S <+: D) (hDS : ¬ D <+: S) (ds : List Str) :
    ∀ a : World, Reach (fun k => D <+: k) w a →
      (∀ d ∈ ds, ∃ S1, resolve w d = some S1 ∧ ¬ S1 <+: D ∧ ¬ D <+: S1
        ∧ (S1 ≠ S → w.node (S1 ++ rel) = none
            ∧ ∀ c1, w.node (S1 ++ rel.dropLast) ≠ some (Node.file c1))) →
      m.noCopyError a ds = true →
      (a.node (D ++ rel) = some (Node.file c) →
        (m.backupAll a ds).node (D ++ rel) = some (Node.file c))
      ∧ (a.node (D ++ rel) ≠ some Node.dir → (∃ d ∈ ds, resolve w d = some S) →
        (m.backupAll a ds).node (D ++ rel) = some (Node.file c)) := by
  induction ds with
  | nil =>
    intro a _ _ _
    refine ⟨id, fun _ h => ?_⟩
    obtain ⟨d, hd, _⟩ := h
    exact absurd hd (by simp)
  | cons d ds ih =>
    intro a hr hsrc hok
    obtain ⟨S1, hS1, hS1D, hDS1, hcoll⟩ := hsrc d (by simp)
    have hsw : Setup w d m.backupDirectory S1 D := ⟨hw, hS1, hD, hDd, hS1D, hDS1⟩
    have hs := setup_reach hsw hr
    simp only [BackupManager.noCopyError, Bool.and_eq_true, Option.isNone_iff_eq_none] at hok
    have hone : m.backupOne a d = (m.copyDirectory a d m.backupDirectory).1 := by
      unfold BackupManager.backupOne
      cases hc : m.copyDirectory a d m.backupDirectory with
      | mk a1 r =>
        rw [hc] at hok
        simp only at hok
        rw [hok.1]
    have hr1 := reach_trans hr (copyDirectory_reach m hs)
    obtain ⟨t1, t2, t3⟩ := source_target m hs w (fun l hl => reach_off hr l hl) S rel c hne
      hfile hSD hDS hcoll hx
    obtain ⟨i1, i2⟩ := ih _ hr1 (fun d2 hd2 => hsrc d2 (by simp [hd2])) hok.2
    rw [backupAll_cons, hone]
    refine ⟨fun h => i1 (t1 h), fun h hex => ?_⟩
    by_cases hSS : S1 = S
    · exact i1 (t3 h hSS hok.1)
    · refine i2 (t2 h) ?_
      obtain ⟨d2, hd2, hd2S⟩ := hex
      rw [List.mem_cons] at hd2
      rcases hd2 with rfl | hd2
      · rw [hS1] at hd2S
        exact absurd (Option.some.inj hd2S) hSS
      · exact ⟨d2, hd2, hd2S⟩

set_option maxRecDepth 100000 in
/-- C1 (counterexample): with two registered sources that both hold `x.txt`, the
destination ends with the content of the second, not of the first; and where the
destination already holds a directory named `a.txt`, the file `a.txt` of the
source is copied into that directory, which stays a directory.  In both runs the
exclusion set is empty and no copy throws. -/
theorem C1_counterexample_twins_and_directory_at_target :
    (exManagerTwins.exclusions = []
      ∧ exManagerTwins.noCopyError exWorldTwins exManagerTwins.directories = true
      ∧ exWorldTwins.node ["home".toList, "u".toList, "s1".toList, "x.txt".toList]
          = some (Node.file "ONE".toList)
      ∧ (exManagerTwins.performBackup exWorldTwins).node ["bk".toList, "x.txt".toList]
          = some (Node.file "TWO".toList))
    ∧ (exManagerOne.exclusions = []
      ∧ exManagerOne.noCopyError exWorldDirAtTarget exManagerOne.directories = true
      ∧ exWorldDirAtTarget.node ["home".toList, "u".toList, "src".toList, "a.txt".toList]
          = some (Node.file "A".toList)
      ∧ (exManagerOne.performBackup exWorldDirAtTarget).node ["bk".toList, "a.txt".toList]
          = some Node.dir
      ∧ (exManagerOne.performBackup exWorldDirAtTarget).node
          ["bk".toList, "a.txt".toList, "a.txt".toList] = some (Node.file "A".toList)) := by
  decide

/-- C1 (amended): let the exclusion set be empty and no copy throw, let the
destination be a directory and every registered source lie apart from it (neither
inside the other).  Then a regular file at the relative path `rel` under a
registered source is, after `performBackup`, a regular file with the same content
at destination / `rel` (whatever was there before, a directory excepted), provided
no other registered source has an entry at `rel` or a regular file at the parent
of `rel`. -/
theorem C1_source_file_is_mirrored (m : BackupManager) (w : World) (D S : Loc) (s : Str)
    (rel : List Str) (c : Str) (hw : w.WF) (hx : m.exclusions = [])
    (hD : resolve w m.backupDirectory = some D) (hDd : w.node D = some Node.dir)
    (hs : s ∈ m.directories) (hS : resolve w s = some S)
    (hsrc : ∀ d ∈ m.directories, ∃ S1, resolve w d = some S1 ∧ ¬ S1 <+: D ∧ ¬ D <+: S1
      ∧ (S1 ≠ S → w.node (S1 ++ rel) = none
          ∧ ∀ c1, w.node (S1 ++ rel.dropLast) ≠ some (Node.file c1)))
    (hok : m.noCopyError w m.directories = true)
    (hne : rel ≠ []) (hfile : w.node (S ++ rel) = some (Node.file c))
    (hT : w.node (D ++ rel) ≠ some Node.dir) :
    (m.performBackup w).node (D ++ rel) = some (Node.file c) := by
  obtain ⟨S1, hS1, hSD, hDS, _⟩ := hsrc s hs
  rw [hS] at hS1
  have e := Option.some.inj hS1
  subst e
  exact (backupAll_target m w D S rel c hw hx hD hDd hne hfile hSD hDS m.directories w
    (Reach.refl w) hsrc hok).2 hT ⟨s, hs, hS⟩

set_option maxRecDepth 100000 in
theorem C1_source_file_is_mirrored_witness :
    exWorldStale.WF
    ∧ exManagerTwo.noCopyError exWorldStale exManagerTwo.directories = true
    ∧ exWorldStale.node (["home".toList, "u".toList, "src".toList] ++ ["a.txt".toList])
        = some (Node.file "A".toList)
    ∧ exWorldStale.node (["bk".toList] ++ ["a.txt".toList]) = some (Node.file "OLD".toList)
    ∧ (exManagerTwo.performBackup exWorldStale).node (["bk".toList] ++ ["a.txt".toList])
        = some (Node.file "A".toList) :=
  ⟨by decide, by decide, by decide, by decide,
    C1_source_file_is_mirrored exManagerTwo exWorldStale ["bk".toList]
      ["home".toList, "u".toList, "src".toList] "/home/u/src".toList ["a.txt".toList]
      "A".toList (by decide) rfl (by decide) (by decide) (by decide) (by decide)
      (by
        intro d hd
        simp only [exManagerTwo, List.mem_cons, List.mem_singleton, List.not_mem_nil,
          or_false] at hd
        rcases hd with rfl | rfl
        · exact ⟨["home".toList, "u".toList, "src".toList],
            by decide, by decide, by decide, fun h => absurd rfl h⟩
        · exact ⟨["home".toList, "u".toList, "src".toList, "sub".toList],
            by decide, by decide, by decide, fun _ => ⟨by decide, fun c1 hc => by
              have h2 : exWorldStale.node (["home".toList, "u".toList, "src".toList,
                  "sub".toList] ++ ["a.txt".toList].dropLast) = some Node.dir := by decide
              rw [h2] at hc
              exact Node.noConfusion (Option.some.inj hc)⟩⟩)
      (by decide) (by decide) (by decide) (by decide)⟩

end SPZ


namespace SPZ

/-! ### The absolute form of a path designates the same location -/

theorem splitSlash_current (cs : List Str) (hv : ∀ n ∈ cs, validName n = true) :
    splitSlash ((cs.map (fun n => '/' :: n)).flatten) = [] :: cs := by
  induction cs using List.reverseRecOn with
  | nil => rfl
  | append_singleton cs n ih =>
    have hn : '/' ∉ n := ((validName_iff n).mp (hv n (by simp))).2.2.2
    rw [List.map_append, List.flatten_append]
    simp only [List.map_cons, List.map_nil, List.flatten_cons, List.flatten_nil,
      List.append_nil]
    rw [splitSlash_append_slash, ih (fun x hx => hv x (by simp [hx])), splitSlash_noslash n hn]
    rfl

theorem walk_cwd (w : World) (hw : w.WF) :
    w.cwd.foldl (walkStep w) (some []) = some w.cwd := by
  rw [walk_names_eq w w.cwd [] (WF.namesOK hw).2, if_pos]
  · simp
  · intro k hk
    exact wf_chain w hw [] w.cwd (by simp only [List.nil_append]; rw [hw.2.1]; simp) k hk

theorem resolve_absolute (w : World) (hw : w.WF) (p : Str) (hp : p ≠ []) :
    resolve w (absolute w p) = resolve w p := by
  unfold absolute
  rw [if_neg hp]
  by_cases habs : is_absolute p = true
  · simp [pathAppend, habs]
  · have hroot : walkStep w (some []) [] = some [] := by simp [walkStep, node_root]
    simp only [pathAppend, habs, Bool.false_eq_true, if_false]
    have hrel : resolve w p = (splitSlash p).foldl (walkStep w) (some w.cwd) := by
      simp only [resolve, hp, if_false, habs, Bool.false_eq_true]
    by_cases hc : w.cwd = []
    · have hcur : current_path w = ['/'] := by simp [current_path, hc]
      have hf : has_filename ['/'] = false := by decide
      rw [hcur, hf, hrel, hc]
      simp only [Bool.false_eq_true, if_false, resolve, List.singleton_append]
      have e1 : is_absolute ('/' :: p) = true := by simp [is_absolute]
      rw [if_neg (by simp), e1]
      simp only [if_true, splitSlash, List.foldl_cons, hroot]
    · have hcur : current_path w = (w.cwd.map (fun n => '/' :: n)).flatten := by
        simp [current_path, hc]
      have hsp := splitSlash_current w.cwd (WF.namesOK hw).2
      obtain ⟨cs, n, hcn⟩ := exists_snoc w.cwd hc
      have hnv : validName n = true := (WF.namesOK hw).2 n (by rw [hcn]; simp)
      have hf : has_filename (current_path w) = true := by
        rw [hcur]
        unfold has_filename filename
        rw [hsp, hcn]
        have hn1 : n ≠ [] := ((validName_iff n).mp hnv).1
        have e2 : ([] :: (cs ++ [n])).getLast? = some n := by
          rw [show ([] : Str) :: (cs ++ [n]) = (([] : Str) :: cs) ++ [n] from rfl,
            List.getLast?_append_of_ne_nil _ (by simp)]
          rfl
        rw [e2]
        simp [hn1]
      have hne : current_path w ++ '/' :: p ≠ [] := by simp
      have e1 : is_absolute (current_path w ++ '/' :: p) = true :=
        is_absolute_append_left _ _ (is_absolute_current_path w)
      rw [hf, hrel]
      simp only [if_true, resolve, hne, if_false, e1]
      rw [splitSlash_append_slash, hcur, hsp, List.foldl_append, List.foldl_cons, hroot,
        walk_cwd w hw]

/-- C8 (amended): for a path that exists, `addExclusion(path)` inserts
`absolute(path)` into the exclusion set and nothing else, and leaves the world
alone; that string is absolute, designates the same location as the argument, and
ends with the argument as it was written (its `.` and `..` components are kept);
the members of the exclusion set stay absolute paths. -/
theorem C8_addExclusion_inserts_absolute_path (m : BackupManager) (w : World) (path : Str)
    (hw : w.WF) (h : fs_exists w path = true) :
    (m.addExclusion w path).1.exclusions = setInsert m.exclusions (absolute w path)
    ∧ (∀ e ∈ (m.addExclusion w path).1.exclusions, e ∈ m.exclusions ∨ e = absolute w path)
    ∧ (m.addExclusion w path).1.directories = m.directories
    ∧ (m.addExclusion w path).2 = w
    ∧ is_absolute (absolute w path) = true
    ∧ resolve w (absolute w path) = resolve w path
    ∧ path <:+ absolute w path
    ∧ ((∀ e ∈ m.exclusions, is_absolute e = true) →
        ∀ e ∈ (m.addExclusion w path).1.exclusions, is_absolute e = true) := by
  have hne := fs_exists_ne_nil w path h
  simp only [BackupManager.addExclusion, h, if_true]
  refine ⟨trivial, fun e he => mem_setInsert _ _ _ he, trivial, trivial,
    is_absolute_absolute w path hne, resolve_absolute w hw path hne, suffix_absolute w path, ?_⟩
  intro hall e he
  rcases mem_setInsert _ _ _ he with h1 | h1
  · exact hall e h1
  · rw [h1]; exact is_absolute_absolute w path hne

set_option maxRecDepth 100000 in
theorem C8_addExclusion_inserts_absolute_path_witness :
    exWorld.WF ∧ fs_exists exWorld "./src/sub".toList = true
    ∧ (exManager.addExclusion exWorld "./src/sub".toList).1.exclusions
        = setInsert exManager.exclusions (absolute exWorld "./src/sub".toList)
    ∧ "./src/sub".toList <:+ absolute exWorld "./src/sub".toList :=
  ⟨by decide, by decide,
    (C8_addExclusion_inserts_absolute_path exManager exWorld "./src/sub".toList (by decide)
      (by decide)).1,
    (C8_addExclusion_inserts_absolute_path exManager exWorld "./src/sub".toList (by decide)
      (by decide)).2.2.2.2.2.2.1⟩

end SPZ
